import Mathlib

/-!
Verification development for the Cohen–Feng–Eades c-connected
cluster-planarity test (`CconnectClusterPlanar`).

The repository ships only the class declaration
(`include/ogdf/cluster/CconnectClusterPlanar.h`); the member-function
bodies are not part of the source tree.  Following the specification,
the decision procedure `call` and its surrounding data model are
therefore modelled from the spec: finite simple graphs, a rooted
cluster tree, combinatorial (rotation-system) embeddings with Euler's
face-count criterion for planarity, the per-cluster single-face-region
condition, and the precondition / error-code pipeline of the driver.
The `ErrorCode` enumeration itself is taken directly from the header.
-/

/-- Terminal classification of a run, from the header
`CconnectClusterPlanar.h` (enum class `ErrorCode`). -/
inductive ErrorCode where
  | none
  | nonConnected
  | nonCConnected
  | nonPlanar
  | nonCPlanar
deriving DecidableEq, Repr

/-- Underlying integer value of each enumerator, as fixed in the header:
`none = 0, nonConnected = 1, nonCConnected = 2, nonPlanar = 3, nonCPlanar = 4`. -/
def ErrorCode.toNat : ErrorCode → Nat
  | .none => 0
  | .nonConnected => 1
  | .nonCConnected => 2
  | .nonPlanar => 3
  | .nonCPlanar => 4

/-- Modelled from the spec: a finite simple graph (`Graph / Node / Edge`
incidence structure of §3), with vertices named by naturals and each
edge stored once with its smaller endpoint first. -/
structure FGraph where
  verts : List Nat
  edges : List (Nat × Nat)
deriving DecidableEq, Repr

/-- Well-formedness: vertex names are distinct, every edge joins two
distinct listed vertices (canonically oriented), and no edge repeats. -/
def FGraph.wfb (G : FGraph) : Bool :=
  G.verts.Nodup && G.edges.Nodup &&
    G.edges.all (fun e => e.1 ∈ G.verts && e.2 ∈ G.verts && e.1 < e.2)

/-- Neighbors of a vertex, in edge-list order. -/
def FGraph.neighbors (G : FGraph) (v : Nat) : List Nat :=
  G.edges.filterMap (fun e =>
    if e.1 = v then some e.2 else if e.2 = v then some e.1 else none)

/-- Darts (directed edge sides): each edge contributes both orientations. -/
def FGraph.darts (G : FGraph) : List (Nat × Nat) :=
  G.edges.flatMap (fun e => [(e.1, e.2), (e.2, e.1)])

/-- One step of breadth-first growth of a reached set. -/
def reachStep (G : FGraph) (s : List Nat) : List Nat :=
  s ++ G.verts.filter (fun v => v ∉ s && (G.neighbors v).any (· ∈ s))

/-- Iterated growth. -/
def reachIter (G : FGraph) : Nat → List Nat → List Nat
  | 0, s => s
  | n + 1, s => reachIter G n (reachStep G s)

/-- Vertices reachable from `v` (iterating once per vertex suffices). -/
def reachFrom (G : FGraph) (v : Nat) : List Nat :=
  reachIter G G.verts.length [v]

/-- Modelled from the spec: the flat-connectivity predicate used by the
driver's first precondition. -/
def connectedb (G : FGraph) : Bool :=
  match G.verts with
  | [] => true
  | v :: _ => G.verts.all (· ∈ reachFrom G v)

def compCountAux (G : FGraph) : Nat → List Nat → Nat
  | 0, _ => 0
  | _ + 1, [] => 0
  | n + 1, v :: rest =>
    1 + compCountAux G n (rest.filter (fun w => w ∉ reachFrom G v))

/-- Number of connected components of the graph. -/
def FGraph.compCount (G : FGraph) : Nat :=
  compCountAux G G.verts.length G.verts

/-- Subgraph induced by a vertex subset: member vertices and the edges
with both endpoints inside (spec §4.1, precondition 2). -/
def inducedGraph (G : FGraph) (c : List Nat) : FGraph :=
  ⟨G.verts.filter (· ∈ c), G.edges.filter (fun e => e.1 ∈ c && e.2 ∈ c)⟩

/-- Modelled from the spec: the rooted cluster tree of a `ClusterGraph`
(§3 `Cluster`: member vertices plus owned child clusters). -/
inductive CTree where
  | node (members : List Nat) (children : List CTree)

def CTree.members : CTree → List Nat
  | .node ms _ => ms

def CTree.children : CTree → List CTree
  | .node _ cs => cs

mutual

/-- Member lists of all clusters in the subtree, the cluster itself first. -/
def allClusters : CTree → List (List Nat)
  | .node ms cs => ms :: allClustersList cs

def allClustersList : List CTree → List (List Nat)
  | [] => []
  | t :: ts => allClusters t ++ allClustersList ts

end

/-- Modelled from the spec: a `ClusterGraph` value — an underlying graph
together with the rooted cluster tree. -/
structure CluGraph where
  graph : FGraph
  root : CTree

/-- Modelled from the spec: every cluster's induced subgraph must be
connected (the c-connectivity precondition). -/
def allClustersConnectedb (C : CluGraph) : Bool :=
  (allClusters C.root).all (fun ms => connectedb (inducedGraph C.graph ms))

/-- All ways to insert an element into a list. -/
def insertEverywhere (x : Nat) : List Nat → List (List Nat)
  | [] => [[x]]
  | y :: ys => (x :: y :: ys) :: (insertEverywhere x ys).map (y :: ·)

/-- All permutations of a list, by structural recursion. -/
def perms : List Nat → List (List Nat)
  | [] => [[]]
  | x :: xs => (perms xs).flatMap (insertEverywhere x)

/-- Candidate rotation lists around one vertex: every ordering of the
neighbor list (each cyclic order therefore appears, once per starting
point). -/
def rotCandidates (l : List Nat) : List (List Nat) :=
  perms l

/-- Association lists pairing each vertex of `vs` with one candidate
cyclic order of its neighbors. -/
def rotFold (G : FGraph) : List Nat → List (List (Nat × List Nat))
  | [] => [[]]
  | v :: vs =>
    (rotCandidates (G.neighbors v)).flatMap (fun rot => (rotFold G vs).map ((v, rot) :: ·))

/-- All rotation systems of a graph: one cyclic neighbor order for each
vertex, as an association list in vertex order. -/
def allRotSystems (G : FGraph) : List (List (Nat × List Nat)) :=
  rotFold G G.verts

/-- Rotation list attached to a vertex by an association list. -/
def lookupRot (ρ : List (Nat × List Nat)) (v : Nat) : List Nat :=
  match ρ.find? (fun p => p.1 = v) with
  | some p => p.2
  | Option.none => []

/-- The element following `x` in the list read cyclically. -/
def cyclicNext (l : List Nat) (x : Nat) : Nat :=
  if h : x ∈ l then
    l.get ⟨(l.indexOf x + 1) % l.length, Nat.mod_lt _ (List.length_pos.mpr (List.ne_nil_of_mem h))⟩
  else x

/-- Face-successor permutation on darts: entering `v` along `(u, v)`,
the face walk leaves along the rotation successor of `u` around `v`. -/
def faceSucc (ρ : List (Nat × List Nat)) (d : Nat × Nat) : Nat × Nat :=
  (d.2, cyclicNext (lookupRot ρ d.2) d.1)

/-- Remove the orbit of the successor map `σ` through `d` from the
remaining dart list. -/
def removeOrbit (σ : Nat × Nat → Nat × Nat) :
    Nat → (Nat × Nat) → List (Nat × Nat) → List (Nat × Nat)
  | 0, _, rem => rem
  | fuel + 1, d, rem =>
    if d ∈ rem then removeOrbit σ fuel (σ d) (rem.erase d) else rem

/-- Count orbits of the successor map among the remaining darts. -/
def countOrbits (σ : Nat × Nat → Nat × Nat) :
    Nat → List (Nat × Nat) → Nat
  | 0, _ => 0
  | _ + 1, [] => 0
  | fuel + 1, d :: rem =>
    1 + countOrbits σ fuel (removeOrbit σ (fuel + 1) d (d :: rem))

/-- Vertices with no incident edge; each bounds one face of its own. -/
def FGraph.isolatedCount (G : FGraph) : Nat :=
  (G.verts.filter (fun v => G.neighbors v = [])).length

/-- Number of faces of the embedding described by a rotation system. -/
def faceCount (G : FGraph) (ρ : List (Nat × List Nat)) : Nat :=
  countOrbits (faceSucc ρ) G.darts.length G.darts + G.isolatedCount

/-- Modelled from the spec: Euler's criterion — the rotation system is a
planar (genus-zero) embedding when `|V| + F = |E| + 2·components`. -/
def planarCheck (G : FGraph) (ρ : List (Nat × List Nat)) : Bool :=
  G.verts.length + faceCount G ρ == G.edges.length + 2 * G.compCount

/-- Modelled from the spec: the plain (unclustered) planarity predicate —
some rotation system satisfies Euler's criterion. -/
def planarb (G : FGraph) : Bool :=
  (allRotSystems G).any (planarCheck G)

/-- Scan cyclic successors in `l` starting after `y`, returning the
first element that belongs to `c`. -/
def scanForMember (c l : List Nat) : Nat → Nat → Option Nat
  | 0, _ => Option.none
  | k + 1, y =>
    let z := cyclicNext l y
    if z ∈ c then some z else scanForMember c l k z

/-- Corner at which a cut dart `(u, x)` (with `u` in the cluster, `x`
outside) attaches to the cluster-induced embedding: the induced dart
from `u` to the first cluster member following `x` around `u`. -/
def cornerOf (c : List Nat) (ρ : List (Nat × List Nat)) (d : Nat × Nat) :
    Option (Nat × Nat) :=
  (scanForMember c (lookupRot ρ d.1) (lookupRot ρ d.1).length d.2).map (fun a => (d.1, a))

/-- Rotation system induced on a vertex subset. -/
def inducedRot (c : List Nat) (ρ : List (Nat × List Nat)) : List (Nat × List Nat) :=
  ρ.map (fun p => (p.1, p.2.filter (· ∈ c)))

/-- Collect the orbit of the successor map through `d` (bounded walk). -/
def faceOrbit (σ : Nat × Nat → Nat × Nat) :
    Nat → (Nat × Nat) → List (Nat × Nat) → List (Nat × Nat)
  | 0, _, acc => acc
  | k + 1, d, acc => if d ∈ acc then acc else faceOrbit σ k (σ d) (d :: acc)

/-- Modelled from the spec: the cluster lies within a single face region
uncrossed by external edges — all cut darts of the cluster attach at
corners lying on one common face of the cluster-induced embedding. -/
def respectsb (G : FGraph) (ρ : List (Nat × List Nat)) (c : List Nat) : Bool :=
  let cuts := G.darts.filter (fun d => d.1 ∈ c && d.2 ∉ c)
  match cuts.filterMap (cornerOf c ρ) with
  | [] => true
  | d :: rest =>
    let ρc := inducedRot c ρ
    let Gc := inducedGraph G c
    rest.all (· ∈ faceOrbit (faceSucc ρc) (Gc.darts.length + 1) d [])

/-- Modelled from the spec: the local success condition of the recursive
`planarityTest` at one cluster — some rotation system of the working
graph is a planar embedding respecting every cluster of the subtree. -/
def subtreeOK (G : FGraph) (t : CTree) : Bool :=
  (allRotSystems G).any (fun ρ =>
    planarCheck G ρ && (allClusters t).all (respectsb G ρ))

/-- Modelled from the spec: the Cohen–Feng–Eades failure classification —
`nonPlanar` when the flat graph itself is non-planar, `nonCPlanar` when
it is planar but the hierarchy cannot be respected. -/
def failCode (G : FGraph) : ErrorCode :=
  if planarb G then .nonCPlanar else .nonPlanar

mutual

/-- Modelled from the spec: the recursive post-order `planarityTest` —
children first, any child failure aborts immediately and propagates its
code unchanged; then the cluster's own local test. -/
def testTree (G : FGraph) : CTree → Except ErrorCode Unit
  | .node ms cs =>
    match testChildren G cs with
    | .error e => .error e
    | .ok _ =>
      if subtreeOK G (.node ms cs) then .ok () else .error (failCode G)

/-- Left-to-right traversal of the child list, stopping at the first
failing child. -/
def testChildren (G : FGraph) : List CTree → Except ErrorCode Unit
  | [] => .ok ()
  | t :: ts =>
    match testTree G t with
    | .error e => .error e
    | .ok _ => testChildren G ts

end

/-- Modelled from the spec: the driver `CconnectClusterPlanar::call` —
flat-connectivity precondition, then c-connectivity precondition, then
the recursive test from the root cluster; result paired with the
terminal `ErrorCode` (default `none`). -/
def callResult (C : CluGraph) : Bool × ErrorCode :=
  if ¬ connectedb C.graph then (false, .nonConnected)
  else if ¬ allClustersConnectedb C then (false, .nonCConnected)
  else
    match testTree C.graph C.root with
    | .ok _ => (true, .none)
    | .error e => (false, e)

/-- A rotation system that is a planar embedding of the graph. -/
def IsPlanarEmbedding (G : FGraph) (ρ : List (Nat × List Nat)) : Prop :=
  ρ ∈ allRotSystems G ∧ planarCheck G ρ = true

/-- Modelled from the spec: c-planarity witness — a planar combinatorial
embedding in which every cluster's induced subgraph lies within a single
face region uncrossed by edges external to the cluster. -/
def cPlanarEmbedding (C : CluGraph) : Prop :=
  ∃ ρ, IsPlanarEmbedding C.graph ρ ∧
    ∀ ms ∈ allClusters C.root, respectsb C.graph ρ ms = true

/-- Trivial clustering whose sole cluster is the whole vertex set. -/
def trivialTree (G : FGraph) : CTree :=
  .node G.verts []

/-- Clustering in which every vertex is its own singleton cluster under
the root. -/
def singletonTree (G : FGraph) : CTree :=
  .node G.verts (G.verts.map (fun v => .node [v] []))

/-- Modelled from the spec: the stateful tester object — its single
mutable member is the terminal error code, reset by each run. -/
structure Tester where
  errorCode : ErrorCode

/-- A fresh tester (constructor initializes the status to `none`). -/
def Tester.init : Tester :=
  ⟨.none⟩

/-- Modelled from the spec: one invocation of `call` on the tester —
the verdict is computed from the input alone and the status member is
overwritten with the run's terminal code. -/
def Tester.call (_t : Tester) (C : CluGraph) : Tester × Bool :=
  (⟨(callResult C).2⟩, (callResult C).1)

/-- Modelled from the spec: the run-scoped state — the caller's cluster
graph (held by read-only reference) alongside the driver's private
working copy of the underlying graph. -/
structure RunState where
  caller : CluGraph
  working : FGraph

/-- Start of a run: the working copy is initialized from the caller's
underlying graph. -/
def initRun (C : CluGraph) : RunState :=
  ⟨C, C.graph⟩

/-- A structural surgery (parallel-edge folding, wheel substitution)
applies to the working copy only. -/
def applySurgery (f : FGraph → FGraph) (s : RunState) : RunState :=
  ⟨s.caller, f s.working⟩

/-- Run a sequence of surgeries over the working copy. -/
def runSurgeries (fs : List (FGraph → FGraph)) (s : RunState) : RunState :=
  fs.foldl (fun s f => applySurgery f s) s

/-- Modelled from the spec: parallel-edge folding — collapse repeated
edges so that one representative per vertex pair remains. -/
def prepareParallelEdges (G : FGraph) : FGraph :=
  ⟨G.verts, G.edges.dedup⟩

/-- Modelled from the spec: a whole run of `call` seen with its state —
the working copy receives the preprocessing and per-cluster surgeries
while the caller's graph is only read; the pair of final state and
verdict is returned. -/
def callRun (C : CluGraph) (surgeries : List (FGraph → FGraph)) :
    RunState × (Bool × ErrorCode) :=
  (runSurgeries (prepareParallelEdges :: surgeries) (initRun C), callResult C)

/-- Deleting a single edge of the underlying graph (clusters unchanged). -/
def deleteEdge (C : CluGraph) (e : Nat × Nat) : CluGraph :=
  ⟨⟨C.graph.verts, C.graph.edges.erase e⟩, C.root⟩

/-- Scenario 1 of the spec: vertices 1–4, edges 1-2, 2-3, 1-3, 3-4,
cluster A = {1,2,3}. -/
def scenario1 : CluGraph :=
  ⟨⟨[1, 2, 3, 4], [(1,2),(2,3),(1,3),(3,4)]⟩,
   .node [1, 2, 3, 4] [.node [1, 2, 3] []]⟩

/-- Scenario 2 of the spec: vertices 1–4, edges 1-2, 2-3, 1-4, 3-4,
cluster A = {1,3}. -/
def scenario2 : CluGraph :=
  ⟨⟨[1, 2, 3, 4], [(1,2),(2,3),(1,4),(3,4)]⟩,
   .node [1, 2, 3, 4] [.node [1, 3] []]⟩

/-- A flat-disconnected input one of whose clusters is also internally
disconnected. -/
def discExample : CluGraph :=
  ⟨⟨[1, 2, 3, 4], [(1,2),(3,4)]⟩,
   .node [1, 2, 3, 4] [.node [1, 3] []]⟩

/-- A planar but disconnected graph: two disjoint single edges. -/
def twoEdges : FGraph :=
  ⟨[1, 2, 3, 4], [(1,2),(3,4)]⟩

/-- The single-edge graph. -/
def oneEdge : FGraph :=
  ⟨[1, 2], [(1,2)]⟩

/-- Scenario 3 of the spec: K5 — five vertices, all ten edges. -/
def K5 : FGraph :=
  ⟨[1, 2, 3, 4, 5],
   [(1,2),(1,3),(1,4),(1,5),(2,3),(2,4),(2,5),(3,4),(3,5),(4,5)]⟩

/-- K5 placed in a single cluster (the root cluster). -/
def K5cluster : CluGraph :=
  ⟨K5, .node [1, 2, 3, 4, 5] []⟩

/-- Removing one edge from a graph (vertices unchanged). -/
def FGraph.removeEdge (G : FGraph) (e : Nat × Nat) : FGraph :=
  ⟨G.verts, G.edges.erase e⟩

/-- Rotation system for the graph with one edge removed: each endpoint
of the deleted edge drops the opposite endpoint from its cyclic order. -/
def deleteRotSys (G : FGraph) (e : Nat × Nat) (ρ : List (Nat × List Nat)) :
    List (Nat × List Nat) :=
  G.verts.map (fun v => (v,
    if v = e.1 then (lookupRot ρ v).erase e.2
    else if v = e.2 then (lookupRot ρ v).erase e.1
    else lookupRot ρ v))

/-- The orbit of a point under at most `N` iterations of the successor
map (for `N` at least the period this is the whole orbit). -/
def orbSet (σ : Nat × Nat → Nat × Nat) (N : Nat) (d : Nat × Nat) :
    Finset (Nat × Nat) :=
  ((List.range N).map (fun i => σ^[i] d)).toFinset

/-- A rotation assignment is valid for a graph when every vertex's list
is an ordering of exactly its neighbors. -/
def validRot (G : FGraph) (ρ : List (Nat × List Nat)) : Prop :=
  ∀ v ∈ G.verts, (lookupRot ρ v).Perm (G.neighbors v)

/-- The family of orbits of the successor map through the members of a
dart list (each orbit enumerated by at most `N` iterations). -/
def orbitsOf (σ : Nat × Nat → Nat × Nat) (N : Nat) (D : List (Nat × Nat)) :
    Finset (Finset (Nat × Nat)) :=
  (D.map (fun d => orbSet σ N d)).toFinset

/-- Graph-theoretic reachability: the reflexive-transitive closure of
the neighbor relation. -/
def Reaches (G : FGraph) : Nat → Nat → Prop :=
  Relation.ReflTransGen (fun u v => v ∈ G.neighbors u)

/-- The connected component of a vertex, as the set computed by the
breadth-first reachability sweep. -/
def compF (G : FGraph) (v : Nat) : Finset Nat :=
  (reachFrom G v).toFinset

/-- The corners at which the cut darts of a cluster attach to the
cluster-induced embedding (the list scanned by `respectsb`). -/
def cornersList (G : FGraph) (ρ : List (Nat × List Nat)) (c : List Nat) :
    List (Nat × Nat) :=
  (G.darts.filter (fun d => d.1 ∈ c && d.2 ∉ c)).filterMap (cornerOf c ρ)

/-- The complete bipartite graph K33 (non-planar, all degrees 3). -/
def K33 : FGraph :=
  ⟨[1, 2, 3, 4, 5, 6],
   [(1,4),(1,5),(1,6),(2,4),(2,5),(2,6),(3,4),(3,5),(3,6)]⟩

/-! Basic facts about the rotation-system search space. -/

theorem perm_of_mem_insertEverywhere {x : Nat} :
    ∀ {p q : List Nat}, q ∈ insertEverywhere x p → q.Perm (x :: p)
  | [], q, h => by
    simp [insertEverywhere] at h
    simp [h]
  | y :: ys, q, h => by
    simp only [insertEverywhere, List.mem_cons, List.mem_map] at h
    rcases h with h | ⟨q', hq', rfl⟩
    · simp [h]
    · exact (List.Perm.cons y (perm_of_mem_insertEverywhere hq')).trans (List.Perm.swap x y ys)

theorem perm_of_mem_perms : ∀ {l p : List Nat}, p ∈ perms l → p.Perm l
  | [], p, h => by
    simp [perms] at h
    simp [h]
  | x :: xs, p, h => by
    simp only [perms, List.mem_flatMap] at h
    obtain ⟨q, hq, hp⟩ := h
    exact (perm_of_mem_insertEverywhere hp).trans (List.Perm.cons x (perm_of_mem_perms hq))

theorem perm_of_mem_rotCandidates {l r : List Nat} (h : r ∈ rotCandidates l) :
    r.Perm l :=
  perm_of_mem_perms h

theorem rotFold_keys (G : FGraph) :
    ∀ {vs : List Nat} {ρ : List (Nat × List Nat)}, ρ ∈ rotFold G vs →
      ρ.map Prod.fst = vs
  | [], ρ, h => by
    simp [rotFold] at h
    simp [h]
  | v :: vs, ρ, h => by
    simp only [rotFold, List.mem_flatMap, List.mem_map] at h
    obtain ⟨rot, _, ρ', hρ', rfl⟩ := h
    simp [rotFold_keys G hρ']

theorem rotFold_entries (G : FGraph) :
    ∀ {vs : List Nat} {ρ : List (Nat × List Nat)}, ρ ∈ rotFold G vs →
      ∀ p ∈ ρ, p.2 ∈ rotCandidates (G.neighbors p.1)
  | [], ρ, h => by
    simp [rotFold] at h
    simp [h]
  | v :: vs, ρ, h => by
    simp only [rotFold, List.mem_flatMap, List.mem_map] at h
    obtain ⟨rot, hrot, ρ', hρ', rfl⟩ := h
    intro p hp
    rcases List.mem_cons.mp hp with rfl | hp'
    · exact hrot
    · exact rotFold_entries G hρ' p hp'

/-- Every rotation system assigns each vertex a cyclic order of exactly
its neighbors. -/
theorem lookupRot_perm {G : FGraph} {ρ : List (Nat × List Nat)} {v : Nat}
    (hρ : ρ ∈ allRotSystems G) (hv : v ∈ G.verts) :
    (lookupRot ρ v).Perm (G.neighbors v) := by
  unfold lookupRot
  cases hfind : ρ.find? (fun p => p.1 = v) with
  | none =>
    exfalso
    have hkeys := rotFold_keys G hρ
    rw [← hkeys] at hv
    obtain ⟨p, hp, hpv⟩ := List.mem_map.mp hv
    have := List.find?_eq_none.mp hfind p hp
    simp [hpv] at this
  | some p =>
    have hmem := List.mem_of_find?_eq_some hfind
    have hpv : p.1 = v := by
      have := List.find?_some hfind
      simpa using this
    have := rotFold_entries G hρ p hmem
    rw [hpv] at this
    exact perm_of_mem_rotCandidates this

/-! Facts about cyclic successors. -/

theorem cyclicNext_mem {l : List Nat} {x : Nat} (h : x ∈ l) : cyclicNext l x ∈ l := by
  unfold cyclicNext
  rw [dif_pos h]
  exact l.get_mem _ _

theorem cyclicNext_eq_get {l : List Nat} {x : Nat} (h : x ∈ l) :
    cyclicNext l x =
      l.get ⟨(l.indexOf x + 1) % l.length,
        Nat.mod_lt _ (List.length_pos.mpr (List.ne_nil_of_mem h))⟩ := by
  unfold cyclicNext
  rw [dif_pos h]

theorem succ_mod_inj {n i j : Nat} (hi : i < n) (hj : j < n)
    (h : (i + 1) % n = (j + 1) % n) : i = j := by
  rcases Nat.lt_or_ge (i + 1) n with hi1 | hi1
  · rcases Nat.lt_or_ge (j + 1) n with hj1 | hj1
    · rw [Nat.mod_eq_of_lt hi1, Nat.mod_eq_of_lt hj1] at h
      omega
    · have hj1' : j + 1 = n := by omega
      rw [Nat.mod_eq_of_lt hi1, hj1', Nat.mod_self] at h
      omega
  · have hi1' : i + 1 = n := by omega
    rcases Nat.lt_or_ge (j + 1) n with hj1 | hj1
    · rw [hi1', Nat.mod_self, Nat.mod_eq_of_lt hj1] at h
      omega
    · omega

theorem cyclicNext_injOn {l : List Nat} (hnd : l.Nodup) {x y : Nat}
    (hx : x ∈ l) (hy : y ∈ l) (h : cyclicNext l x = cyclicNext l y) : x = y := by
  rw [cyclicNext_eq_get hx, cyclicNext_eq_get hy] at h
  have hidx := (List.Nodup.get_inj_iff hnd).mp h
  have hix : l.indexOf x < l.length := List.indexOf_lt_length.mpr hx
  have hiy : l.indexOf y < l.length := List.indexOf_lt_length.mpr hy
  have : l.indexOf x = l.indexOf y :=
    succ_mod_inj hix hiy (congrArg Fin.val hidx)
  have hgx : l.get ⟨l.indexOf x, hix⟩ = x := List.indexOf_get hix
  have hgy : l.get ⟨l.indexOf y, hiy⟩ = y := List.indexOf_get hiy
  rw [← hgx, ← hgy]
  congr 1
  exact Fin.ext this

theorem cyclicNext_ne {l : List Nat} (hnd : l.Nodup) {x : Nat}
    (hx : x ∈ l) (hlen : 2 ≤ l.length) : cyclicNext l x ≠ x := by
  intro hfix
  have hix : l.indexOf x < l.length := List.indexOf_lt_length.mpr hx
  have hgx : l.get ⟨l.indexOf x, hix⟩ = x := List.indexOf_get hix
  rw [cyclicNext_eq_get hx] at hfix
  have hfix2 :
      l.get ⟨(l.indexOf x + 1) % l.length,
        Nat.mod_lt _ (List.length_pos.mpr (List.ne_nil_of_mem hx))⟩ =
      l.get ⟨l.indexOf x, hix⟩ := by
    rw [hgx]
    exact hfix
  have hidx := (List.Nodup.get_inj_iff hnd).mp hfix2
  have := congrArg Fin.val hidx
  simp only at this
  rcases Nat.lt_or_ge (l.indexOf x + 1) l.length with h1 | h1
  · rw [Nat.mod_eq_of_lt h1] at this
    omega
  · have h2 : l.indexOf x + 1 = l.length := by omega
    rw [h2, Nat.mod_self] at this
    omega

/-! Facts about neighbors and darts. -/

theorem wfb_iff {G : FGraph} :
    G.wfb = true ↔
      G.verts.Nodup ∧ G.edges.Nodup ∧
        ∀ e ∈ G.edges, e.1 ∈ G.verts ∧ e.2 ∈ G.verts ∧ e.1 < e.2 := by
  simp [FGraph.wfb, List.all_eq_true, and_assoc]

theorem mem_neighbors {G : FGraph} {u v : Nat} :
    u ∈ G.neighbors v ↔ ((v, u) ∈ G.edges ∨ (u, v) ∈ G.edges) := by
  unfold FGraph.neighbors
  rw [List.mem_filterMap]
  constructor
  · rintro ⟨e, he, hfe⟩
    by_cases h1 : e.1 = v
    · rw [if_pos h1] at hfe
      left
      have : e = (v, u) := by
        obtain ⟨a, b⟩ := e
        simp at h1 hfe
        simp [h1, hfe]
      rwa [this] at he
    · rw [if_neg h1] at hfe
      by_cases h2 : e.2 = v
      · rw [if_pos h2] at hfe
        right
        have : e = (u, v) := by
          obtain ⟨a, b⟩ := e
          simp at h2 hfe
          simp [h2, hfe]
        rwa [this] at he
      · rw [if_neg h2] at hfe
        exact absurd hfe (by simp)
  · rintro (he | he)
    · exact ⟨(v, u), he, by simp⟩
    · refine ⟨(u, v), he, ?_⟩
      by_cases h : u = v
      · simp [h]
      · simp [h]

theorem mem_darts {G : FGraph} {d : Nat × Nat} :
    d ∈ G.darts ↔ (d ∈ G.edges ∨ (d.2, d.1) ∈ G.edges) := by
  unfold FGraph.darts
  rw [List.mem_flatMap]
  constructor
  · rintro ⟨e, he, hd⟩
    simp only [List.mem_cons, List.mem_singleton] at hd
    rcases hd with rfl | hd
    · left
      simpa using he
    · rcases hd with rfl | hd
      · right
        simpa using he
      · exact absurd hd (List.not_mem_nil _)
  · rintro (hd | hd)
    · exact ⟨d, hd, by simp⟩
    · exact ⟨(d.2, d.1), hd, by simp⟩

theorem darts_fst_mem_neighbors {G : FGraph} {d : Nat × Nat} (hd : d ∈ G.darts) :
    d.1 ∈ G.neighbors d.2 := by
  rcases mem_darts.mp hd with h | h
  · exact mem_neighbors.mpr (Or.inr (by simpa using h))
  · exact mem_neighbors.mpr (Or.inl h)

theorem neighbors_mem_darts {G : FGraph} {u v : Nat} (h : u ∈ G.neighbors v) :
    (v, u) ∈ G.darts := by
  rcases mem_neighbors.mp h with he | he
  · exact mem_darts.mpr (Or.inl he)
  · exact mem_darts.mpr (Or.inr (by simpa using he))

theorem darts_ne {G : FGraph} (hw : G.wfb = true) {d : Nat × Nat}
    (hd : d ∈ G.darts) : d.1 ≠ d.2 := by
  obtain ⟨-, -, hedges⟩ := wfb_iff.mp hw
  rcases mem_darts.mp hd with h | h
  · exact Nat.ne_of_lt (hedges d h).2.2
  · exact Nat.ne_of_gt (hedges _ h).2.2

theorem darts_snd_mem_verts {G : FGraph} (hw : G.wfb = true) {d : Nat × Nat}
    (hd : d ∈ G.darts) : d.2 ∈ G.verts := by
  obtain ⟨-, -, hedges⟩ := wfb_iff.mp hw
  rcases mem_darts.mp hd with h | h
  · exact (hedges d h).2.1
  · exact (hedges _ h).1

theorem darts_fst_mem_verts {G : FGraph} (hw : G.wfb = true) {d : Nat × Nat}
    (hd : d ∈ G.darts) : d.1 ∈ G.verts := by
  obtain ⟨-, -, hedges⟩ := wfb_iff.mp hw
  rcases mem_darts.mp hd with h | h
  · exact (hedges d h).1
  · exact (hedges _ h).2.1

/-- Helper for `neighbors_nodup`: the neighbor extraction over a
duplicate-free, strictly oriented edge list has no repeats. -/
theorem neighbors_nodup_aux (v : Nat) :
    ∀ (es : List (Nat × Nat)), es.Nodup → (∀ e ∈ es, e.1 < e.2) →
      (es.filterMap (fun e =>
        if e.1 = v then some e.2 else if e.2 = v then some e.1 else none)).Nodup
  | [], _, _ => by simp
  | e :: es, hnd, hlt => by
    have hnd' := List.nodup_cons.mp hnd
    have hlt' : ∀ e' ∈ es, e'.1 < e'.2 := fun e' he' => hlt e' (List.mem_cons_of_mem _ he')
    have ih := neighbors_nodup_aux v es hnd'.2 hlt'
    rw [List.filterMap_cons]
    by_cases h1 : e.1 = v
    · simp only [if_pos h1]
      rw [List.nodup_cons]
      refine ⟨?_, ih⟩
      intro hmem
      rw [List.mem_filterMap] at hmem
      obtain ⟨e', he', hfe'⟩ := hmem
      have heq : e' = e := by
        by_cases h1' : e'.1 = v
        · rw [if_pos h1'] at hfe'
          have h2' : e'.2 = e.2 := by simpa using hfe'
          obtain ⟨a, b⟩ := e
          obtain ⟨a', b'⟩ := e'
          simp only at h1 h1' h2'
          simp [h1, h1', h2']
        · rw [if_neg h1'] at hfe'
          by_cases h2' : e'.2 = v
          · rw [if_pos h2'] at hfe'
            have h1'' : e'.1 = e.2 := by simpa using hfe'
            have hlt1 := hlt e (List.mem_cons_self _ _)
            have hlt2 := hlt' e' he'
            rw [h1] at hlt1
            rw [h1'', h2'] at hlt2
            omega
          · rw [if_neg h2'] at hfe'
            exact absurd hfe' (by simp)
      rw [heq] at he'
      exact hnd'.1 he'
    · by_cases h2 : e.2 = v
      · simp only [if_neg h1, if_pos h2]
        rw [List.nodup_cons]
        refine ⟨?_, ih⟩
        intro hmem
        rw [List.mem_filterMap] at hmem
        obtain ⟨e', he', hfe'⟩ := hmem
        have heq : e' = e := by
          by_cases h1' : e'.1 = v
          · rw [if_pos h1'] at hfe'
            have h2'' : e'.2 = e.1 := by simpa using hfe'
            have hlt1 := hlt e (List.mem_cons_self _ _)
            have hlt2 := hlt' e' he'
            rw [h2] at hlt1
            rw [h1', h2''] at hlt2
            omega
          · rw [if_neg h1'] at hfe'
            by_cases h2' : e'.2 = v
            · rw [if_pos h2'] at hfe'
              have h1'' : e'.1 = e.1 := by simpa using hfe'
              obtain ⟨a, b⟩ := e
              obtain ⟨a', b'⟩ := e'
              simp only at h2 h2' h1''
              simp [h2, h2', h1'']
            · rw [if_neg h2'] at hfe'
              exact absurd hfe' (by simp)
        rw [heq] at he'
        exact hnd'.1 he'
      · simp only [if_neg h1, if_neg h2]
        exact ih

/-- With canonically oriented, duplicate-free edges, neighbor lists have
no repeats. -/
theorem neighbors_nodup {G : FGraph} (hw : G.wfb = true) (v : Nat) :
    (G.neighbors v).Nodup := by
  obtain ⟨-, hnd, hedges⟩ := wfb_iff.mp hw
  exact neighbors_nodup_aux v G.edges hnd (fun e he => (hedges e he).2.2)

/-! The face-successor map is a fixed-point-free bijection of the darts. -/

theorem validRot_of_mem {G : FGraph} {ρ : List (Nat × List Nat)}
    (hρ : ρ ∈ allRotSystems G) : validRot G ρ :=
  fun _ hv => lookupRot_perm hρ hv

theorem faceSucc_mem_darts {G : FGraph} {ρ : List (Nat × List Nat)}
    (hw : G.wfb = true) (hρ : validRot G ρ) {d : Nat × Nat}
    (hd : d ∈ G.darts) : faceSucc ρ d ∈ G.darts := by
  have hperm := hρ _ (darts_snd_mem_verts hw hd)
  have h1 : d.1 ∈ lookupRot ρ d.2 := hperm.mem_iff.mpr (darts_fst_mem_neighbors hd)
  have h2 : cyclicNext (lookupRot ρ d.2) d.1 ∈ lookupRot ρ d.2 := cyclicNext_mem h1
  exact neighbors_mem_darts (hperm.mem_iff.mp h2)

theorem faceSucc_injOn {G : FGraph} {ρ : List (Nat × List Nat)}
    (hw : G.wfb = true) (hρ : validRot G ρ) {d d' : Nat × Nat}
    (hd : d ∈ G.darts) (hd' : d' ∈ G.darts)
    (h : faceSucc ρ d = faceSucc ρ d') : d = d' := by
  unfold faceSucc at h
  have h2 : d.2 = d'.2 := congrArg Prod.fst h
  have hcn : cyclicNext (lookupRot ρ d.2) d.1 = cyclicNext (lookupRot ρ d.2) d'.1 := by
    have := congrArg Prod.snd h
    simpa [← h2] using this
  have hperm := hρ _ (darts_snd_mem_verts hw hd)
  have hnd : (lookupRot ρ d.2).Nodup := hperm.nodup_iff.mpr (neighbors_nodup hw d.2)
  have h1 : d.1 ∈ lookupRot ρ d.2 := hperm.mem_iff.mpr (darts_fst_mem_neighbors hd)
  have h1' : d'.1 ∈ lookupRot ρ d.2 := by
    refine hperm.mem_iff.mpr ?_
    rw [h2]
    exact darts_fst_mem_neighbors hd'
  have := cyclicNext_injOn hnd h1 h1' hcn
  exact Prod.ext this h2

theorem faceSucc_ne {G : FGraph} (hw : G.wfb = true)
    {ρ : List (Nat × List Nat)} {d : Nat × Nat} (hd : d ∈ G.darts) :
    faceSucc ρ d ≠ d := by
  intro hfix
  have h1 : d.2 = d.1 := congrArg Prod.fst hfix
  exact darts_ne hw hd h1.symm

theorem faceSucc_faceSucc_ne {G : FGraph} {ρ : List (Nat × List Nat)}
    (hw : G.wfb = true) (hρ : validRot G ρ)
    (hdeg : ∀ v ∈ G.verts, 2 ≤ (G.neighbors v).length) {d : Nat × Nat}
    (hd : d ∈ G.darts) : faceSucc ρ (faceSucc ρ d) ≠ d := by
  intro hfix
  unfold faceSucc at hfix
  have h1 : cyclicNext (lookupRot ρ d.2) d.1 = d.1 := congrArg Prod.fst hfix
  have hperm := hρ _ (darts_snd_mem_verts hw hd)
  have hnd : (lookupRot ρ d.2).Nodup := hperm.nodup_iff.mpr (neighbors_nodup hw d.2)
  have hmem : d.1 ∈ lookupRot ρ d.2 := hperm.mem_iff.mpr (darts_fst_mem_neighbors hd)
  have hlen : 2 ≤ (lookupRot ρ d.2).length := by
    rw [hperm.length_eq]
    exact hdeg d.2 (darts_snd_mem_verts hw hd)
  exact cyclicNext_ne hnd hmem hlen h1

/-! Orbit counting: for a successor map that is an injective,
fixed-point-free self-map of the remaining dart list, the orbit-removal
counter removes whole orbits; with no 2-cycles either, every removed
orbit has at least three darts, bounding the number of faces. -/

section OrbitCount

variable {σ : Nat × Nat → Nat × Nat}

theorem iterate_mem_of_closed {rem : List (Nat × Nat)}
    (hclosed : ∀ x ∈ rem, σ x ∈ rem) {d : Nat × Nat} (hd : d ∈ rem) (k : Nat) :
    σ^[k] d ∈ rem := by
  induction k with
  | zero => exact hd
  | succ k ih =>
    rw [Function.iterate_succ_apply']
    exact hclosed _ ih

theorem iterate_cancel {rem : List (Nat × Nat)}
    (hclosed : ∀ x ∈ rem, σ x ∈ rem)
    (hinj : ∀ x ∈ rem, ∀ y ∈ rem, σ x = σ y → x = y)
    {d : Nat × Nat} (hd : d ∈ rem) (i : Nat) :
    ∀ j, σ^[i] d = σ^[i + j] d → d = σ^[j] d := by
  induction i with
  | zero =>
    intro j h
    simpa using h
  | succ i ih =>
    intro j h
    rw [Function.iterate_succ_apply'] at h
    have h2 : i + 1 + j = (i + j) + 1 := by omega
    rw [h2, Function.iterate_succ_apply'] at h
    exact ih j (hinj _ (iterate_mem_of_closed hclosed hd i)
      _ (iterate_mem_of_closed hclosed hd (i + j)) h)

theorem exists_orbit_period {rem : List (Nat × Nat)}
    (hclosed : ∀ x ∈ rem, σ x ∈ rem)
    (hinj : ∀ x ∈ rem, ∀ y ∈ rem, σ x = σ y → x = y)
    {d : Nat × Nat} (hd : d ∈ rem) :
    ∃ p, 0 < p ∧ σ^[p] d = d := by
  have hmaps : ∀ k ∈ Finset.range (rem.length + 1), σ^[k] d ∈ rem.toFinset := by
    intro k _
    exact List.mem_toFinset.mpr (iterate_mem_of_closed hclosed hd k)
  have hcard : rem.toFinset.card < (Finset.range (rem.length + 1)).card := by
    rw [Finset.card_range]
    exact Nat.lt_succ_of_le (List.toFinset_card_le rem)
  obtain ⟨i, _, j, _, hne, heq⟩ :=
    Finset.exists_ne_map_eq_of_card_lt_of_maps_to hcard hmaps
  rcases Nat.lt_or_ge i j with hij | hij
  · refine ⟨j - i, by omega, ?_⟩
    have h : σ^[i] d = σ^[i + (j - i)] d := by
      rw [Nat.add_sub_cancel' (Nat.le_of_lt hij)]
      exact heq
    exact (iterate_cancel hclosed hinj hd i (j - i) h).symm
  · have hji : j < i := by omega
    refine ⟨i - j, by omega, ?_⟩
    have h : σ^[j] d = σ^[j + (i - j)] d := by
      rw [Nat.add_sub_cancel' (Nat.le_of_lt hji)]
      exact heq.symm
    exact (iterate_cancel hclosed hinj hd j (i - j) h).symm

theorem removeOrbit_walk {rem : List (Nat × Nat)} (hnd : rem.Nodup)
    (hclosed : ∀ x ∈ rem, σ x ∈ rem)
    (hinj : ∀ x ∈ rem, ∀ y ∈ rem, σ x = σ y → x = y)
    {d : Nat × Nat} (hd : d ∈ rem) {P : Nat} (hP0 : 0 < P)
    (hPd : σ^[P] d = d)
    (hmin : ∀ q, 0 < q → q < P → σ^[q] d ≠ d) :
    ∀ fuel k, k ≤ P → P - k ≤ fuel →
      removeOrbit σ fuel (σ^[k] d)
        (rem.filter (fun x => decide (∀ i, i < k → σ^[i] d ≠ x))) =
      rem.filter (fun x => decide (∀ i, i < P → σ^[i] d ≠ x)) := by
  have hdist : ∀ i k, i < k → k < P → σ^[i] d ≠ σ^[k] d := by
    intro i k hik hkP heq
    have h : σ^[i] d = σ^[i + (k - i)] d := by
      rw [Nat.add_sub_cancel' (Nat.le_of_lt hik)]
      exact heq
    exact hmin (k - i) (by omega) (by omega)
      (iterate_cancel hclosed hinj hd i (k - i) h).symm
  intro fuel
  induction fuel with
  | zero =>
    intro k hkP hfuel
    have hk : k = P := by omega
    subst hk
    rfl
  | succ fuel ih =>
    intro k hkP hfuel
    rcases Nat.eq_or_lt_of_le hkP with hk | hk
    · subst hk
      rw [removeOrbit]
      rw [if_neg]
      intro hmem
      have := (List.mem_filter.mp hmem).2
      rw [decide_eq_true_iff] at this
      exact this 0 hP0 (by simp [hPd])
    · have hcur : σ^[k] d ∈ rem.filter (fun x => decide (∀ i, i < k → σ^[i] d ≠ x)) := by
        rw [List.mem_filter]
        refine ⟨iterate_mem_of_closed hclosed hd k, ?_⟩
        rw [decide_eq_true_iff]
        intro i hik
        exact hdist i k hik hk
      rw [removeOrbit, if_pos hcur]
      have hndk : (rem.filter (fun x => decide (∀ i, i < k → σ^[i] d ≠ x))).Nodup :=
        hnd.filter _
      rw [List.Nodup.erase_eq_filter hndk, List.filter_filter]
      have hfe :
          rem.filter (fun a =>
              decide (∀ i, i < k + 1 → σ^[i] d ≠ a)) =
            rem.filter (fun a =>
              (a != σ^[k] d) && decide (∀ i, i < k → σ^[i] d ≠ a)) := by
        apply List.filter_congr
        intro x _
        by_cases h1 : x = σ^[k] d
        · subst h1
          have hL : decide (∀ i, i < k + 1 → σ^[i] d ≠ σ^[k] d) = false := by
            rw [decide_eq_false_iff_not]
            intro hall
            exact hall k (Nat.lt_succ_self k) rfl
          rw [hL]
          simp
        · by_cases h2 : ∀ i, i < k → σ^[i] d ≠ x
          · have hL : decide (∀ i, i < k + 1 → σ^[i] d ≠ x) = true := by
              rw [decide_eq_true_iff]
              intro i hik1
              rcases Nat.lt_or_ge i k with hik | hik
              · exact h2 i hik
              · have : i = k := by omega
                subst this
                exact fun heq => h1 heq.symm
            rw [hL]
            have hbne : (x != σ^[k] d) = true := bne_iff_ne.mpr h1
            rw [hbne, Bool.true_and, eq_comm, decide_eq_true_iff]
            exact h2
          · have hL : decide (∀ i, i < k + 1 → σ^[i] d ≠ x) = false := by
              rw [decide_eq_false_iff_not]
              intro hall
              exact h2 (fun i hik => hall i (Nat.lt_succ_of_lt hik))
            have hR : decide (∀ i, i < k → σ^[i] d ≠ x) = false := by
              rw [decide_eq_false_iff_not]
              exact h2
            rw [hL, hR]
            simp
      rw [← hfe]
      have hstep : σ (σ^[k] d) = σ^[k + 1] d := by
        rw [Function.iterate_succ_apply']
      rw [hstep]
      exact ih (k + 1) hk (by omega)

end OrbitCount

section OrbitBound

variable {σ : Nat × Nat → Nat × Nat}

theorem iterate_pred_apply (f : Nat × Nat → Nat × Nat) {n : Nat} (hn : 0 < n)
    (x : Nat × Nat) : f^[n] x = f (f^[n - 1] x) := by
  cases n with
  | zero => omega
  | succ m => simpa using Function.iterate_succ_apply' f m x

/-- Removing one orbit strips at least three darts and preserves all the
structural invariants of the remaining list. -/
theorem removeOrbit_spec {rem : List (Nat × Nat)} (hnd : rem.Nodup)
    (hclosed : ∀ x ∈ rem, σ x ∈ rem)
    (hinj : ∀ x ∈ rem, ∀ y ∈ rem, σ x = σ y → x = y)
    (hno1 : ∀ x ∈ rem, σ x ≠ x)
    (hno2 : ∀ x ∈ rem, σ (σ x) ≠ x)
    {d : Nat × Nat} (hd : d ∈ rem) {fuel : Nat} (hfuel : rem.length ≤ fuel) :
    (removeOrbit σ fuel d rem).length + 3 ≤ rem.length ∧
      (removeOrbit σ fuel d rem).Nodup ∧
      (∀ x ∈ removeOrbit σ fuel d rem, x ∈ rem) ∧
      (∀ x ∈ removeOrbit σ fuel d rem, σ x ∈ removeOrbit σ fuel d rem) := by
  have hex : ∃ p, 0 < p ∧ σ^[p] d = d := exists_orbit_period hclosed hinj hd
  set P := Nat.find hex with hPdef
  have hP0 : 0 < P := (Nat.find_spec hex).1
  have hPd : σ^[P] d = d := (Nat.find_spec hex).2
  have hmin : ∀ q, 0 < q → q < P → σ^[q] d ≠ d := by
    intro q hq0 hqP heq
    exact Nat.find_min hex hqP ⟨hq0, heq⟩
  have hP3 : 3 ≤ P := by
    rcases Nat.lt_or_ge P 3 with h | h
    · exfalso
      interval_cases P
      · exact absurd hPd (by simpa using hno1 d hd)
      · refine absurd hPd ?_
        have : σ^[2] d = σ (σ d) := by
          rw [Function.iterate_succ_apply', Function.iterate_one]
        rw [this]
        exact hno2 d hd
    · exact h
  -- the orbit has P distinct elements inside rem
  have hdist : ∀ i k, i < k → k < P → σ^[i] d ≠ σ^[k] d := by
    intro i k hik hkP heq
    have h : σ^[i] d = σ^[i + (k - i)] d := by
      rw [Nat.add_sub_cancel' (Nat.le_of_lt hik)]
      exact heq
    exact hmin (k - i) (by omega) (by omega)
      (iterate_cancel hclosed hinj hd i (k - i) h).symm
  have horbnd : ((List.range P).map (fun i => σ^[i] d)).Nodup := by
    rw [List.nodup_map_iff_inj_on (List.nodup_range P)]
    intro i hi j hj hij
    rw [List.mem_range] at hi hj
    by_contra hne
    rcases Nat.lt_or_ge i j with h | h
    · exact hdist i j h hj hij
    · exact hdist j i (by omega) hi hij.symm
  have hPlen : P ≤ rem.length := by
    have hsub : (List.range P).map (fun i => σ^[i] d) ⊆ rem := by
      intro x hx
      obtain ⟨i, _, rfl⟩ := List.mem_map.mp hx
      exact iterate_mem_of_closed hclosed hd i
    have := (horbnd.subperm hsub).length_le
    simpa using this
  have hwalk := removeOrbit_walk hnd hclosed hinj hd hP0 hPd hmin fuel 0
    (Nat.zero_le P) (by omega)
  have hgen : ∀ k : Nat, k = 0 →
      rem.filter (fun x => decide (∀ i, i < k → σ^[i] d ≠ x)) = rem := by
    intro k hk
    have hall : ∀ x ∈ rem,
        (decide (∀ i, i < k → σ^[i] d ≠ x)) = (true : Bool) := by
      intro x _
      rw [decide_eq_true_iff]
      intro i hi
      omega
    rw [List.filter_congr hall, List.filter_true]
  rw [hgen 0 rfl] at hwalk
  simp only [Function.iterate_zero_apply] at hwalk
  rw [hwalk]
  set R := rem.filter (fun x => decide (∀ i, i < P → σ^[i] d ≠ x)) with hRdef
  have hsplit := List.length_eq_length_filter_add
    (l := rem) (fun x => decide (∀ i, i < P → σ^[i] d ≠ x))
  have hother : P ≤ (rem.filter
      (fun x => !(decide (∀ i, i < P → σ^[i] d ≠ x)))).length := by
    have hsub : (List.range P).map (fun i => σ^[i] d) ⊆
        rem.filter (fun x => !(decide (∀ i, i < P → σ^[i] d ≠ x))) := by
      intro x hx
      obtain ⟨i, hi, rfl⟩ := List.mem_map.mp hx
      rw [List.mem_range] at hi
      rw [List.mem_filter]
      refine ⟨iterate_mem_of_closed hclosed hd i, ?_⟩
      have : (decide (∀ j, j < P → σ^[j] d ≠ σ^[i] d)) = false := by
        rw [decide_eq_false_iff_not]
        intro hall
        exact hall i hi rfl
      rw [this]
      rfl
    have := (horbnd.subperm hsub).length_le
    simpa using this
  refine ⟨?_, hnd.filter _, ?_, ?_⟩
  · rw [hRdef]
    omega
  · intro x hx
    exact (List.mem_filter.mp hx).1
  · intro x hx
    obtain ⟨hxrem, hxpred⟩ := List.mem_filter.mp hx
    rw [decide_eq_true_iff] at hxpred
    rw [List.mem_filter]
    refine ⟨hclosed x hxrem, ?_⟩
    rw [decide_eq_true_iff]
    intro i hiP heq
    rcases Nat.eq_zero_or_pos i with hi0 | hi0
    · subst hi0
      simp only [Function.iterate_zero_apply] at heq
      have hPpred : σ^[P] d = σ (σ^[P - 1] d) := iterate_pred_apply σ hP0 d
      have : σ (σ^[P - 1] d) = σ x := by
        rw [← hPpred, hPd, heq]
      have hxeq := hinj _ (iterate_mem_of_closed hclosed hd (P - 1)) x hxrem this
      exact hxpred (P - 1) (by omega) hxeq
    · have hipred : σ^[i] d = σ (σ^[i - 1] d) := iterate_pred_apply σ hi0 d
      have : σ (σ^[i - 1] d) = σ x := by
        rw [← hipred, heq]
      have hxeq := hinj _ (iterate_mem_of_closed hclosed hd (i - 1)) x hxrem this
      exact hxpred (i - 1) (by omega) hxeq

/-- Each counted orbit accounts for at least three darts. -/
theorem countOrbits_le_third {fuel : Nat} :
    ∀ {rem : List (Nat × Nat)}, rem.Nodup →
      (∀ x ∈ rem, σ x ∈ rem) →
      (∀ x ∈ rem, ∀ y ∈ rem, σ x = σ y → x = y) →
      (∀ x ∈ rem, σ x ≠ x) →
      (∀ x ∈ rem, σ (σ x) ≠ x) →
      rem.length ≤ fuel →
      3 * countOrbits σ fuel rem ≤ rem.length := by
  induction fuel with
  | zero =>
    intro rem _ _ _ _ _ _
    simp [countOrbits]
  | succ fuel ih =>
    intro rem hnd hclosed hinj hno1 hno2 hlen
    match rem, hnd, hclosed, hinj, hno1, hno2, hlen with
    | [], _, _, _, _, _, _ => simp [countOrbits]
    | d :: rem', hnd, hclosed, hinj, hno1, hno2, hlen =>
      have hd : d ∈ d :: rem' := List.mem_cons_self d rem'
      obtain ⟨hlen3, hndR, hsubR, hclosedR⟩ :=
        removeOrbit_spec hnd hclosed hinj hno1 hno2 hd (Nat.le_of_eq rfl |>.trans hlen)
      rw [countOrbits]
      have hinjR : ∀ x ∈ removeOrbit σ (fuel + 1) d (d :: rem'),
          ∀ y ∈ removeOrbit σ (fuel + 1) d (d :: rem'), σ x = σ y → x = y :=
        fun x hx y hy => hinj x (hsubR x hx) y (hsubR y hy)
      have hno1R : ∀ x ∈ removeOrbit σ (fuel + 1) d (d :: rem'), σ x ≠ x :=
        fun x hx => hno1 x (hsubR x hx)
      have hno2R : ∀ x ∈ removeOrbit σ (fuel + 1) d (d :: rem'), σ (σ x) ≠ x :=
        fun x hx => hno2 x (hsubR x hx)
      have hlenR : (removeOrbit σ (fuel + 1) d (d :: rem')).length ≤ fuel := by
        have := hlen
        omega
      have := ih hndR hclosedR hinjR hno1R hno2R hlenR
      omega

end OrbitBound

/-! K5 is not planar: every rotation system has at most six faces, but
Euler's criterion would require seven. -/

theorem planarCheck_K5_false {ρ : List (Nat × List Nat)}
    (hρ : ρ ∈ allRotSystems K5) : planarCheck K5 ρ = false := by
  have hw : K5.wfb = true := by decide
  have hdeg : ∀ v ∈ K5.verts, 2 ≤ (K5.neighbors v).length := by decide
  have hnd : K5.darts.Nodup := by decide
  have hval : validRot K5 ρ := validRot_of_mem hρ
  have hbound :=
    @countOrbits_le_third (faceSucc ρ) K5.darts.length K5.darts hnd
      (fun x hx => faceSucc_mem_darts hw hval hx)
      (fun x hx y hy h => faceSucc_injOn hw hval hx hy h)
      (fun x hx => faceSucc_ne hw hx)
      (fun x hx => faceSucc_faceSucc_ne hw hval hdeg hx)
      (Nat.le_refl _)
  have hdl : K5.darts.length = 20 := by decide
  rw [hdl] at hbound
  unfold planarCheck faceCount
  rw [beq_eq_false_iff_ne]
  have hvl : K5.verts.length = 5 := by decide
  have hel : K5.edges.length = 10 := by decide
  have hiso : K5.isolatedCount = 0 := by decide
  have hcomp : K5.compCount = 1 := by decide
  rw [hvl, hel, hiso, hcomp, hdl]
  omega

theorem planarb_K5_false : planarb K5 = false := by
  unfold planarb
  rw [List.any_eq_false]
  intro ρ hρ
  rw [planarCheck_K5_false hρ]
  simp

theorem subtreeOK_K5_false :
    subtreeOK K5 (CTree.node [1, 2, 3, 4, 5] []) = false := by
  unfold subtreeOK
  rw [List.any_eq_false]
  intro ρ hρ
  rw [planarCheck_K5_false hρ]
  simp

/-! Every failure code produced by the recursive test is the global
Cohen–Feng–Eades classification of the flat graph. -/

mutual

theorem testTree_error_eq (G : FGraph) :
    ∀ (t : CTree) (e : ErrorCode), testTree G t = .error e → e = failCode G
  | .node ms cs, e, h => by
    rw [testTree] at h
    cases htc : testChildren G cs with
    | error e' =>
      rw [htc] at h
      injection h with h'
      subst h'
      exact testChildren_error_eq G cs _ htc
    | ok u =>
      rw [htc] at h
      by_cases hok : subtreeOK G (.node ms cs)
      · rw [if_pos hok] at h
        exact absurd h (by simp)
      · rw [if_neg hok] at h
        injection h with h'
        exact h'.symm

theorem testChildren_error_eq (G : FGraph) :
    ∀ (ts : List CTree) (e : ErrorCode), testChildren G ts = .error e → e = failCode G
  | [], e, h => by
    rw [testChildren] at h
    exact absurd h (by simp)
  | t :: ts, e, h => by
    rw [testChildren] at h
    cases htt : testTree G t with
    | error e' =>
      rw [htt] at h
      injection h with h'
      subst h'
      exact testTree_error_eq G t _ htt
    | ok u =>
      rw [htt] at h
      exact testChildren_error_eq G ts e h

end

/-- A failing child aborts the traversal: the parent reports the child's
code, whatever clusters would remain. -/
theorem testChildren_append_error (G : FGraph) :
    ∀ (cs₁ : List CTree) (t : CTree) (cs₂ : List CTree) (e : ErrorCode),
      (∀ c ∈ cs₁, testTree G c = .ok ()) → testTree G t = .error e →
      testChildren G (cs₁ ++ t :: cs₂) = .error e
  | [], t, cs₂, e, _, ht => by
    rw [List.nil_append, testChildren, ht]
  | c :: cs₁, t, cs₂, e, hok, ht => by
    rw [List.cons_append, testChildren, hok c (List.mem_cons_self c cs₁)]
    exact testChildren_append_error G cs₁ t cs₂ e
      (fun c' hc' => hok c' (List.mem_cons_of_mem c hc')) ht

theorem testTree_child_error (G : FGraph) (ms : List Nat)
    (cs₁ : List CTree) (t : CTree) (cs₂ : List CTree) (e : ErrorCode)
    (hok : ∀ c ∈ cs₁, testTree G c = .ok ()) (ht : testTree G t = .error e) :
    testTree G (.node ms (cs₁ ++ t :: cs₂)) = .error e := by
  rw [testTree, testChildren_append_error G cs₁ t cs₂ e hok ht]

theorem testTree_K5 :
    testTree K5 (CTree.node [1, 2, 3, 4, 5] []) = .error .nonPlanar := by
  rw [testTree, testChildren, if_neg]
  · unfold failCode
    rw [planarb_K5_false]
    rfl
  · rw [subtreeOK_K5_false]
    simp

theorem callResult_K5 : callResult K5cluster = (false, .nonPlanar) := by
  unfold callResult
  have h1 : connectedb K5cluster.graph = true := by decide
  have h2 : allClustersConnectedb K5cluster = true := by decide
  rw [h1, h2]
  simp only [not_true_eq_false, if_false]
  have : K5cluster.graph = K5 := rfl
  rw [show testTree K5cluster.graph K5cluster.root =
        Except.error ErrorCode.nonPlanar from testTree_K5]

/-! Helper characterizations of the driver. -/

theorem callResult_of_not_connected {C : CluGraph}
    (h : connectedb C.graph = false) :
    callResult C = (false, .nonConnected) := by
  unfold callResult
  rw [h]
  simp

theorem callResult_of_not_cconnected {C : CluGraph}
    (h1 : connectedb C.graph = true) (h2 : allClustersConnectedb C = false) :
    callResult C = (false, .nonCConnected) := by
  unfold callResult
  rw [h1, h2]
  simp

theorem callResult_of_preconds {C : CluGraph}
    (h1 : connectedb C.graph = true) (h2 : allClustersConnectedb C = true) :
    callResult C =
      match testTree C.graph C.root with
      | .ok _ => (true, .none)
      | .error e => (false, e) := by
  unfold callResult
  rw [h1, h2]
  simp

theorem callResult_fst_true_iff {C : CluGraph} :
    (callResult C).1 = true ↔
      connectedb C.graph = true ∧ allClustersConnectedb C = true ∧
        testTree C.graph C.root = .ok () := by
  constructor
  · intro h
    cases h1 : connectedb C.graph with
    | false =>
      rw [callResult_of_not_connected h1] at h
      exact absurd h (by simp)
    | true =>
      cases h2 : allClustersConnectedb C with
      | false =>
        rw [callResult_of_not_cconnected h1 h2] at h
        exact absurd h (by simp)
      | true =>
        refine ⟨rfl, rfl, ?_⟩
        rw [callResult_of_preconds h1 h2] at h
        cases htt : testTree C.graph C.root with
        | ok u =>
          cases u
          rfl
        | error e =>
          rw [htt] at h
          exact absurd h (by simp)
  · rintro ⟨h1, h2, h3⟩
    rw [callResult_of_preconds h1 h2, h3]

theorem testTree_ok_subtreeOK {G : FGraph} {ms : List Nat} {cs : List CTree}
    (h : testTree G (.node ms cs) = .ok ()) :
    subtreeOK G (.node ms cs) = true := by
  rw [testTree] at h
  cases htc : testChildren G cs with
  | error e =>
    rw [htc] at h
    exact absurd h (by simp)
  | ok u =>
    rw [htc] at h
    by_cases hok : subtreeOK G (.node ms cs)
    · exact hok
    · rw [if_neg hok] at h
      exact absurd h (by simp)

theorem subtreeOK_exists {G : FGraph} {t : CTree} (h : subtreeOK G t = true) :
    ∃ ρ ∈ allRotSystems G, planarCheck G ρ = true ∧
      ∀ ms ∈ allClusters t, respectsb G ρ ms = true := by
  unfold subtreeOK at h
  rw [List.any_eq_true] at h
  obtain ⟨ρ, hρ, hpred⟩ := h
  rw [Bool.and_eq_true, List.all_eq_true] at hpred
  exact ⟨ρ, hρ, hpred.1, hpred.2⟩

/-- Claim C1 — soundness of the verdict: whenever `call` returns true,
there is a planar combinatorial embedding of the underlying graph in
which every cluster's induced subgraph lies within a single face region
that is not crossed by any edge external to that cluster. -/
theorem claim_C1 (C : CluGraph) (h : (callResult C).1 = true) :
    cPlanarEmbedding C := by
  obtain ⟨-, -, htt⟩ := callResult_fst_true_iff.mp h
  cases hroot : C.root with
  | node ms cs =>
    rw [hroot] at htt
    obtain ⟨ρ, hρ, hcheck, hall⟩ := subtreeOK_exists (testTree_ok_subtreeOK htt)
    refine ⟨ρ, ⟨hρ, hcheck⟩, ?_⟩
    rw [hroot]
    exact hall

/-- Witness for C1 at the spec's Scenario 1 (triangle plus pendant
vertex, cluster `{1,2,3}`). -/
theorem claim_C1_witness :
    (callResult scenario1).1 = true ∧ cPlanarEmbedding scenario1 :=
  ⟨by decide, claim_C1 scenario1 (by decide)⟩

/-- Claim C2 — failure classification: past both connectivity
preconditions, a failing run reports `nonPlanar` exactly when the flat
graph is non-planar, and `nonCPlanar` otherwise (flat-planar but not
cluster-respecting); in particular K5 in a single cluster yields
`(false, nonPlanar)`. -/
theorem claim_C2 :
    (∀ C : CluGraph, connectedb C.graph = true → allClustersConnectedb C = true →
      (callResult C).1 = false →
      ((callResult C).2 = .nonPlanar ↔ planarb C.graph = false) ∧
      (planarb C.graph = true → (callResult C).2 = .nonCPlanar)) ∧
    callResult K5cluster = (false, .nonPlanar) := by
  constructor
  · intro C h1 h2 hfalse
    rw [callResult_of_preconds h1 h2] at hfalse ⊢
    cases htt : testTree C.graph C.root with
    | ok u =>
      rw [htt] at hfalse
      exact absurd hfalse (by simp)
    | error e =>
      have he : e = failCode C.graph := testTree_error_eq C.graph C.root e htt
      subst he
      unfold failCode
      cases hpl : planarb C.graph with
      | false => simp
      | true => simp
  · exact callResult_K5

/-- Witness for C2 at the K5 instance: the preconditions hold, the run
fails, the reported code is `nonPlanar` iff the flat graph is
non-planar, and a flat-planar failure would have reported
`nonCPlanar`. -/
theorem claim_C2_witness :
    connectedb K5cluster.graph = true ∧ allClustersConnectedb K5cluster = true ∧
      (callResult K5cluster).1 = false ∧
      ((callResult K5cluster).2 = .nonPlanar ↔ planarb K5cluster.graph = false) ∧
      (planarb K5cluster.graph = true → (callResult K5cluster).2 = .nonCPlanar) :=
  ⟨by decide, by decide, by rw [callResult_K5],
    claim_C2.1 K5cluster (by decide) (by decide) (by rw [callResult_K5])⟩

/-- Claim C3 — precondition order: a flat-disconnected input is rejected
with `nonConnected` before any cluster-specific work, regardless of the
cluster tree (in particular even when some cluster's induced subgraph is
also disconnected). -/
theorem claim_C3 (C : CluGraph) (h : connectedb C.graph = false) :
    callResult C = (false, .nonConnected) :=
  callResult_of_not_connected h

/-- Witness for C3 at an input whose flat graph is disconnected and
whose cluster `{1,3}` is also internally disconnected. -/
theorem claim_C3_witness :
    connectedb discExample.graph = false ∧
      allClustersConnectedb discExample = false ∧
      callResult discExample = (false, .nonConnected) :=
  ⟨by decide, by decide, claim_C3 discExample (by decide)⟩

/-- Claim C4 — c-connectivity precondition: a flat-connected input with
some internally disconnected cluster is rejected with `nonCConnected`. -/
theorem claim_C4 (C : CluGraph) (h1 : connectedb C.graph = true)
    (h2 : allClustersConnectedb C = false) :
    callResult C = (false, .nonCConnected) :=
  callResult_of_not_cconnected h1 h2

/-- Witness for C4 at the spec's Scenario 2 (cycle 1-2-3-4 with cluster
`{1,3}`, which induces no edge). -/
theorem claim_C4_witness :
    connectedb scenario2.graph = true ∧ allClustersConnectedb scenario2 = false ∧
      callResult scenario2 = (false, .nonCConnected) :=
  ⟨by decide, by decide, claim_C4 scenario2 (by decide) (by decide)⟩

/-- Claim C5 — error-status invariant: a successful run reports `none`,
a failing run reports a code other than `none` (set by the first failing
check), and a failing child cluster aborts the traversal immediately —
whatever clusters remain untested — propagating its code unchanged. -/
theorem claim_C5 :
    (∀ C : CluGraph, (callResult C).1 = true → (callResult C).2 = .none) ∧
    (∀ C : CluGraph, (callResult C).1 = false → (callResult C).2 ≠ .none) ∧
    (∀ (G : FGraph) (ms : List Nat) (cs₁ : List CTree) (t : CTree)
        (cs₂ : List CTree) (e : ErrorCode),
      (∀ c ∈ cs₁, testTree G c = .ok ()) → testTree G t = .error e →
      testTree G (.node ms (cs₁ ++ t :: cs₂)) = .error e) := by
  refine ⟨?_, ?_, testTree_child_error⟩
  · intro C h
    obtain ⟨h1, h2, h3⟩ := callResult_fst_true_iff.mp h
    rw [callResult_of_preconds h1 h2, h3]
  · intro C h
    cases h1 : connectedb C.graph with
    | false =>
      rw [callResult_of_not_connected h1]
      simp
    | true =>
      cases h2 : allClustersConnectedb C with
      | false =>
        rw [callResult_of_not_cconnected h1 h2]
        simp
      | true =>
        rw [callResult_of_preconds h1 h2] at h ⊢
        cases htt : testTree C.graph C.root with
        | ok u =>
          rw [htt] at h
          exact absurd h (by simp)
        | error e =>
          have he : e = failCode C.graph := testTree_error_eq C.graph C.root e htt
          subst he
          unfold failCode
          cases planarb C.graph with
          | false => simp
          | true => simp

/-- Witness for C5: the failing K5 root cluster aborts before a sibling
singleton cluster is ever tested, and the code arrives unchanged. -/
theorem claim_C5_witness :
    testTree K5 (.node [1, 2, 3, 4, 5]
        ([] ++ CTree.node [1, 2, 3, 4, 5] [] :: [CTree.node [1] []])) =
      .error .nonPlanar :=
  claim_C5.2.2 K5 [1, 2, 3, 4, 5] [] (CTree.node [1, 2, 3, 4, 5] [])
    [CTree.node [1] []] .nonPlanar (by simp) testTree_K5

/-- Claim C7 — determinism and idempotence: two successive invocations
of `call` on the same unmodified input return the same boolean and leave
the same `ErrorCode` in the status member. -/
theorem claim_C7 (t : Tester) (C : CluGraph) :
    ((t.call C).1.call C).2 = (t.call C).2 ∧
      ((t.call C).1.call C).1.errorCode = (t.call C).1.errorCode :=
  ⟨rfl, rfl⟩

/-- Claim C8 — frame condition: a whole run, including the preprocessing
and any per-cluster surgeries applied to the private working copy, never
changes the caller's cluster graph, and the verdict is that of the pure
decision function. -/
theorem claim_C8 (C : CluGraph) (surgeries : List (FGraph → FGraph)) :
    (callRun C surgeries).1.caller = C ∧
      (callRun C surgeries).2 = callResult C := by
  refine ⟨?_, rfl⟩
  show (runSurgeries (prepareParallelEdges :: surgeries) (initRun C)).caller = C
  have hrun : ∀ (fs : List (FGraph → FGraph)) (s : RunState),
      (runSurgeries fs s).caller = s.caller := by
    intro fs
    induction fs with
    | nil => intro s; rfl
    | cons f fs ih =>
      intro s
      rw [runSurgeries, List.foldl_cons]
      exact ih (applySurgery f s)
  rw [hrun]
  rfl

/-- Claim C10 — the public `ErrorCode` enumeration carries the fixed
underlying integer values declared in the header: success is 0 and the
failure codes are numbered 1–4 in check order. -/
theorem claim_C10 :
    ErrorCode.toNat .none = 0 ∧ ErrorCode.toNat .nonConnected = 1 ∧
      ErrorCode.toNat .nonCConnected = 2 ∧ ErrorCode.toNat .nonPlanar = 3 ∧
      ErrorCode.toNat .nonCPlanar = 4 :=
  ⟨rfl, rfl, rfl, rfl, rfl⟩

/-! Trivial clusterings: the root cluster and singleton clusters impose
no embedding constraint. -/

theorem list_any_congr {α : Type} {p q : α → Bool} :
    ∀ {l : List α}, (∀ a ∈ l, p a = q a) → l.any p = l.any q
  | [], _ => rfl
  | a :: l, h => by
    rw [List.any_cons, List.any_cons, h a (List.mem_cons_self a l),
      list_any_congr (fun b hb => h b (List.mem_cons_of_mem a hb))]

/-- The root cluster has no cut darts, so it is always respected. -/
theorem respectsb_univ {G : FGraph} (hw : G.wfb = true)
    (ρ : List (Nat × List Nat)) : respectsb G ρ G.verts = true := by
  unfold respectsb
  have hcuts : G.darts.filter (fun d => d.1 ∈ G.verts && d.2 ∉ G.verts) = [] := by
    rw [List.filter_eq_nil_iff]
    intro d hd
    have h2 := darts_snd_mem_verts hw hd
    simp [h2]
  rw [hcuts]
  rfl

theorem scanForMember_none {c l : List Nat} (hl : ∀ z ∈ l, z ∉ c) :
    ∀ (k : Nat) (y : Nat), y ∉ c → scanForMember c l k y = Option.none
  | 0, _, _ => rfl
  | k + 1, y, hy => by
    rw [scanForMember]
    have hz : cyclicNext l y ∉ c := by
      by_cases hyl : y ∈ l
      · exact hl _ (cyclicNext_mem hyl)
      · unfold cyclicNext
        rw [dif_neg hyl]
        exact hy
    simp only [hz]
    rw [if_neg (by simp [hz])]
    exact scanForMember_none hl k _ hz

/-- A singleton cluster attaches no corner, so it is always respected. -/
theorem respectsb_singleton {G : FGraph} (hw : G.wfb = true)
    {ρ : List (Nat × List Nat)} (hρ : ρ ∈ allRotSystems G) (v : Nat) :
    respectsb G ρ [v] = true := by
  unfold respectsb
  dsimp only
  have hcorners :
      (G.darts.filter (fun d => d.1 ∈ [v] && d.2 ∉ [v])).filterMap
        (cornerOf [v] ρ) = [] := by
    rw [List.filterMap_eq_nil_iff]
    intro d hd
    obtain ⟨hdarts, hpred⟩ := List.mem_filter.mp hd
    rw [Bool.and_eq_true] at hpred
    have hd1 : d.1 = v := by
      have := hpred.1
      simp at this
      exact this
    have hd2 : d.2 ∉ [v] := by
      have := hpred.2
      simpa using this
    unfold cornerOf
    rw [scanForMember_none ?_ _ _ hd2]
    · rfl
    · intro z hz
      have hv : d.1 ∈ G.verts := darts_fst_mem_verts hw hdarts
      have hperm := lookupRot_perm hρ hv
      have hzn : z ∈ G.neighbors d.1 := hperm.mem_iff.mp hz
      rw [List.mem_singleton]
      intro hzv
      subst hzv
      rw [hd1] at hzn
      rcases mem_neighbors.mp hzn with he | he
      · obtain ⟨-, -, hedges⟩ := wfb_iff.mp hw
        have := (hedges _ he).2.2
        omega
      · obtain ⟨-, -, hedges⟩ := wfb_iff.mp hw
        have := (hedges _ he).2.2
        omega
  rw [hcorners]

theorem allClusters_trivial (G : FGraph) :
    allClusters (trivialTree G) = [G.verts] := by
  rw [trivialTree, allClusters, allClustersList]

theorem allClustersList_map_singleton :
    ∀ vs : List Nat,
      allClustersList (vs.map (fun v => CTree.node [v] [])) =
        vs.map (fun v => [v])
  | [] => rfl
  | v :: vs => by
    rw [List.map_cons, allClustersList, allClusters, allClustersList,
      List.map_cons, allClustersList_map_singleton vs]
    rfl

theorem allClusters_singletonTree (G : FGraph) :
    allClusters (singletonTree G) = G.verts :: G.verts.map (fun v => [v]) := by
  rw [singletonTree, allClusters, allClustersList_map_singleton]

theorem subtreeOK_trivial {G : FGraph} (hw : G.wfb = true) :
    subtreeOK G (trivialTree G) = planarb G := by
  unfold subtreeOK planarb
  apply list_any_congr
  intro ρ _
  rw [allClusters_trivial]
  rw [List.all_cons, List.all_nil, respectsb_univ hw ρ]
  simp

theorem subtreeOK_single {G : FGraph} (hw : G.wfb = true) (v : Nat) :
    subtreeOK G (.node [v] []) = planarb G := by
  unfold subtreeOK planarb
  apply list_any_congr
  intro ρ hρ
  rw [allClusters, allClustersList, List.all_cons, List.all_nil,
    respectsb_singleton hw hρ v]
  simp

theorem subtreeOK_singletonTree {G : FGraph} (hw : G.wfb = true) :
    subtreeOK G (singletonTree G) = planarb G := by
  unfold subtreeOK planarb
  apply list_any_congr
  intro ρ hρ
  rw [allClusters_singletonTree]
  have hall : ((G.verts :: G.verts.map (fun v => [v])).all (respectsb G ρ)) = true := by
    rw [List.all_eq_true]
    intro ms hms
    rcases List.mem_cons.mp hms with rfl | hms'
    · exact respectsb_univ hw ρ
    · obtain ⟨v, _, rfl⟩ := List.mem_map.mp hms'
      exact respectsb_singleton hw hρ v
  rw [hall, Bool.and_true]

theorem inducedGraph_univ {G : FGraph} (hw : G.wfb = true) :
    inducedGraph G G.verts = G := by
  obtain ⟨-, -, hedges⟩ := wfb_iff.mp hw
  unfold inducedGraph
  have h1 : G.verts.filter (fun a => decide (a ∈ G.verts)) = G.verts := by
    rw [List.filter_eq_self]
    intro a ha
    simpa using ha
  have h2 : G.edges.filter (fun e => decide (e.1 ∈ G.verts) && decide (e.2 ∈ G.verts)) =
      G.edges := by
    rw [List.filter_eq_self]
    intro e he
    have := hedges e he
    simp [this.1, this.2.1]
  rw [h1, h2]

theorem inducedGraph_singleton {G : FGraph} (hw : G.wfb = true) {v : Nat}
    (hv : v ∈ G.verts) : inducedGraph G [v] = ⟨[v], []⟩ := by
  obtain ⟨hvnd, -, hedges⟩ := wfb_iff.mp hw
  unfold inducedGraph
  have h1 : G.verts.filter (fun a => decide (a ∈ [v])) = [v] := by
    have hfe : (fun a => decide (a ∈ ([v] : List Nat))) = (fun a => decide (a = v)) := by
      funext a
      simp [List.mem_singleton]
    rw [hfe, List.filter_eq, List.count_eq_one_of_mem hvnd hv]
    rfl
  have h2 : G.edges.filter (fun e => decide (e.1 ∈ [v]) && decide (e.2 ∈ [v])) = [] := by
    rw [List.filter_eq_nil_iff]
    intro e he
    have hlt := (hedges e he).2.2
    simp only [Bool.and_eq_true, decide_eq_true_iff, List.mem_singleton]
    rintro ⟨rfl, h⟩
    omega
  rw [h1, h2]

theorem connectedb_single (v : Nat) : connectedb ⟨[v], []⟩ = true := by
  have h : v ∈ reachFrom ⟨[v], []⟩ v := by
    show v ∈ reachStep ⟨[v], []⟩ [v]
    exact List.mem_append_left _ (List.mem_singleton_self v)
  simp [connectedb, h]

theorem planarb_of_empty_verts {G : FGraph} (hw : G.wfb = true)
    (hv : G.verts = []) : planarb G = true := by
  obtain ⟨-, -, hedges⟩ := wfb_iff.mp hw
  have he : G.edges = [] := by
    rw [List.eq_nil_iff_forall_not_mem]
    intro e hmem
    have := (hedges e hmem).1
    rw [hv] at this
    exact absurd this (List.not_mem_nil _)
  have hG : G = ⟨[], []⟩ := by
    obtain ⟨vs, es⟩ := G
    simp only at hv he
    rw [hv, he]
  rw [hG]
  decide

theorem allCC_trivial {G : FGraph} (hw : G.wfb = true)
    (hc : connectedb G = true) :
    allClustersConnectedb ⟨G, trivialTree G⟩ = true := by
  unfold allClustersConnectedb
  rw [List.all_eq_true]
  intro ms hms
  rw [allClusters_trivial] at hms
  rcases List.mem_singleton.mp hms with rfl
  show connectedb (inducedGraph G G.verts) = true
  rw [inducedGraph_univ hw]
  exact hc

theorem allCC_singletonTree {G : FGraph} (hw : G.wfb = true)
    (hc : connectedb G = true) :
    allClustersConnectedb ⟨G, singletonTree G⟩ = true := by
  unfold allClustersConnectedb
  rw [List.all_eq_true]
  intro ms hms
  rw [allClusters_singletonTree] at hms
  rcases List.mem_cons.mp hms with rfl | hms'
  · show connectedb (inducedGraph G G.verts) = true
    rw [inducedGraph_univ hw]
    exact hc
  · obtain ⟨v, hv, rfl⟩ := List.mem_map.mp hms'
    show connectedb (inducedGraph G [v]) = true
    rw [inducedGraph_singleton hw hv]
    exact connectedb_single v

theorem testChildren_singletons {G : FGraph} (hw : G.wfb = true)
    (hpl : planarb G = true) :
    ∀ vs : List Nat,
      testChildren G (vs.map (fun v => CTree.node [v] [])) = .ok ()
  | [] => by rw [List.map_nil, testChildren]
  | v :: vs => by
    rw [List.map_cons, testChildren]
    have hchild : testTree G (.node [v] []) = .ok () := by
      rw [testTree, testChildren, if_pos]
      rw [subtreeOK_single hw v]
      exact hpl
    rw [hchild]
    exact testChildren_singletons hw hpl vs

theorem callResult_trivialTree {G : FGraph} (hw : G.wfb = true)
    (hc : connectedb G = true) :
    (callResult ⟨G, trivialTree G⟩).1 = planarb G := by
  have h2 := allCC_trivial hw hc
  rw [callResult_of_preconds (C := ⟨G, trivialTree G⟩) hc h2]
  show (match testTree G (trivialTree G) with
    | .ok _ => ((true : Bool), ErrorCode.none)
    | .error e => ((false : Bool), e)).1 = planarb G
  cases hpl : planarb G with
  | true =>
    have hso : subtreeOK G (CTree.node G.verts []) = true := by
      rw [show CTree.node G.verts [] = trivialTree G from rfl, subtreeOK_trivial hw]
      exact hpl
    have hok : testTree G (trivialTree G) = .ok () := by
      rw [trivialTree, testTree, testChildren, if_pos hso]
    rw [hok]
  | false =>
    have hso : ¬ subtreeOK G (CTree.node G.verts []) = true := by
      rw [show CTree.node G.verts [] = trivialTree G from rfl, subtreeOK_trivial hw]
      simp [hpl]
    have herr : testTree G (trivialTree G) = .error (failCode G) := by
      rw [trivialTree, testTree, testChildren, if_neg hso]
    rw [herr]

theorem callResult_singletonTree {G : FGraph} (hw : G.wfb = true)
    (hc : connectedb G = true) :
    (callResult ⟨G, singletonTree G⟩).1 = planarb G := by
  have h2 := allCC_singletonTree hw hc
  rw [callResult_of_preconds (C := ⟨G, singletonTree G⟩) hc h2]
  show (match testTree G (singletonTree G) with
    | .ok _ => ((true : Bool), ErrorCode.none)
    | .error e => ((false : Bool), e)).1 = planarb G
  cases hpl : planarb G with
  | true =>
    have hso : subtreeOK G (singletonTree G) = true := by
      rw [subtreeOK_singletonTree hw]
      exact hpl
    have hok : testTree G (singletonTree G) = .ok () := by
      rw [singletonTree, testTree, testChildren_singletons hw hpl G.verts]
      rw [show CTree.node G.verts (G.verts.map (fun v => CTree.node [v] [])) =
        singletonTree G from rfl]
      rw [if_pos hso]
    rw [hok]
  | false =>
    cases hverts : G.verts with
    | nil =>
      exact absurd (planarb_of_empty_verts hw hverts) (by simp [hpl])
    | cons v vs =>
      have hchild : testTree G (CTree.node [v] []) = .error (failCode G) := by
        rw [testTree, testChildren, if_neg]
        rw [subtreeOK_single hw v]
        simp [hpl]
      have herr : testTree G (singletonTree G) = .error (failCode G) := by
        rw [singletonTree, hverts, List.map_cons, testTree, testChildren, hchild]
      rw [herr]

/-- Claim C6 (counterexample) — the trivial-clustering equivalence fails
as stated on disconnected inputs: two disjoint edges form a planar graph,
yet `call` rejects both trivial clusterings with `nonConnected`. -/
theorem claim_C6_counterexample :
    planarb twoEdges = true ∧
      (callResult ⟨twoEdges, trivialTree twoEdges⟩).1 = false ∧
      (callResult ⟨twoEdges, singletonTree twoEdges⟩).1 = false := by
  refine ⟨by decide, ?_, ?_⟩
  · rw [callResult_of_not_connected (C := ⟨twoEdges, trivialTree twoEdges⟩) (by decide)]
  · rw [callResult_of_not_connected (C := ⟨twoEdges, singletonTree twoEdges⟩) (by decide)]

/-- Claim C6 (amended) — for well-formed inputs whose flat graph is
connected, both trivial clusterings (one root cluster, or every vertex
its own singleton) yield the same verdict as the plain planarity test. -/
theorem claim_C6 (G : FGraph) (hw : G.wfb = true) (hc : connectedb G = true) :
    (callResult ⟨G, trivialTree G⟩).1 = planarb G ∧
      (callResult ⟨G, singletonTree G⟩).1 = planarb G :=
  ⟨callResult_trivialTree hw hc, callResult_singletonTree hw hc⟩

/-- Witness for C6 at the single-edge graph. -/
theorem claim_C6_witness :
    oneEdge.wfb = true ∧ connectedb oneEdge = true ∧
      ((callResult ⟨oneEdge, trivialTree oneEdge⟩).1 = planarb oneEdge ∧
        (callResult ⟨oneEdge, singletonTree oneEdge⟩).1 = planarb oneEdge) :=
  ⟨by decide, by decide, claim_C6 oneEdge (by decide) (by decide)⟩

/-! Completeness of the permutation enumeration: every reordering of a
list is among its candidates. -/

theorem mem_insertEverywhere_split (x : Nat) :
    ∀ (q₁ q₂ : List Nat), (q₁ ++ x :: q₂) ∈ insertEverywhere x (q₁ ++ q₂)
  | [], q₂ => by
    rw [List.nil_append, List.nil_append]
    cases q₂ with
    | nil => simp [insertEverywhere]
    | cons y ys => simp [insertEverywhere]
  | y :: q₁, q₂ => by
    rw [List.cons_append, List.cons_append, insertEverywhere]
    refine List.mem_cons_of_mem _ ?_
    rw [List.mem_map]
    exact ⟨q₁ ++ x :: q₂, mem_insertEverywhere_split x q₁ q₂, rfl⟩

theorem mem_perms_of_perm : ∀ {l p : List Nat}, p.Perm l → p ∈ perms l
  | [], p, h => by
    rw [List.perm_nil] at h
    simp [perms, h]
  | x :: xs, p, h => by
    have hx : x ∈ p := h.mem_iff.mpr (List.mem_cons_self x xs)
    obtain ⟨p₁, p₂, rfl⟩ := List.append_of_mem hx
    have hmid : (p₁ ++ x :: p₂).Perm (x :: (p₁ ++ p₂)) := List.perm_middle
    have htail : (p₁ ++ p₂).Perm xs :=
      (List.perm_cons x).mp (hmid.symm.trans h)
    rw [perms, List.mem_flatMap]
    exact ⟨p₁ ++ p₂, mem_perms_of_perm htail, mem_insertEverywhere_split x p₁ p₂⟩

theorem mem_rotCandidates_of_perm {l r : List Nat} (h : r.Perm l) :
    r ∈ rotCandidates l :=
  mem_perms_of_perm h

theorem rotFold_mem_of (G : FGraph) (f : Nat → List Nat) :
    ∀ vs : List Nat, (∀ v ∈ vs, f v ∈ rotCandidates (G.neighbors v)) →
      (vs.map (fun v => (v, f v))) ∈ rotFold G vs
  | [], _ => by simp [rotFold]
  | v :: vs, h => by
    rw [List.map_cons, rotFold, List.mem_flatMap]
    refine ⟨f v, h v (List.mem_cons_self v vs), ?_⟩
    rw [List.mem_map]
    exact ⟨vs.map (fun v => (v, f v)),
      rotFold_mem_of G f vs (fun w hw => h w (List.mem_cons_of_mem v hw)), rfl⟩

theorem lookupRot_map (f : Nat → List Nat) :
    ∀ (vs : List Nat) (v : Nat), v ∈ vs →
      lookupRot (vs.map (fun v => (v, f v))) v = f v
  | [], v, hv => absurd hv (List.not_mem_nil v)
  | u :: vs, v, hv => by
    rw [List.map_cons]
    unfold lookupRot
    rw [List.find?_cons]
    by_cases huv : u = v
    · subst huv
      simp
    · have : (decide ((u, f u).1 = v)) = false := by
        simp [huv]
      rw [this]
      have hv' : v ∈ vs := by
        rcases List.mem_cons.mp hv with h | h
        · exact absurd h.symm huv
        · exact h
      have := lookupRot_map f vs v hv'
      unfold lookupRot at this
      exact this

/-! How the cyclic successor reacts to erasing one element. -/

theorem headD_eq_get {l : List Nat} (x : Nat) (h : 0 < l.length) :
    l.headD x = l.get ⟨0, h⟩ := by
  cases l with
  | nil => simp at h
  | cons a t => rfl

theorem get_append_succ (x y : Nat) (q : List Nat) :
    ∀ (p : List Nat) (h : p.length + 1 < (p ++ x :: y :: q).length),
      (p ++ x :: y :: q).get ⟨p.length + 1, h⟩ = y
  | [], h => rfl
  | a :: p, h => by
    have hlt : p.length + 1 < (p ++ x :: y :: q).length := by
      simp only [List.length_append, List.length_cons] at h ⊢
      omega
    have := get_append_succ x y q p hlt
    simpa using this

theorem cyclicNext_split {p q : List Nat} {x : Nat} (hxp : x ∉ p) :
    cyclicNext (p ++ x :: q) x = (q ++ p).headD x := by
  have hx : x ∈ p ++ x :: q := by simp
  rw [cyclicNext_eq_get hx]
  have hidx : (p ++ x :: q).indexOf x = p.length := by
    rw [List.indexOf_append_of_not_mem hxp]
    simp
  cases q with
  | nil =>
    have hlen : (p ++ [x]).length = p.length + 1 := by simp
    have hmod : ((p ++ [x]).indexOf x + 1) % (p ++ [x]).length = 0 := by
      rw [hidx, hlen, Nat.mod_self]
    have h0 : 0 < (p ++ [x]).length := by simp
    have hget : (p ++ [x]).get ⟨((p ++ [x]).indexOf x + 1) % (p ++ [x]).length,
        Nat.mod_lt _ (List.length_pos.mpr (List.ne_nil_of_mem hx))⟩ =
        (p ++ [x]).get ⟨0, h0⟩ := by
      congr 1
      exact Fin.ext hmod
    rw [hget, ← headD_eq_get x h0, List.nil_append]
    cases p with
    | nil => rfl
    | cons h t => rfl
  | cons y q₂ =>
    have hlt : p.length + 1 < (p ++ x :: y :: q₂).length := by
      simp only [List.length_append, List.length_cons]
      omega
    have hmod : ((p ++ x :: y :: q₂).indexOf x + 1) % (p ++ x :: y :: q₂).length =
        p.length + 1 := by
      rw [hidx, Nat.mod_eq_of_lt hlt]
    have hget : (p ++ x :: y :: q₂).get
        ⟨((p ++ x :: y :: q₂).indexOf x + 1) % (p ++ x :: y :: q₂).length,
          Nat.mod_lt _ (List.length_pos.mpr (List.ne_nil_of_mem hx))⟩ =
        (p ++ x :: y :: q₂).get ⟨p.length + 1, hlt⟩ := by
      congr 1
      exact Fin.ext hmod
    rw [hget, get_append_succ x y q₂ p hlt]
    rfl

/-- Splitting any duplicate-free list at a member. -/
theorem split_at_mem {l : List Nat} {x : Nat} (hnd : l.Nodup) (hx : x ∈ l) :
    ∃ p q, l = p ++ x :: q ∧ x ∉ p ∧ x ∉ q := by
  obtain ⟨p, q, rfl⟩ := List.append_of_mem hx
  have h := hnd
  rw [List.nodup_append] at h
  obtain ⟨hp, hq, hdisj⟩ := h
  rw [List.nodup_cons] at hq
  refine ⟨p, q, rfl, ?_, hq.1⟩
  intro hxp
  exact (hdisj hxp) (List.mem_cons_self x q)

/-- Erasing an element that is not the successor leaves the successor
unchanged. -/
theorem cyclicNext_erase_ne {l : List Nat} {a x : Nat} (hnd : l.Nodup)
    (ha : a ∈ l) (hx : x ∈ l) (hxa : x ≠ a)
    (hne : cyclicNext l x ≠ a) :
    cyclicNext (l.erase a) x = cyclicNext l x := by
  obtain ⟨p, q, rfl, hxp, hxq⟩ := split_at_mem hnd hx
  have hnd' := hnd
  rw [List.nodup_append] at hnd'
  have ham : a ∈ p ∨ a ∈ q := by
    rcases List.mem_append.mp ha with h | h
    · exact Or.inl h
    · rcases List.mem_cons.mp h with h | h
      · exact absurd h.symm hxa
      · exact Or.inr h
  have hstep : (p ++ x :: q).erase a =
      (if a ∈ p then p.erase a else p) ++ x :: (if a ∈ p then q else q.erase a) := by
    by_cases hap : a ∈ p
    · rw [if_pos hap, if_pos hap, List.erase_append_left _ hap]
    · rw [if_neg hap, if_neg hap, List.erase_append_right _ hap,
        List.erase_cons_tail]
      simp [hxa]
  rw [hstep]
  have hxp' : x ∉ (if a ∈ p then p.erase a else p) := by
    by_cases hap : a ∈ p
    · rw [if_pos hap]
      intro hmem
      exact hxp (List.mem_of_mem_erase hmem)
    · rw [if_neg hap]
      exact hxp
  rw [cyclicNext_split hxp', cyclicNext_split hxp]
  rw [cyclicNext_split hxp] at hne
  have hqp : (if a ∈ p then q else q.erase a) ++ (if a ∈ p then p.erase a else p) =
      (q ++ p).erase a := by
    by_cases hap : a ∈ p
    · rw [if_pos hap, if_pos hap, List.erase_append_right _ ?_]
      · intro haq
        exact (hnd'.2.2 hap) (List.mem_cons_of_mem x haq)
    · rw [if_neg hap, if_neg hap, List.erase_append_left _ ?_]
      · rcases ham with h | h
        · exact absurd h hap
        · exact h
  rw [hqp]
  cases hqpl : q ++ p with
  | nil => rfl
  | cons h t =>
    rw [hqpl] at hne
    have hha : h ≠ a := by
      intro heqa
      exact hne (by simp [heqa])
    rw [List.erase_cons_tail]
    · rfl
    · simp [hha]

/-- Erasing the successor makes the walk skip to the successor's
successor. -/
theorem cyclicNext_erase_eq {l : List Nat} {a x : Nat} (hnd : l.Nodup)
    (ha : a ∈ l) (hx : x ∈ l) (hxa : x ≠ a)
    (heq : cyclicNext l x = a) :
    cyclicNext (l.erase a) x = cyclicNext l a := by
  obtain ⟨p, q, rfl, hxp, hxq⟩ := split_at_mem hnd hx
  have hnd' := hnd
  rw [List.nodup_append] at hnd'
  rw [cyclicNext_split hxp] at heq
  cases hq : q with
  | cons b q₂ =>
    subst hq
    have hab : a = b := (show b = a by simpa using heq).symm
    subst hab
    -- l = p ++ x :: a :: q₂ ; erase a
    have hap : a ∉ p := by
      intro hmem
      exact (hnd'.2.2 hmem) (show a ∈ x :: a :: q₂ by simp)
    have hstep : (p ++ x :: a :: q₂).erase a = p ++ x :: q₂ := by
      rw [List.erase_append_right _ hap, List.erase_cons_tail, List.erase_cons_head]
      simp [hxa]
    rw [hstep, cyclicNext_split hxp]
    have hl2 : p ++ x :: a :: q₂ = (p ++ [x]) ++ a :: q₂ := by simp
    have hapx : a ∉ p ++ [x] := by
      simp only [List.mem_append, List.mem_singleton]
      rintro (hmem | hmem)
      · exact hap hmem
      · exact hxa hmem.symm
    rw [hl2, cyclicNext_split hapx]
    -- goal: (q₂ ++ p).headD x = (q₂ ++ (p ++ [x])).headD a
    cases hq₂p : q₂ ++ p with
    | nil =>
      have hq₂ : q₂ = [] := (List.append_eq_nil.mp hq₂p).1
      have hp : p = [] := (List.append_eq_nil.mp hq₂p).2
      subst hq₂
      subst hp
      rfl
    | cons c cs =>
      have h2 : (q₂ ++ (p ++ [x])).headD a = c := by
        rw [← List.append_assoc, hq₂p]
        rfl
      rw [h2]
      rfl
  | nil =>
    subst hq
    -- q = [] so headD of p is a, hence p = a :: t
    cases hp : p with
    | nil =>
      subst hp
      simp at heq
      exact absurd heq.symm (Ne.symm hxa)
    | cons b t =>
      subst hp
      have hab : a = b := (show b = a by simpa using heq).symm
      subst hab
      -- l = (a :: t) ++ [x], erase a
      have hstep : ((a :: t) ++ [x]).erase a = t ++ [x] := by
        rw [List.cons_append, List.erase_cons_head]
      rw [hstep]
      have hxt : x ∉ t := by
        intro hmem
        exact hxp (List.mem_cons_of_mem a hmem)
      have hx2 : cyclicNext (t ++ [x]) x = (([] : List Nat) ++ t).headD x := by
        have : t ++ [x] = t ++ x :: ([] : List Nat) := rfl
        rw [this]
        exact cyclicNext_split hxt
      rw [hx2]
      have hh : cyclicNext ((a :: t) ++ [x]) a =
          ((t ++ [x]) ++ ([] : List Nat)).headD a := by
        have : (a :: t) ++ [x] = ([] : List Nat) ++ a :: (t ++ [x]) := by simp
        rw [this]
        exact cyclicNext_split (by simp)
      rw [hh]
      cases t with
      | nil => rfl
      | cons c cs => rfl

/-! Properties of the one-edge-removed graph and its rotation system. -/

theorem removeEdge_wfb {G : FGraph} (hw : G.wfb = true) (e : Nat × Nat) :
    (G.removeEdge e).wfb = true := by
  obtain ⟨hv, hnd, hedges⟩ := wfb_iff.mp hw
  rw [wfb_iff]
  refine ⟨hv, hnd.erase e, ?_⟩
  intro e' he'
  exact hedges e' (List.mem_of_mem_erase he')

theorem mem_darts_removeEdge {G : FGraph} (hw : G.wfb = true) {e : Nat × Nat}
    (he : e ∈ G.edges) {x : Nat × Nat} :
    x ∈ (G.removeEdge e).darts ↔ x ∈ G.darts ∧ x ≠ e ∧ x ≠ (e.2, e.1) := by
  obtain ⟨-, hnd, hedges⟩ := wfb_iff.mp hw
  show x ∈ FGraph.darts ⟨G.verts, G.edges.erase e⟩ ↔ _
  rw [mem_darts, mem_darts]
  constructor
  · rintro (hx | hx)
    · have hx' := List.mem_of_mem_erase hx
      have hxe : x ≠ e := ((List.Nodup.mem_erase_iff hnd).mp hx).1
      refine ⟨Or.inl hx', hxe, ?_⟩
      intro hswap
      have h1 := (hedges x hx').2.2
      rw [hswap] at h1
      have h2 := (hedges e he).2.2
      simp at h1
      omega
    · have hx' := List.mem_of_mem_erase hx
      have hxe : (x.2, x.1) ≠ e := ((List.Nodup.mem_erase_iff hnd).mp hx).1
      refine ⟨Or.inr hx', ?_, ?_⟩
      · intro hxeq
        have h1 := (hedges _ hx').2.2
        have h2 := (hedges e he).2.2
        rw [hxeq] at h1
        simp at h1
        omega
      · intro hswap
        apply hxe
        rw [hswap]
  · rintro ⟨hx | hx, hne, hnswap⟩
    · exact Or.inl ((List.Nodup.mem_erase_iff hnd).mpr ⟨hne, hx⟩)
    · refine Or.inr ((List.Nodup.mem_erase_iff hnd).mpr ⟨?_, hx⟩)
      intro heq
      apply hnswap
      rw [← heq]

theorem darts_removeEdge_subset {G : FGraph} (hw : G.wfb = true) {e : Nat × Nat}
    (he : e ∈ G.edges) {x : Nat × Nat} (hx : x ∈ (G.removeEdge e).darts) :
    x ∈ G.darts :=
  ((mem_darts_removeEdge hw he).mp hx).1

theorem perm_cons_erase_prod {l : List (Nat × Nat)} {a : Nat × Nat} (h : a ∈ l) :
    l.Perm (a :: l.erase a) := by
  induction l with
  | nil => cases h
  | cons b t ih =>
    rcases List.mem_cons.mp h with h | h
    · subst h
      rw [List.erase_cons_head]
    · by_cases hba : b = a
      · subst hba
        rw [List.erase_cons_head]
      · rw [List.erase_cons_tail]
        · exact ((ih h).cons b).trans (List.Perm.swap a b _)
        · simpa using hba

theorem neighbors_cons_erase {G : FGraph} {e : Nat × Nat} (he : e ∈ G.edges)
    (v : Nat) :
    (G.neighbors v).Perm
      ((if e.1 = v then some e.2 else if e.2 = v then some e.1 else Option.none).toList
        ++ (G.removeEdge e).neighbors v) := by
  have hperm : G.edges.Perm (e :: G.edges.erase e) := perm_cons_erase_prod he
  have h := hperm.filterMap
    (fun q => if q.1 = v then some q.2 else if q.2 = v then some q.1 else none)
  rw [List.filterMap_cons] at h
  show (G.neighbors v).Perm _
  unfold FGraph.neighbors
  cases hfe : (if e.1 = v then some e.2 else if e.2 = v then some e.1 else
      (Option.none : Option Nat)) with
  | none =>
    rw [hfe] at h
    simpa using h
  | some u =>
    rw [hfe] at h
    simpa using h

theorem neighbors_removeEdge_other {G : FGraph} {e : Nat × Nat} (he : e ∈ G.edges)
    {v : Nat} (h1 : v ≠ e.1) (h2 : v ≠ e.2) :
    ((G.removeEdge e).neighbors v).Perm (G.neighbors v) := by
  have h := neighbors_cons_erase he v
  rw [if_neg (fun h => h1 h.symm), if_neg (fun h => h2 h.symm)] at h
  simpa using h.symm

theorem neighbors_removeEdge_fst {G : FGraph} {e : Nat × Nat} (he : e ∈ G.edges) :
    ((G.removeEdge e).neighbors e.1).Perm ((G.neighbors e.1).erase e.2) := by
  have h := neighbors_cons_erase he e.1
  rw [if_pos rfl] at h
  have h2 := h.erase e.2
  rw [show (some e.2).toList ++ (G.removeEdge e).neighbors e.1 =
      e.2 :: (G.removeEdge e).neighbors e.1 from rfl] at h2
  rw [List.erase_cons_head] at h2
  exact h2.symm

theorem neighbors_removeEdge_snd {G : FGraph} (hw : G.wfb = true)
    {e : Nat × Nat} (he : e ∈ G.edges) :
    ((G.removeEdge e).neighbors e.2).Perm ((G.neighbors e.2).erase e.1) := by
  obtain ⟨-, -, hedges⟩ := wfb_iff.mp hw
  have hne : e.1 ≠ e.2 := Nat.ne_of_lt (hedges e he).2.2
  have h := neighbors_cons_erase he e.2
  rw [if_neg hne, if_pos rfl] at h
  have h2 := h.erase e.1
  rw [show (some e.1).toList ++ (G.removeEdge e).neighbors e.2 =
      e.1 :: (G.removeEdge e).neighbors e.2 from rfl] at h2
  rw [List.erase_cons_head] at h2
  exact h2.symm

/-! The deleted rotation system: lookups, validity and membership in the
rotation-system search space of the one-edge-removed graph. -/

theorem lookupRot_deleteRotSys {G : FGraph} (e : Nat × Nat)
    (ρ : List (Nat × List Nat)) {v : Nat} (hv : v ∈ G.verts) :
    lookupRot (deleteRotSys G e ρ) v =
      if v = e.1 then (lookupRot ρ v).erase e.2
      else if v = e.2 then (lookupRot ρ v).erase e.1
      else lookupRot ρ v := by
  unfold deleteRotSys
  exact lookupRot_map
    (fun v => if v = e.1 then (lookupRot ρ v).erase e.2
      else if v = e.2 then (lookupRot ρ v).erase e.1
      else lookupRot ρ v) G.verts v hv

theorem lookupRot_nodup {G : FGraph} (hw : G.wfb = true)
    {ρ : List (Nat × List Nat)} (hρ : validRot G ρ) {v : Nat} (hv : v ∈ G.verts) :
    (lookupRot ρ v).Nodup :=
  ((hρ v hv).nodup_iff).mpr (neighbors_nodup hw v)

theorem validRot_deleteRotSys {G : FGraph} (hw : G.wfb = true) {e : Nat × Nat}
    (he : e ∈ G.edges) {ρ : List (Nat × List Nat)} (hρ : validRot G ρ) :
    validRot (G.removeEdge e) (deleteRotSys G e ρ) := by
  intro v hv
  have hv' : v ∈ G.verts := hv
  rw [lookupRot_deleteRotSys e ρ hv']
  by_cases h1 : v = e.1
  · rw [if_pos h1]
    subst h1
    exact ((hρ _ hv').erase e.2).trans (neighbors_removeEdge_fst he).symm
  · rw [if_neg h1]
    by_cases h2 : v = e.2
    · rw [if_pos h2]
      subst h2
      exact ((hρ _ hv').erase e.1).trans (neighbors_removeEdge_snd hw he).symm
    · rw [if_neg h2]
      exact (hρ v hv').trans (neighbors_removeEdge_other he h1 h2).symm

theorem deleteRotSys_mem {G : FGraph} (hw : G.wfb = true) {e : Nat × Nat}
    (he : e ∈ G.edges) {ρ : List (Nat × List Nat)} (hρ : ρ ∈ allRotSystems G) :
    deleteRotSys G e ρ ∈ allRotSystems (G.removeEdge e) := by
  have hvalid := validRot_deleteRotSys hw he (validRot_of_mem hρ)
  show deleteRotSys G e ρ ∈ rotFold (G.removeEdge e) G.verts
  unfold deleteRotSys
  apply rotFold_mem_of
  intro v hv
  apply mem_rotCandidates_of_perm
  have h := hvalid v hv
  rwa [lookupRot_deleteRotSys e ρ hv] at h

theorem darts_nodup_aux :
    ∀ l : List (Nat × Nat), l.Nodup → (∀ p ∈ l, p.1 < p.2) →
      (l.flatMap (fun e => [(e.1, e.2), (e.2, e.1)])).Nodup
  | [], _, _ => by simp
  | e :: t, hnd, hlt => by
    rw [List.flatMap_cons]
    have hmemt : ∀ x : Nat × Nat,
        x ∈ t.flatMap (fun e => [(e.1, e.2), (e.2, e.1)]) ↔
          ∃ f ∈ t, x = (f.1, f.2) ∨ x = (f.2, f.1) := by
      intro x
      rw [List.mem_flatMap]
      constructor
      · rintro ⟨f, hf, hx⟩
        refine ⟨f, hf, ?_⟩
        simpa using hx
      · rintro ⟨f, hf, hx⟩
        exact ⟨f, hf, by simpa using hx⟩
    have het : e ∉ t := (List.nodup_cons.mp hnd).1
    have hlte : e.1 < e.2 := hlt e (List.mem_cons_self e t)
    have ih := darts_nodup_aux t (List.nodup_cons.mp hnd).2
      (fun p hp => hlt p (List.mem_cons_of_mem e hp))
    show ((e.1, e.2) :: (e.2, e.1) :: t.flatMap _).Nodup
    rw [List.nodup_cons, List.nodup_cons]
    refine ⟨?_, ?_, ih⟩
    · rw [List.mem_cons]
      push_neg
      refine ⟨?_, ?_⟩
      · intro h
        have h1 := congrArg Prod.fst h
        have h2 := congrArg Prod.snd h
        simp at h1 h2
        omega
      · intro h
        rw [hmemt] at h
        obtain ⟨f, hf, hx | hx⟩ := h
        · have : e = f := by
            obtain ⟨a, b⟩ := e
            obtain ⟨c, d⟩ := f
            simpa using hx
          exact het (this ▸ hf)
        · have hltf := hlt f (List.mem_cons_of_mem e hf)
          have h1 := congrArg Prod.fst hx
          have h2 := congrArg Prod.snd hx
          simp at h1 h2
          omega
    · intro h
      rw [hmemt] at h
      obtain ⟨f, hf, hx | hx⟩ := h
      · have hltf := hlt f (List.mem_cons_of_mem e hf)
        have h1 := congrArg Prod.fst hx
        have h2 := congrArg Prod.snd hx
        simp at h1 h2
        omega
      · have : e = f := by
          obtain ⟨a, b⟩ := e
          obtain ⟨c, d⟩ := f
          have h1 := congrArg Prod.fst hx
          have h2 := congrArg Prod.snd hx
          simp at h1 h2
          simp [h1, h2]
        exact het (this ▸ hf)

theorem darts_nodup {G : FGraph} (hw : G.wfb = true) : G.darts.Nodup := by
  obtain ⟨-, hnd, hedges⟩ := wfb_iff.mp hw
  exact darts_nodup_aux G.edges hnd (fun p hp => (hedges p hp).2.2)

/-! The face successor of the deleted system is the original face
successor spliced across the two removed darts. -/

theorem faceSucc_deleteRotSys {G : FGraph} (hw : G.wfb = true) {e : Nat × Nat}
    (he : e ∈ G.edges) {ρ : List (Nat × List Nat)} (hρ : validRot G ρ)
    {x : Nat × Nat} (hx : x ∈ (G.removeEdge e).darts) :
    faceSucc (deleteRotSys G e ρ) x =
      if faceSucc ρ x = e then faceSucc ρ (e.2, e.1)
      else if faceSucc ρ x = (e.2, e.1) then faceSucc ρ e
      else faceSucc ρ x := by
  obtain ⟨hxG, hxe, hxswap⟩ := (mem_darts_removeEdge hw he).mp hx
  obtain ⟨-, -, hedges⟩ := wfb_iff.mp hw
  have hne12 : e.1 ≠ e.2 := Nat.ne_of_lt (hedges e he).2.2
  have hx2 : x.2 ∈ G.verts := darts_snd_mem_verts hw hxG
  have hx1mem : x.1 ∈ lookupRot ρ x.2 :=
    (hρ x.2 hx2).mem_iff.mpr (darts_fst_mem_neighbors hxG)
  have hbn : e.2 ∈ G.neighbors e.1 := by
    refine mem_neighbors.mpr (Or.inl ?_)
    obtain ⟨a, b⟩ := e
    exact he
  have han : e.1 ∈ G.neighbors e.2 := by
    refine mem_neighbors.mpr (Or.inr ?_)
    obtain ⟨a, b⟩ := e
    exact he
  obtain ⟨a, b⟩ := e
  obtain ⟨u, v⟩ := x
  simp only [faceSucc]
  rw [lookupRot_deleteRotSys (a, b) ρ hx2]
  by_cases h1 : v = a
  · subst h1
    rw [if_pos rfl]
    have hndL : (lookupRot ρ v).Nodup := lookupRot_nodup hw hρ hx2
    have hbL : b ∈ lookupRot ρ v := (hρ v hx2).mem_iff.mpr hbn
    have hub : u ≠ b := by
      intro hcontra
      exact hxswap (by rw [hcontra])
    by_cases hcn : cyclicNext (lookupRot ρ v) u = b
    · rw [if_pos (by rw [hcn])]
      rw [cyclicNext_erase_eq hndL hbL hx1mem hub hcn]
    · rw [if_neg (fun hc => hcn (by simpa using congrArg Prod.snd hc))]
      rw [if_neg (fun hc => hne12 (by simpa using congrArg Prod.fst hc))]
      rw [cyclicNext_erase_ne hndL hbL hx1mem hub hcn]
  · rw [if_neg h1]
    by_cases h2 : v = b
    · subst h2
      rw [if_pos rfl]
      have hndL : (lookupRot ρ v).Nodup := lookupRot_nodup hw hρ hx2
      have haL : a ∈ lookupRot ρ v := (hρ v hx2).mem_iff.mpr han
      have hua : u ≠ a := by
        intro hcontra
        exact hxe (by rw [hcontra])
      by_cases hcn : cyclicNext (lookupRot ρ v) u = a
      · rw [if_neg (fun hc => hne12 (by simpa using (congrArg Prod.fst hc).symm))]
        rw [if_pos (by rw [hcn])]
        rw [cyclicNext_erase_eq hndL haL hx1mem hua hcn]
      · rw [if_neg (fun hc => hne12 (by simpa using (congrArg Prod.fst hc).symm))]
        rw [if_neg (fun hc => hcn (by simpa using congrArg Prod.snd hc))]
        rw [cyclicNext_erase_ne hndL haL hx1mem hua hcn]
    · rw [if_neg h2]
      rw [if_neg (fun hc => h1 (by simpa using congrArg Prod.fst hc))]
      rw [if_neg (fun hc => h2 (by simpa using congrArg Prod.fst hc))]

/-! Exact orbit counting: the fueled counter computes the number of
orbit classes of the successor map on the dart list. -/

section OrbitExact

variable {σ : Nat × Nat → Nat × Nat}

theorem iterate_mod {d : Nat × Nat} {P : Nat} (hP0 : 0 < P)
    (hPd : σ^[P] d = d) : ∀ i, σ^[i] d = σ^[i % P] d := by
  intro i
  induction i using Nat.strong_induction_on with
  | _ i ih =>
    rcases Nat.lt_or_ge i P with h | h
    · rw [Nat.mod_eq_of_lt h]
    · have h1 : i = (i - P) + P := by omega
      have h2 : i % P = (i - P) % P := by
        conv_lhs => rw [h1]
        rw [Nat.add_mod_right]
      conv_lhs => rw [h1]
      rw [Function.iterate_add_apply, hPd, ih (i - P) (by omega), h2]

theorem mem_orbSet_iff {N : Nat} {d x : Nat × Nat} :
    x ∈ orbSet σ N d ↔ ∃ i, i < N ∧ σ^[i] d = x := by
  unfold orbSet
  rw [List.mem_toFinset, List.mem_map]
  constructor
  · rintro ⟨i, hi, rfl⟩
    exact ⟨i, List.mem_range.mp hi, rfl⟩
  · rintro ⟨i, hi, rfl⟩
    exact ⟨i, List.mem_range.mpr hi, rfl⟩

theorem mem_orbSet_self {N : Nat} (hN : 0 < N) (d : Nat × Nat) :
    d ∈ orbSet σ N d :=
  mem_orbSet_iff.mpr ⟨0, hN, rfl⟩

theorem orbSet_eq_of_period {d : Nat × Nat} {P N M : Nat} (hP0 : 0 < P)
    (hPd : σ^[P] d = d) (hN : P ≤ N) (hM : P ≤ M) :
    orbSet σ N d = orbSet σ M d := by
  ext x
  rw [mem_orbSet_iff, mem_orbSet_iff]
  constructor
  · rintro ⟨i, hi, rfl⟩
    exact ⟨i % P, lt_of_lt_of_le (Nat.mod_lt _ hP0) hM, (iterate_mod hP0 hPd i).symm⟩
  · rintro ⟨i, hi, rfl⟩
    exact ⟨i % P, lt_of_lt_of_le (Nat.mod_lt _ hP0) hN, (iterate_mod hP0 hPd i).symm⟩

theorem period_shift {d : Nat × Nat} {P : Nat} (hPd : σ^[P] d = d) (k : Nat) :
    σ^[P] (σ^[k] d) = σ^[k] d := by
  rw [← Function.iterate_add_apply, Nat.add_comm, Function.iterate_add_apply, hPd]

theorem orbSet_shift {d : Nat × Nat} {P : Nat} (hP0 : 0 < P)
    (hPd : σ^[P] d = d) (k : Nat) :
    orbSet σ P (σ^[k] d) = orbSet σ P d := by
  have hmain : ∀ k', k' < P → orbSet σ P (σ^[k'] d) = orbSet σ P d := by
    intro k' hk'
    have hper : σ^[P] (σ^[k'] d) = σ^[k'] d := period_shift hPd k'
    ext x
    rw [mem_orbSet_iff, mem_orbSet_iff]
    constructor
    · rintro ⟨i, hi, rfl⟩
      rw [← Function.iterate_add_apply]
      rw [iterate_mod hP0 hPd (i + k')]
      exact ⟨(i + k') % P, Nat.mod_lt _ hP0, rfl⟩
    · rintro ⟨j, hj, rfl⟩
      refine ⟨(j + (P - k')) % P, Nat.mod_lt _ hP0, ?_⟩
      rw [← iterate_mod hP0 hper (j + (P - k'))]
      rw [← Function.iterate_add_apply]
      have harith : j + (P - k') + k' = j + P := by omega
      rw [harith, Function.iterate_add_apply, hPd]
  rw [iterate_mod hP0 hPd k]
  exact hmain (k % P) (Nat.mod_lt _ hP0)

theorem exists_min_period {D : List (Nat × Nat)} (_hnd : D.Nodup)
    (hclosed : ∀ x ∈ D, σ x ∈ D)
    (hinj : ∀ x ∈ D, ∀ y ∈ D, σ x = σ y → x = y)
    {d : Nat × Nat} (hd : d ∈ D) :
    ∃ P, 0 < P ∧ σ^[P] d = d ∧ P ≤ D.length ∧
      ∀ q, 0 < q → q < P → σ^[q] d ≠ d := by
  have hex : ∃ p, 0 < p ∧ σ^[p] d = d := exists_orbit_period hclosed hinj hd
  refine ⟨Nat.find hex, (Nat.find_spec hex).1, (Nat.find_spec hex).2, ?_,
    fun q hq0 hqP heq => Nat.find_min hex hqP ⟨hq0, heq⟩⟩
  set P := Nat.find hex with hPdef
  have hP0 : 0 < P := (Nat.find_spec hex).1
  have hmin : ∀ q, 0 < q → q < P → σ^[q] d ≠ d := fun q hq0 hqP heq =>
    Nat.find_min hex hqP ⟨hq0, heq⟩
  have hdist : ∀ i k, i < k → k < P → σ^[i] d ≠ σ^[k] d := by
    intro i k hik hkP heq
    have h : σ^[i] d = σ^[i + (k - i)] d := by
      rw [Nat.add_sub_cancel' (Nat.le_of_lt hik)]
      exact heq
    exact hmin (k - i) (by omega) (by omega)
      (iterate_cancel hclosed hinj hd i (k - i) h).symm
  have horbnd : ((List.range P).map (fun i => σ^[i] d)).Nodup := by
    rw [List.nodup_map_iff_inj_on (List.nodup_range P)]
    intro i hi j hj hij
    rw [List.mem_range] at hi hj
    by_contra hne
    rcases Nat.lt_or_ge i j with h | h
    · exact hdist i j h hj hij
    · exact hdist j i (by omega) hi hij.symm
  have hsub : (List.range P).map (fun i => σ^[i] d) ⊆ D := by
    intro x hx
    obtain ⟨i, _, rfl⟩ := List.mem_map.mp hx
    exact iterate_mem_of_closed hclosed hd i
  have := (horbnd.subperm hsub).length_le
  simpa using this

theorem removeOrbit_eq_filter {rem : List (Nat × Nat)} (hnd : rem.Nodup)
    (hclosed : ∀ x ∈ rem, σ x ∈ rem)
    (hinj : ∀ x ∈ rem, ∀ y ∈ rem, σ x = σ y → x = y)
    {d : Nat × Nat} (hd : d ∈ rem) {fuel : Nat} (hfuel : rem.length ≤ fuel) :
    ∃ P, 0 < P ∧ σ^[P] d = d ∧ P ≤ rem.length ∧
      (∀ q, 0 < q → q < P → σ^[q] d ≠ d) ∧
      removeOrbit σ fuel d rem =
        rem.filter (fun x => decide (∀ i, i < P → σ^[i] d ≠ x)) := by
  obtain ⟨P, hP0, hPd, hPle, hmin⟩ := exists_min_period hnd hclosed hinj hd
  refine ⟨P, hP0, hPd, hPle, hmin, ?_⟩
  have hwalk := removeOrbit_walk hnd hclosed hinj hd hP0 hPd hmin fuel 0
    (Nat.zero_le P) (by omega)
  have hgen : ∀ k : Nat, k = 0 →
      rem.filter (fun x => decide (∀ i, i < k → σ^[i] d ≠ x)) = rem := by
    intro k hk
    have hall : ∀ x ∈ rem,
        (decide (∀ i, i < k → σ^[i] d ≠ x)) = (true : Bool) := by
      intro x _
      rw [decide_eq_true_iff]
      intro i hi
      omega
    rw [List.filter_congr hall, List.filter_true]
  rw [hgen 0 rfl] at hwalk
  simp only [Function.iterate_zero_apply] at hwalk
  exact hwalk

theorem filter_orbit_closed {rem : List (Nat × Nat)}
    (hclosed : ∀ x ∈ rem, σ x ∈ rem)
    (hinj : ∀ x ∈ rem, ∀ y ∈ rem, σ x = σ y → x = y)
    {d : Nat × Nat} (hd : d ∈ rem) {P : Nat} (hP0 : 0 < P) (hPd : σ^[P] d = d) :
    ∀ x ∈ rem.filter (fun x => decide (∀ i, i < P → σ^[i] d ≠ x)),
      σ x ∈ rem.filter (fun x => decide (∀ i, i < P → σ^[i] d ≠ x)) := by
  intro x hx
  obtain ⟨hxrem, hxpred⟩ := List.mem_filter.mp hx
  rw [decide_eq_true_iff] at hxpred
  rw [List.mem_filter]
  refine ⟨hclosed x hxrem, ?_⟩
  rw [decide_eq_true_iff]
  intro i hiP heq
  rcases Nat.eq_zero_or_pos i with hi0 | hi0
  · subst hi0
    simp only [Function.iterate_zero_apply] at heq
    have hPpred : σ^[P] d = σ (σ^[P - 1] d) := iterate_pred_apply σ hP0 d
    have h2 : σ (σ^[P - 1] d) = σ x := by
      rw [← hPpred, hPd, heq]
    have hxeq := hinj _ (iterate_mem_of_closed hclosed hd (P - 1)) x hxrem h2
    exact hxpred (P - 1) (by omega) hxeq
  · have hipred : σ^[i] d = σ (σ^[i - 1] d) := iterate_pred_apply σ hi0 d
    have h2 : σ (σ^[i - 1] d) = σ x := by
      rw [← hipred, heq]
    have hxeq := hinj _ (iterate_mem_of_closed hclosed hd (i - 1)) x hxrem h2
    exact hxpred (i - 1) (by omega) hxeq

theorem countOrbits_eq_card :
    ∀ (fuel : Nat) (D : List (Nat × Nat)), D.Nodup →
      (∀ x ∈ D, σ x ∈ D) →
      (∀ x ∈ D, ∀ y ∈ D, σ x = σ y → x = y) →
      D.length ≤ fuel → ∀ N, D.length ≤ N →
      countOrbits σ fuel D = (orbitsOf σ N D).card := by
  intro fuel
  induction fuel with
  | zero =>
    intro D hnd hclosed hinj hlen N hN
    have hD : D = [] := List.length_eq_zero.mp (by omega)
    subst hD
    simp [countOrbits, orbitsOf]
  | succ fuel ih =>
    intro D hnd hclosed hinj hlen N hN
    match D, hnd, hclosed, hinj, hlen, hN with
    | [], _, _, _, _, _ => simp [countOrbits, orbitsOf]
    | d :: rem, hnd, hclosed, hinj, hlen, hN =>
      have hd : d ∈ d :: rem := List.mem_cons_self d rem
      obtain ⟨P, hP0, hPd, hPle, hmin, hfilter⟩ :=
        removeOrbit_eq_filter hnd hclosed hinj hd hlen
      rw [countOrbits, hfilter]
      set R := (d :: rem).filter (fun x => decide (∀ i, i < P → σ^[i] d ≠ x))
        with hRdef
      have hsubR : ∀ x ∈ R, x ∈ d :: rem := fun x hx => (List.mem_filter.mp hx).1
      have hndR : R.Nodup := hnd.filter _
      have hclosedR : ∀ x ∈ R, σ x ∈ R :=
        filter_orbit_closed hclosed hinj hd hP0 hPd
      have hinjR : ∀ x ∈ R, ∀ y ∈ R, σ x = σ y → x = y :=
        fun x hx y hy => hinj x (hsubR x hx) y (hsubR y hy)
      have hpredd : (decide (∀ i, i < P → σ^[i] d ≠ d)) = false := by
        rw [decide_eq_false_iff_not]
        intro hall
        exact hall 0 hP0 rfl
      have hRrem : R = rem.filter (fun x => decide (∀ i, i < P → σ^[i] d ≠ x)) := by
        rw [hRdef, List.filter_cons, hpredd]
        simp
      have hlenR : R.length ≤ rem.length := by
        rw [hRrem]
        exact List.length_filter_le _ _
      have hlen' : rem.length + 1 ≤ fuel + 1 := by
        simpa using hlen
      have hN' : rem.length + 1 ≤ N := by
        simpa using hN
      have hfuelR : R.length ≤ fuel := by omega
      have hNR : R.length ≤ N := by omega
      rw [ih R hndR hclosedR hinjR hfuelR N hNR]
      have hPN : P ≤ N := by
        have : P ≤ rem.length + 1 := by simpa using hPle
        omega
      have horbeq : ∀ x, x ∈ orbSet σ P d → orbSet σ N x = orbSet σ N d := by
        intro x hx
        obtain ⟨i, hiP, rfl⟩ := mem_orbSet_iff.mp hx
        have hperx : σ^[P] (σ^[i] d) = σ^[i] d := period_shift hPd i
        rw [orbSet_eq_of_period hP0 hperx hPN (le_refl P), orbSet_shift hP0 hPd i,
          orbSet_eq_of_period hP0 hPd (le_refl P) hPN]
      have hdich : ∀ x ∈ d :: rem, x ∈ orbSet σ P d ∨ x ∈ R := by
        intro x hx
        by_cases hxo : ∀ i, i < P → σ^[i] d ≠ x
        · right
          rw [hRdef, List.mem_filter]
          exact ⟨hx, by rw [decide_eq_true_iff]; exact hxo⟩
        · left
          push_neg at hxo
          obtain ⟨i, hiP, heq⟩ := hxo
          exact mem_orbSet_iff.mpr ⟨i, hiP, heq⟩
      have hset : orbitsOf σ N (d :: rem) = insert (orbSet σ N d) (orbitsOf σ N R) := by
        ext S
        unfold orbitsOf
        rw [List.mem_toFinset, List.mem_map, Finset.mem_insert, List.mem_toFinset,
          List.mem_map]
        constructor
        · rintro ⟨x, hx, rfl⟩
          rcases hdich x hx with hxo | hxR
          · left
            exact horbeq x hxo
          · right
            exact ⟨x, hxR, rfl⟩
        · rintro (hS | ⟨x, hxR, rfl⟩)
          · exact ⟨d, List.mem_cons_self d rem, hS.symm⟩
          · exact ⟨x, hsubR x hxR, rfl⟩
      have hN0 : 0 < N := by omega
      have hnotmem : orbSet σ N d ∉ orbitsOf σ N R := by
        intro hmem
        unfold orbitsOf at hmem
        rw [List.mem_toFinset, List.mem_map] at hmem
        obtain ⟨x, hxR, hxeq⟩ := hmem
        have hxself : x ∈ orbSet σ N x := mem_orbSet_self hN0 x
        rw [hxeq] at hxself
        rw [orbSet_eq_of_period hP0 hPd hPN (le_refl P)] at hxself
        obtain ⟨i, hiP, heq⟩ := mem_orbSet_iff.mp hxself
        have hxpred := (List.mem_filter.mp (hRdef ▸ hxR)).2
        rw [decide_eq_true_iff] at hxpred
        exact hxpred i hiP heq
      rw [hset, Finset.card_insert_of_not_mem hnotmem]
      omega

end OrbitExact

/-! Orbit classes: same-orbit elements generate the same orbit set. -/

section OrbitClass

variable {σ : Nat × Nat → Nat × Nat} {D : List (Nat × Nat)}

theorem orbSet_eq_of_mem (hnd : D.Nodup)
    (hclosed : ∀ x ∈ D, σ x ∈ D)
    (hinj : ∀ x ∈ D, ∀ y ∈ D, σ x = σ y → x = y)
    {x y : Nat × Nat} (hx : x ∈ D) {N : Nat} (hN : D.length ≤ N)
    (hy : y ∈ orbSet σ N x) : orbSet σ N y = orbSet σ N x := by
  obtain ⟨Px, hP0, hPd, hPle, hmin⟩ := exists_min_period hnd hclosed hinj hx
  obtain ⟨i, hiN, rfl⟩ := mem_orbSet_iff.mp hy
  have hpery : σ^[Px] (σ^[i] x) = σ^[i] x := period_shift hPd i
  have hPN : Px ≤ N := le_trans hPle hN
  rw [orbSet_eq_of_period hP0 hpery hPN (le_refl Px), orbSet_shift hP0 hPd i,
    orbSet_eq_of_period hP0 hPd (le_refl Px) hPN]

theorem orbSet_subset (hclosed : ∀ x ∈ D, σ x ∈ D)
    {x : Nat × Nat} (hx : x ∈ D) {N : Nat} :
    ∀ z ∈ orbSet σ N x, z ∈ D := by
  intro z hz
  obtain ⟨i, _, rfl⟩ := mem_orbSet_iff.mp hz
  exact iterate_mem_of_closed hclosed hx i

theorem orbSet_mem_symm (hnd : D.Nodup)
    (hclosed : ∀ x ∈ D, σ x ∈ D)
    (hinj : ∀ x ∈ D, ∀ y ∈ D, σ x = σ y → x = y)
    {x y : Nat × Nat} (hx : x ∈ D) {N : Nat} (hN : D.length ≤ N) (hN0 : 0 < N)
    (hy : y ∈ orbSet σ N x) : x ∈ orbSet σ N y := by
  rw [orbSet_eq_of_mem hnd hclosed hinj hx hN hy]
  exact mem_orbSet_self hN0 x

theorem orbSet_disjoint_or_eq (hnd : D.Nodup)
    (hclosed : ∀ x ∈ D, σ x ∈ D)
    (hinj : ∀ x ∈ D, ∀ y ∈ D, σ x = σ y → x = y)
    {x y : Nat × Nat} (hx : x ∈ D) (hy : y ∈ D) {N : Nat} (hN : D.length ≤ N) :
    orbSet σ N x = orbSet σ N y ∨
      ∀ z, z ∈ orbSet σ N x → z ∉ orbSet σ N y := by
  by_cases h : ∃ z, z ∈ orbSet σ N x ∧ z ∈ orbSet σ N y
  · obtain ⟨z, hzx, hzy⟩ := h
    left
    rw [← orbSet_eq_of_mem hnd hclosed hinj hx hN hzx,
      ← orbSet_eq_of_mem hnd hclosed hinj hy hN hzy]
  · right
    intro z hzx hzy
    exact h ⟨z, hzx, hzy⟩

end OrbitClass

/-! The spliced successor map: deleting two darts and cross-connecting
their predecessors preserves the orbit structure off the deleted pair. -/

section Splice

variable {σ σ' : Nat × Nat → Nat × Nat} {D D' : List (Nat × Nat)}
    {d₁ d₂ : Nat × Nat}

theorem splice_closed
    (hclosed : ∀ x ∈ D, σ x ∈ D)
    (hinj : ∀ x ∈ D, ∀ y ∈ D, σ x = σ y → x = y)
    (hfix : ∀ x ∈ D, σ x ≠ x)
    (hd₁ : d₁ ∈ D) (hd₂ : d₂ ∈ D)
    (hmem' : ∀ x, x ∈ D' ↔ x ∈ D ∧ x ≠ d₁ ∧ x ≠ d₂)
    (hsp : ∀ x ∈ D', σ' x =
      if σ x = d₁ then σ d₂ else if σ x = d₂ then σ d₁ else σ x) :
    ∀ x ∈ D', σ' x ∈ D' := by
  intro x hx
  obtain ⟨hxD, hx1, hx2⟩ := (hmem' x).mp hx
  rw [hsp x hx]
  by_cases h1 : σ x = d₁
  · rw [if_pos h1]
    refine (hmem' _).mpr ⟨hclosed _ hd₂, ?_, hfix _ hd₂⟩
    intro hcontra
    have h := hinj _ hd₂ _ hxD (hcontra.trans h1.symm)
    exact hx2 h.symm
  · rw [if_neg h1]
    by_cases h2 : σ x = d₂
    · rw [if_pos h2]
      refine (hmem' _).mpr ⟨hclosed _ hd₁, hfix _ hd₁, ?_⟩
      intro hcontra
      have h := hinj _ hd₁ _ hxD (hcontra.trans h2.symm)
      exact hx1 h.symm
    · rw [if_neg h2]
      exact (hmem' _).mpr ⟨hclosed _ hxD, h1, h2⟩

theorem splice_inj
    (hinj : ∀ x ∈ D, ∀ y ∈ D, σ x = σ y → x = y)
    (hd₁ : d₁ ∈ D) (hd₂ : d₂ ∈ D) (hne : d₁ ≠ d₂)
    (hmem' : ∀ x, x ∈ D' ↔ x ∈ D ∧ x ≠ d₁ ∧ x ≠ d₂)
    (hsp : ∀ x ∈ D', σ' x =
      if σ x = d₁ then σ d₂ else if σ x = d₂ then σ d₁ else σ x) :
    ∀ x ∈ D', ∀ y ∈ D', σ' x = σ' y → x = y := by
  intro x hx y hy heq
  obtain ⟨hxD, hx1, hx2⟩ := (hmem' x).mp hx
  obtain ⟨hyD, hy1, hy2⟩ := (hmem' y).mp hy
  rw [hsp x hx, hsp y hy] at heq
  by_cases hxa : σ x = d₁
  · rw [if_pos hxa] at heq
    by_cases hya : σ y = d₁
    · rw [if_pos hya] at heq
      exact hinj x hxD y hyD (hxa.trans hya.symm)
    · rw [if_neg hya] at heq
      by_cases hyb : σ y = d₂
      · rw [if_pos hyb] at heq
        exact absurd (hinj _ hd₂ _ hd₁ heq) hne.symm
      · rw [if_neg hyb] at heq
        exact absurd (hinj _ hd₂ _ hyD heq).symm hy2
  · rw [if_neg hxa] at heq
    by_cases hxb : σ x = d₂
    · rw [if_pos hxb] at heq
      by_cases hya : σ y = d₁
      · rw [if_pos hya] at heq
        exact absurd (hinj _ hd₁ _ hd₂ heq) hne
      · rw [if_neg hya] at heq
        by_cases hyb : σ y = d₂
        · rw [if_pos hyb] at heq
          exact hinj x hxD y hyD (hxb.trans hyb.symm)
        · rw [if_neg hyb] at heq
          exact absurd (hinj _ hd₁ _ hyD heq).symm hy1
    · rw [if_neg hxb] at heq
      by_cases hya : σ y = d₁
      · rw [if_pos hya] at heq
        exact absurd (hinj _ hxD _ hd₂ heq) hx2
      · rw [if_neg hya] at heq
        by_cases hyb : σ y = d₂
        · rw [if_pos hyb] at heq
          exact absurd (hinj _ hxD _ hd₁ heq) hx1
        · rw [if_neg hyb] at heq
          exact hinj x hxD y hyD heq

theorem splice_walk
    (hclosed : ∀ x ∈ D, σ x ∈ D)
    (hmem' : ∀ x, x ∈ D' ↔ x ∈ D ∧ x ≠ d₁ ∧ x ≠ d₂)
    (hsp : ∀ x ∈ D', σ' x =
      if σ x = d₁ then σ d₂ else if σ x = d₂ then σ d₁ else σ x)
    {x : Nat × Nat} (hx : x ∈ D') :
    ∀ k, (∀ j, 0 < j → j ≤ k → σ^[j] x ≠ d₁ ∧ σ^[j] x ≠ d₂) →
      σ'^[k] x = σ^[k] x := by
  intro k
  induction k with
  | zero => intro _; simp
  | succ k ih =>
    intro h
    rw [Function.iterate_succ_apply', Function.iterate_succ_apply']
    rw [ih (fun j hj0 hjk => h j hj0 (by omega))]
    have hmemk : σ^[k] x ∈ D' := by
      rcases Nat.eq_zero_or_pos k with h0 | h0
      · subst h0
        simpa using hx
      · obtain ⟨hk1, hk2⟩ := h k h0 (by omega)
        exact (hmem' _).mpr
          ⟨iterate_mem_of_closed hclosed ((hmem' x).mp hx).1 k, hk1, hk2⟩
    rw [hsp _ hmemk]
    have hs1 : σ (σ^[k] x) = σ^[k + 1] x := (Function.iterate_succ_apply' σ k x).symm
    obtain ⟨hk1, hk2⟩ := h (k + 1) (by omega) (by omega)
    rw [if_neg (by rw [hs1]; exact hk1), if_neg (by rw [hs1]; exact hk2)]

theorem splice_untouched
    (hnd : D.Nodup)
    (hclosed : ∀ x ∈ D, σ x ∈ D)
    (hinj : ∀ x ∈ D, ∀ y ∈ D, σ x = σ y → x = y)
    (hmem' : ∀ x, x ∈ D' ↔ x ∈ D ∧ x ≠ d₁ ∧ x ≠ d₂)
    (hsp : ∀ x ∈ D', σ' x =
      if σ x = d₁ then σ d₂ else if σ x = d₂ then σ d₁ else σ x)
    {x : Nat × Nat} (hx : x ∈ D') {N : Nat} (hN : D.length ≤ N)
    (h1 : d₁ ∉ orbSet σ N x) (h2 : d₂ ∉ orbSet σ N x) :
    orbSet σ' N x = orbSet σ N x := by
  have hxD : x ∈ D := ((hmem' x).mp hx).1
  obtain ⟨P, hP0, hPd, hPle, hmin⟩ := exists_min_period hnd hclosed hinj hxD
  have hPN : P ≤ N := le_trans hPle hN
  have hiter : ∀ k, σ'^[k] x = σ^[k] x := by
    intro k
    apply splice_walk hclosed hmem' hsp hx
    intro j hj0 hjk
    constructor
    · intro hcontra
      exact h1 (mem_orbSet_iff.mpr
        ⟨j % P, lt_of_lt_of_le (Nat.mod_lt _ hP0) hPN,
          by rw [← iterate_mod hP0 hPd j, hcontra]⟩)
    · intro hcontra
      exact h2 (mem_orbSet_iff.mpr
        ⟨j % P, lt_of_lt_of_le (Nat.mod_lt _ hP0) hPN,
          by rw [← iterate_mod hP0 hPd j, hcontra]⟩)
  ext z
  rw [mem_orbSet_iff, mem_orbSet_iff]
  constructor
  · rintro ⟨i, hi, rfl⟩
    exact ⟨i, hi, (hiter i).symm⟩
  · rintro ⟨i, hi, rfl⟩
    exact ⟨i, hi, hiter i⟩

end Splice

/-! The through-walk: when the two deleted darts lie on distinct orbits,
the spliced walk entering at the successor of one deleted dart traverses
that dart's whole former orbit and then crosses to the other side. -/

section SpliceMerge

variable {σ σ' : Nat × Nat → Nat × Nat} {D D' : List (Nat × Nat)}
    {d₁ d₂ : Nat × Nat}

theorem splice_entry_walk
    (hnd : D.Nodup)
    (hclosed : ∀ x ∈ D, σ x ∈ D)
    (hinj : ∀ x ∈ D, ∀ y ∈ D, σ x = σ y → x = y)
    (hfix : ∀ x ∈ D, σ x ≠ x)
    (hd₁ : d₁ ∈ D)
    (hmem' : ∀ x, x ∈ D' ↔ x ∈ D ∧ x ≠ d₁ ∧ x ≠ d₂)
    (hsp : ∀ x ∈ D', σ' x =
      if σ x = d₁ then σ d₂ else if σ x = d₂ then σ d₁ else σ x)
    {N : Nat} (hN : D.length ≤ N)
    (hsep : d₂ ∉ orbSet σ N d₁) :
    ∃ P, 1 < P ∧ σ^[P] d₁ = d₁ ∧ P ≤ D.length ∧
      (∀ q, 0 < q → q < P → σ^[q] d₁ ≠ d₁) ∧
      (∀ i, i ≤ P - 2 → σ'^[i] (σ d₁) = σ^[i + 1] d₁) ∧
      σ'^[P - 1] (σ d₁) = σ d₂ := by
  obtain ⟨P, hP0, hPd, hPle, hmin⟩ := exists_min_period hnd hclosed hinj hd₁
  have hP1 : 1 < P := by
    rcases Nat.lt_or_ge 1 P with h | h
    · exact h
    · exfalso
      have hPeq : P = 1 := by omega
      subst hPeq
      exact hfix d₁ hd₁ (by simpa using hPd)
  have havoid : ∀ k, 0 < k → k < P → σ^[k] d₁ ≠ d₁ ∧ σ^[k] d₁ ≠ d₂ := by
    intro k hk0 hkP
    refine ⟨hmin k hk0 hkP, ?_⟩
    intro hcontra
    exact hsep (mem_orbSet_iff.mpr ⟨k, by omega, hcontra⟩)
  have hshift : ∀ j, σ^[j] (σ d₁) = σ^[j + 1] d₁ :=
    fun j => (Function.iterate_succ_apply σ j d₁).symm
  have ha : σ d₁ ∈ D' := by
    refine (hmem' _).mpr ⟨hclosed _ hd₁, ?_, ?_⟩
    · have := (havoid 1 Nat.one_pos hP1).1
      simpa using this
    · have := (havoid 1 Nat.one_pos hP1).2
      simpa using this
  have hWA : ∀ i, i ≤ P - 2 → σ'^[i] (σ d₁) = σ^[i + 1] d₁ := by
    intro i hi
    rw [← hshift i]
    apply splice_walk hclosed hmem' hsp ha
    intro j hj0 hjk
    rw [hshift j]
    exact havoid (j + 1) (by omega) (by omega)
  refine ⟨P, hP1, hPd, hPle, hmin, hWA, ?_⟩
  have hsplit : P - 1 = (P - 2) + 1 := by omega
  rw [hsplit, Function.iterate_succ_apply']
  rw [hWA (P - 2) (le_refl _)]
  have hidx : P - 2 + 1 = P - 1 := by omega
  rw [hidx]
  have hmemp : σ^[P - 1] d₁ ∈ D' := by
    obtain ⟨hp1, hp2⟩ := havoid (P - 1) (by omega) (by omega)
    exact (hmem' _).mpr ⟨iterate_mem_of_closed hclosed hd₁ (P - 1), hp1, hp2⟩
  rw [hsp _ hmemp]
  have hback : σ (σ^[P - 1] d₁) = d₁ := by
    rw [← iterate_pred_apply σ hP0 d₁]
    exact hPd
  rw [if_pos hback]

end SpliceMerge

section SpliceMergeOrbit

variable {σ σ' : Nat × Nat → Nat × Nat} {D D' : List (Nat × Nat)}
    {d₁ d₂ : Nat × Nat}

theorem hsp_swap (hne : d₁ ≠ d₂)
    (hsp : ∀ x ∈ D', σ' x =
      if σ x = d₁ then σ d₂ else if σ x = d₂ then σ d₁ else σ x) :
    ∀ x ∈ D', σ' x =
      if σ x = d₂ then σ d₁ else if σ x = d₁ then σ d₂ else σ x := by
  intro x hx
  rw [hsp x hx]
  by_cases h1 : σ x = d₁
  · have h2 : σ x ≠ d₂ := by
      rw [h1]
      exact hne
    rw [if_pos h1, if_neg h2, if_pos h1]
  · by_cases h2 : σ x = d₂
    · rw [if_neg h1, if_pos h2, if_pos h2]
    · rw [if_neg h1, if_neg h2, if_neg h2, if_neg h1]

theorem hmem_swap
    (hmem' : ∀ x, x ∈ D' ↔ x ∈ D ∧ x ≠ d₁ ∧ x ≠ d₂) :
    ∀ x, x ∈ D' ↔ x ∈ D ∧ x ≠ d₂ ∧ x ≠ d₁ := by
  intro x
  rw [hmem' x]
  tauto

theorem splice_merge_orbit
    (hnd : D.Nodup)
    (hclosed : ∀ x ∈ D, σ x ∈ D)
    (hinj : ∀ x ∈ D, ∀ y ∈ D, σ x = σ y → x = y)
    (hfix : ∀ x ∈ D, σ x ≠ x)
    (hd₁ : d₁ ∈ D) (hd₂ : d₂ ∈ D) (hne : d₁ ≠ d₂)
    (hmem' : ∀ x, x ∈ D' ↔ x ∈ D ∧ x ≠ d₁ ∧ x ≠ d₂)
    (hsp : ∀ x ∈ D', σ' x =
      if σ x = d₁ then σ d₂ else if σ x = d₂ then σ d₁ else σ x)
    {N : Nat} (hN2 : 2 * D.length ≤ N)
    (hsep : d₂ ∉ orbSet σ N d₁) :
    orbSet σ' N (σ d₁) = (orbSet σ N d₁ ∪ orbSet σ N d₂) \ {d₁, d₂} := by
  have hDpos : 0 < D.length := List.length_pos.mpr (List.ne_nil_of_mem hd₁)
  have hN : D.length ≤ N := by omega
  have hN0 : 0 < N := by omega
  have hsep' : d₁ ∉ orbSet σ N d₂ := by
    intro hcontra
    exact hsep (orbSet_mem_symm hnd hclosed hinj hd₂ hN hN0 hcontra)
  obtain ⟨P₁, hP₁1, hP₁d, hP₁le, hmin₁, hWA, hXab⟩ :=
    splice_entry_walk hnd hclosed hinj hfix hd₁ hmem' hsp hN hsep
  obtain ⟨P₂, hP₂1, hP₂d, hP₂le, hmin₂, hWB, hXba⟩ :=
    splice_entry_walk hnd hclosed hinj hfix hd₂ (hmem_swap hmem')
      (hsp_swap hne hsp) hN hsep'
  have havoid₁ : ∀ k, 0 < k → k < P₁ → σ^[k] d₁ ≠ d₁ ∧ σ^[k] d₁ ≠ d₂ := by
    intro k hk0 hkP
    refine ⟨hmin₁ k hk0 hkP, fun hcontra =>
      hsep (mem_orbSet_iff.mpr ⟨k, by omega, hcontra⟩)⟩
  have havoid₂ : ∀ k, 0 < k → k < P₂ → σ^[k] d₂ ≠ d₂ ∧ σ^[k] d₂ ≠ d₁ := by
    intro k hk0 hkP
    refine ⟨hmin₂ k hk0 hkP, fun hcontra =>
      hsep' (mem_orbSet_iff.mpr ⟨k, by omega, hcontra⟩)⟩
  have hcomb : ∀ j, σ'^[j + (P₁ - 1)] (σ d₁) = σ'^[j] (σ d₂) := by
    intro j
    rw [Function.iterate_add_apply, hXab]
  have hQ0 : 0 < P₁ + P₂ - 2 := by omega
  have hQper : σ'^[P₁ + P₂ - 2] (σ d₁) = σ d₁ := by
    have h1 : P₁ + P₂ - 2 = (P₂ - 1) + (P₁ - 1) := by omega
    rw [h1, hcomb (P₂ - 1), hXba]
  ext z
  rw [Finset.mem_sdiff, Finset.mem_union]
  constructor
  · intro hz
    obtain ⟨k, hkN, rfl⟩ := mem_orbSet_iff.mp hz
    rw [iterate_mod hQ0 hQper k]
    have hm : k % (P₁ + P₂ - 2) < P₁ + P₂ - 2 := Nat.mod_lt _ hQ0
    set m := k % (P₁ + P₂ - 2) with hmdef
    rcases Nat.lt_or_ge m (P₁ - 1) with hcase | hcase
    · rw [hWA m (by omega)]
      obtain ⟨ha1, ha2⟩ := havoid₁ (m + 1) (by omega) (by omega)
      refine ⟨Or.inl (mem_orbSet_iff.mpr ⟨m + 1, by omega, rfl⟩), ?_⟩
      simp only [Finset.mem_insert, Finset.mem_singleton]
      push_neg
      exact ⟨ha1, ha2⟩
    · have hmeq : m = (m - (P₁ - 1)) + (P₁ - 1) := by omega
      rw [hmeq, hcomb (m - (P₁ - 1))]
      rw [hWB (m - (P₁ - 1)) (by omega)]
      obtain ⟨hb1, hb2⟩ := havoid₂ (m - (P₁ - 1) + 1) (by omega) (by omega)
      refine ⟨Or.inr (mem_orbSet_iff.mpr ⟨m - (P₁ - 1) + 1, by omega, rfl⟩), ?_⟩
      simp only [Finset.mem_insert, Finset.mem_singleton]
      push_neg
      exact ⟨hb2, hb1⟩
  · rintro ⟨hzu, hz12⟩
    simp only [Finset.mem_insert, Finset.mem_singleton] at hz12
    push_neg at hz12
    obtain ⟨hz1, hz2⟩ := hz12
    rcases hzu with hz | hz
    · obtain ⟨k, hkN, rfl⟩ := mem_orbSet_iff.mp hz
      rw [iterate_mod (by omega : 0 < P₁) hP₁d k] at hz1 hz2 ⊢
      set m := k % P₁ with hmdef
      have hmP : m < P₁ := Nat.mod_lt _ (by omega)
      have hm0 : 0 < m := by
        rcases Nat.eq_zero_or_pos m with h0 | h0
        · rw [h0] at hz1
          simp at hz1
        · exact h0
      have hidx : m = (m - 1) + 1 := by omega
      rw [hidx, ← hWA (m - 1) (by omega)]
      exact mem_orbSet_iff.mpr ⟨m - 1, by omega, rfl⟩
    · obtain ⟨k, hkN, rfl⟩ := mem_orbSet_iff.mp hz
      rw [iterate_mod (by omega : 0 < P₂) hP₂d k] at hz1 hz2 ⊢
      set m := k % P₂ with hmdef
      have hmP : m < P₂ := Nat.mod_lt _ (by omega)
      have hm0 : 0 < m := by
        rcases Nat.eq_zero_or_pos m with h0 | h0
        · rw [h0] at hz2
          simp at hz2
        · exact h0
      have hidx : m = (m - 1) + 1 := by omega
      rw [hidx, ← hWB (m - 1) (by omega), ← hcomb (m - 1)]
      exact mem_orbSet_iff.mpr ⟨(m - 1) + (P₁ - 1), by omega, rfl⟩

end SpliceMergeOrbit

section SpliceMergeCount

variable {σ σ' : Nat × Nat → Nat × Nat} {D D' : List (Nat × Nat)}
    {d₁ d₂ : Nat × Nat}

theorem splice_merge_count
    (hnd : D.Nodup) (hndD' : D'.Nodup)
    (hclosed : ∀ x ∈ D, σ x ∈ D)
    (hinj : ∀ x ∈ D, ∀ y ∈ D, σ x = σ y → x = y)
    (hfix : ∀ x ∈ D, σ x ≠ x)
    (hd₁ : d₁ ∈ D) (hd₂ : d₂ ∈ D) (hne : d₁ ≠ d₂)
    (hmem' : ∀ x, x ∈ D' ↔ x ∈ D ∧ x ≠ d₁ ∧ x ≠ d₂)
    (hsp : ∀ x ∈ D', σ' x =
      if σ x = d₁ then σ d₂ else if σ x = d₂ then σ d₁ else σ x)
    {N : Nat} (hN2 : 2 * D.length ≤ N)
    (hsep : d₂ ∉ orbSet σ N d₁) :
    (orbitsOf σ' N D').card + 1 = (orbitsOf σ N D).card := by
  have hDpos : 0 < D.length := List.length_pos.mpr (List.ne_nil_of_mem hd₁)
  have hN : D.length ≤ N := by omega
  have hN0 : 0 < N := by omega
  have hsub' : ∀ x ∈ D', x ∈ D := fun x hx => ((hmem' x).mp hx).1
  have hND' : D'.length ≤ N := by
    have := (hndD'.subperm hsub').length_le
    omega
  have hclosed' : ∀ x ∈ D', σ' x ∈ D' :=
    splice_closed hclosed hinj hfix hd₁ hd₂ hmem' hsp
  have hinj' : ∀ x ∈ D', ∀ y ∈ D', σ' x = σ' y → x = y :=
    splice_inj hinj hd₁ hd₂ hne hmem' hsp
  have hsep' : d₁ ∉ orbSet σ N d₂ := by
    intro hcontra
    exact hsep (orbSet_mem_symm hnd hclosed hinj hd₂ hN hN0 hcontra)
  have hMchar := splice_merge_orbit hnd hclosed hinj hfix hd₁ hd₂ hne hmem' hsp
    hN2 hsep
  have ha' : σ d₁ ∈ D' := by
    refine (hmem' _).mpr ⟨hclosed _ hd₁, hfix _ hd₁, ?_⟩
    intro hcontra
    exact hsep (mem_orbSet_iff.mpr ⟨1, by omega, by simpa using hcontra⟩)
  have haO₁ : σ d₁ ∈ orbSet σ N d₁ :=
    mem_orbSet_iff.mpr ⟨1, by omega, by simp⟩
  have hclass : ∀ x ∈ D, ∀ w ∈ D, w ∈ orbSet σ N x →
      orbSet σ N x = orbSet σ N w := by
    intro x hx w _ hw
    exact (orbSet_eq_of_mem hnd hclosed hinj hx hN hw).symm
  have hfam : orbitsOf σ' N D' =
      insert (orbSet σ' N (σ d₁))
        ((orbitsOf σ N D) \ {orbSet σ N d₁, orbSet σ N d₂}) := by
    ext S
    rw [Finset.mem_insert]
    constructor
    · intro hS
      unfold orbitsOf at hS
      rw [List.mem_toFinset, List.mem_map] at hS
      obtain ⟨x, hx, rfl⟩ := hS
      have hxD : x ∈ D := hsub' x hx
      obtain ⟨-, hx1, hx2⟩ := (hmem' x).mp hx
      by_cases hxa : d₁ ∈ orbSet σ N x
      · left
        have hOx : orbSet σ N x = orbSet σ N d₁ :=
          (hclass x hxD d₁ hd₁ hxa).trans rfl
        have hxM : x ∈ orbSet σ' N (σ d₁) := by
          rw [hMchar, Finset.mem_sdiff, Finset.mem_union]
          refine ⟨Or.inl ?_, ?_⟩
          · rw [← hOx]
            exact mem_orbSet_self hN0 x
          · simp only [Finset.mem_insert, Finset.mem_singleton]
            push_neg
            exact ⟨hx1, hx2⟩
        exact orbSet_eq_of_mem hndD' hclosed' hinj' ha' hND' hxM
      · by_cases hxb : d₂ ∈ orbSet σ N x
        · left
          have hOx : orbSet σ N x = orbSet σ N d₂ :=
            (hclass x hxD d₂ hd₂ hxb).trans rfl
          have hxM : x ∈ orbSet σ' N (σ d₁) := by
            rw [hMchar, Finset.mem_sdiff, Finset.mem_union]
            refine ⟨Or.inr ?_, ?_⟩
            · rw [← hOx]
              exact mem_orbSet_self hN0 x
            · simp only [Finset.mem_insert, Finset.mem_singleton]
              push_neg
              exact ⟨hx1, hx2⟩
          exact orbSet_eq_of_mem hndD' hclosed' hinj' ha' hND' hxM
        · right
          have huntouched := splice_untouched hnd hclosed hinj hmem' hsp hx hN
            hxa hxb
          rw [huntouched, Finset.mem_sdiff]
          constructor
          · unfold orbitsOf
            rw [List.mem_toFinset, List.mem_map]
            exact ⟨x, hxD, rfl⟩
          · simp only [Finset.mem_insert, Finset.mem_singleton]
            push_neg
            constructor
            · intro hcontra
              apply hxa
              rw [hcontra]
              exact mem_orbSet_self hN0 d₁
            · intro hcontra
              apply hxb
              rw [hcontra]
              exact mem_orbSet_self hN0 d₂
    · rintro (hS | hS)
      · subst hS
        unfold orbitsOf
        rw [List.mem_toFinset, List.mem_map]
        exact ⟨σ d₁, ha', rfl⟩
      · rw [Finset.mem_sdiff] at hS
        obtain ⟨hSin, hSnot⟩ := hS
        unfold orbitsOf at hSin ⊢
        rw [List.mem_toFinset, List.mem_map] at hSin
        obtain ⟨x, hxD, rfl⟩ := hSin
        simp only [Finset.mem_insert, Finset.mem_singleton] at hSnot
        push_neg at hSnot
        obtain ⟨hS1, hS2⟩ := hSnot
        have hxa : d₁ ∉ orbSet σ N x := by
          intro hcontra
          exact hS1 (hclass x hxD d₁ hd₁ hcontra)
        have hxb : d₂ ∉ orbSet σ N x := by
          intro hcontra
          exact hS2 (hclass x hxD d₂ hd₂ hcontra)
        have hx1 : x ≠ d₁ := by
          intro hcontra
          apply hxa
          rw [hcontra]
          exact mem_orbSet_self hN0 d₁
        have hx2 : x ≠ d₂ := by
          intro hcontra
          apply hxb
          rw [hcontra]
          exact mem_orbSet_self hN0 d₂
        have hx' : x ∈ D' := (hmem' x).mpr ⟨hxD, hx1, hx2⟩
        rw [List.mem_toFinset, List.mem_map]
        exact ⟨x, hx', splice_untouched hnd hclosed hinj hmem' hsp hx' hN hxa hxb⟩
  have hO₁mem : orbSet σ N d₁ ∈ orbitsOf σ N D := by
    unfold orbitsOf
    rw [List.mem_toFinset, List.mem_map]
    exact ⟨d₁, hd₁, rfl⟩
  have hO₂mem : orbSet σ N d₂ ∈ orbitsOf σ N D := by
    unfold orbitsOf
    rw [List.mem_toFinset, List.mem_map]
    exact ⟨d₂, hd₂, rfl⟩
  have hO₁₂ : orbSet σ N d₁ ≠ orbSet σ N d₂ := by
    intro hcontra
    apply hsep
    rw [hcontra]
    exact mem_orbSet_self hN0 d₂
  have hMnotin : orbSet σ' N (σ d₁) ∉
      (orbitsOf σ N D) \ {orbSet σ N d₁, orbSet σ N d₂} := by
    intro hmem
    rw [Finset.mem_sdiff] at hmem
    obtain ⟨hSin, hSnot⟩ := hmem
    unfold orbitsOf at hSin
    rw [List.mem_toFinset, List.mem_map] at hSin
    obtain ⟨x, hxD, hxeq⟩ := hSin
    have haM : σ d₁ ∈ orbSet σ' N (σ d₁) := mem_orbSet_self hN0 _
    rw [← hxeq] at haM
    have h1 : orbSet σ N x = orbSet σ N (σ d₁) := hclass x hxD _ (hclosed _ hd₁) haM
    have h2 : orbSet σ N (σ d₁) = orbSet σ N d₁ :=
      orbSet_eq_of_mem hnd hclosed hinj hd₁ hN haO₁
    apply hSnot
    simp only [Finset.mem_insert, Finset.mem_singleton]
    left
    rw [← hxeq, h1, h2]
  have hpairsub : ({orbSet σ N d₁, orbSet σ N d₂} : Finset (Finset (Nat × Nat))) ⊆
      orbitsOf σ N D := by
    intro S hS
    simp only [Finset.mem_insert, Finset.mem_singleton] at hS
    rcases hS with rfl | rfl
    · exact hO₁mem
    · exact hO₂mem
  have hpaircard : ({orbSet σ N d₁, orbSet σ N d₂} :
      Finset (Finset (Nat × Nat))).card = 2 := by
    rw [Finset.card_insert_of_not_mem (by simpa using hO₁₂), Finset.card_singleton]
  have h2le : 2 ≤ (orbitsOf σ N D).card := by
    calc 2 = ({orbSet σ N d₁, orbSet σ N d₂} :
        Finset (Finset (Nat × Nat))).card := hpaircard.symm
      _ ≤ _ := Finset.card_le_card hpairsub
  rw [hfam, Finset.card_insert_of_not_mem hMnotin, Finset.card_sdiff hpairsub,
    hpaircard]
  omega

end SpliceMergeCount

/-! Same-orbit deletion: the removed darts split their common orbit into
the two arcs between them. -/

section SpliceSame

variable {σ σ' : Nat × Nat → Nat × Nat} {D D' : List (Nat × Nat)}
    {d₁ d₂ : Nat × Nat}

theorem iterates_distinct
    (hclosed : ∀ x ∈ D, σ x ∈ D)
    (hinj : ∀ x ∈ D, ∀ y ∈ D, σ x = σ y → x = y)
    {d : Nat × Nat} (hd : d ∈ D) {P : Nat}
    (hmin : ∀ q, 0 < q → q < P → σ^[q] d ≠ d) :
    ∀ i k, i < k → k < P → σ^[i] d ≠ σ^[k] d := by
  intro i k hik hkP heq
  have h : σ^[i] d = σ^[i + (k - i)] d := by
    rw [Nat.add_sub_cancel' (Nat.le_of_lt hik)]
    exact heq
  exact hmin (k - i) (by omega) (by omega)
    (iterate_cancel hclosed hinj hd i (k - i) h).symm

theorem min_period_transfer
    (hclosed : ∀ x ∈ D, σ x ∈ D)
    (hinj : ∀ x ∈ D, ∀ y ∈ D, σ x = σ y → x = y)
    (hd₁ : d₁ ∈ D) {P s : Nat} (hPd : σ^[P] d₁ = d₁)
    (hmin : ∀ q, 0 < q → q < P → σ^[q] d₁ ≠ d₁)
    (hs : σ^[s] d₁ = d₂) :
    σ^[P] d₂ = d₂ ∧ ∀ q, 0 < q → q < P → σ^[q] d₂ ≠ d₂ := by
  constructor
  · rw [← hs]
    exact period_shift hPd s
  · intro q hq0 hqP heq
    have h1 : σ^[s] d₁ = σ^[s + q] d₁ :=
      calc σ^[s] d₁ = d₂ := hs
        _ = σ^[q] d₂ := heq.symm
        _ = σ^[q] (σ^[s] d₁) := by rw [hs]
        _ = σ^[q + s] d₁ := (Function.iterate_add_apply σ q s d₁).symm
        _ = σ^[s + q] d₁ := by rw [Nat.add_comm]
    exact hmin q hq0 hqP (iterate_cancel hclosed hinj hd₁ s q h1).symm

theorem splice_seg
    (hclosed : ∀ x ∈ D, σ x ∈ D)
    (hinj : ∀ x ∈ D, ∀ y ∈ D, σ x = σ y → x = y)
    (hd₁ : d₁ ∈ D)
    (hmem' : ∀ x, x ∈ D' ↔ x ∈ D ∧ x ≠ d₁ ∧ x ≠ d₂)
    (hsp : ∀ x ∈ D', σ' x =
      if σ x = d₁ then σ d₂ else if σ x = d₂ then σ d₁ else σ x)
    {N : Nat} (hN : D.length ≤ N)
    {P s : Nat} (hPle : P ≤ D.length)
    (hmin : ∀ q, 0 < q → q < P → σ^[q] d₁ ≠ d₁)
    (hs : σ^[s] d₁ = d₂) (hs2 : 2 ≤ s) (hsP : s < P) :
    σ d₁ ∈ D' ∧
      ∀ z, z ∈ orbSet σ' N (σ d₁) ↔ ∃ k, 0 < k ∧ k < s ∧ z = σ^[k] d₁ := by
  have hdist := iterates_distinct hclosed hinj hd₁ hmin
  have havoid : ∀ k, 0 < k → k < s → σ^[k] d₁ ≠ d₁ ∧ σ^[k] d₁ ≠ d₂ := by
    intro k hk0 hks
    refine ⟨hmin k hk0 (by omega), ?_⟩
    rw [← hs]
    exact hdist k s hks hsP
  have ha : σ d₁ ∈ D' := by
    obtain ⟨h1, h2⟩ := havoid 1 Nat.one_pos (by omega)
    exact (hmem' _).mpr ⟨hclosed _ hd₁, by simpa using h1, by simpa using h2⟩
  have hshift : ∀ j, σ^[j] (σ d₁) = σ^[j + 1] d₁ :=
    fun j => (Function.iterate_succ_apply σ j d₁).symm
  have hWA : ∀ i, i ≤ s - 2 → σ'^[i] (σ d₁) = σ^[i + 1] d₁ := by
    intro i hi
    rw [← hshift i]
    apply splice_walk hclosed hmem' hsp ha
    intro j hj0 hjk
    rw [hshift j]
    exact havoid (j + 1) (by omega) (by omega)
  have hclose : σ'^[s - 1] (σ d₁) = σ d₁ := by
    have hsplit : s - 1 = (s - 2) + 1 := by omega
    rw [hsplit, Function.iterate_succ_apply', hWA (s - 2) (le_refl _)]
    have hidx : s - 2 + 1 = s - 1 := by omega
    rw [hidx]
    have hmemp : σ^[s - 1] d₁ ∈ D' := by
      obtain ⟨h1, h2⟩ := havoid (s - 1) (by omega) (by omega)
      exact (hmem' _).mpr ⟨iterate_mem_of_closed hclosed hd₁ (s - 1), h1, h2⟩
    rw [hsp _ hmemp]
    have hnext : σ (σ^[s - 1] d₁) = d₂ := by
      rw [← hs, iterate_pred_apply σ (by omega : 0 < s) d₁]
    have hne' : d₂ ≠ d₁ := by
      rw [← hs]
      exact hmin s (by omega) hsP
    rw [hnext, if_neg hne', if_pos rfl]
  have hq0 : 0 < s - 1 := by omega
  refine ⟨ha, ?_⟩
  intro z
  rw [mem_orbSet_iff]
  constructor
  · rintro ⟨i, hiN, rfl⟩
    rw [iterate_mod hq0 hclose i]
    have hm : i % (s - 1) < s - 1 := Nat.mod_lt _ hq0
    rw [hWA (i % (s - 1)) (by omega)]
    exact ⟨i % (s - 1) + 1, by omega, by omega, rfl⟩
  · rintro ⟨k, hk0, hks, rfl⟩
    refine ⟨k - 1, by omega, ?_⟩
    rw [hWA (k - 1) (by omega)]
    congr 1
    omega

theorem splice_seg_B
    (hclosed : ∀ x ∈ D, σ x ∈ D)
    (hinj : ∀ x ∈ D, ∀ y ∈ D, σ x = σ y → x = y)
    (hd₂ : d₂ ∈ D) (hne : d₁ ≠ d₂)
    (hmem' : ∀ x, x ∈ D' ↔ x ∈ D ∧ x ≠ d₁ ∧ x ≠ d₂)
    (hsp : ∀ x ∈ D', σ' x =
      if σ x = d₁ then σ d₂ else if σ x = d₂ then σ d₁ else σ x)
    {N : Nat} (hN : D.length ≤ N)
    {P s : Nat} (hPd : σ^[P] d₁ = d₁) (hPle : P ≤ D.length)
    (hmin : ∀ q, 0 < q → q < P → σ^[q] d₁ ≠ d₁)
    (hd₁ : d₁ ∈ D)
    (hs : σ^[s] d₁ = d₂) (hs0 : 0 < s) (hsP2 : s + 2 ≤ P) :
    σ d₂ ∈ D' ∧
      ∀ z, z ∈ orbSet σ' N (σ d₂) ↔ ∃ k, s < k ∧ k < P ∧ z = σ^[k] d₁ := by
  have hP0 : 0 < P := by omega
  obtain ⟨hPd₂, hmin₂⟩ := min_period_transfer hclosed hinj hd₁ hPd hmin hs
  have hs' : σ^[P - s] d₂ = d₁ := by
    rw [← hs, ← Function.iterate_add_apply]
    have hidx : P - s + s = P := by omega
    rw [hidx, hPd]
  obtain ⟨hb, hiff⟩ := splice_seg hclosed hinj hd₂ (hmem_swap hmem')
    (hsp_swap hne hsp) hN hPle hmin₂ hs' (by omega) (by omega)
  refine ⟨hb, ?_⟩
  intro z
  rw [hiff z]
  constructor
  · rintro ⟨k, hk0, hkPs, rfl⟩
    refine ⟨k + s, by omega, by omega, ?_⟩
    rw [← hs, ← Function.iterate_add_apply]
  · rintro ⟨k, hks, hkP, rfl⟩
    refine ⟨k - s, by omega, by omega, ?_⟩
    rw [← hs, ← Function.iterate_add_apply]
    congr 1
    omega

end SpliceSame

section SpliceSameFamily

variable {σ σ' : Nat × Nat → Nat × Nat} {D D' : List (Nat × Nat)}
    {d₁ d₂ : Nat × Nat}

theorem mem_orbSet_reduce {d x : Nat × Nat} {P N : Nat} (hP0 : 0 < P)
    (hPd : σ^[P] d = d) (hx : x ∈ orbSet σ N d) :
    ∃ m, m < P ∧ σ^[m] d = x := by
  obtain ⟨i, hiN, rfl⟩ := mem_orbSet_iff.mp hx
  exact ⟨i % P, Nat.mod_lt _ hP0, (iterate_mod hP0 hPd i).symm⟩

theorem splice_same_family
    (hnd : D.Nodup)
    (hclosed : ∀ x ∈ D, σ x ∈ D)
    (hinj : ∀ x ∈ D, ∀ y ∈ D, σ x = σ y → x = y)
    (hd₁ : d₁ ∈ D)
    (hmem' : ∀ x, x ∈ D' ↔ x ∈ D ∧ x ≠ d₁ ∧ x ≠ d₂)
    (hsp : ∀ x ∈ D', σ' x =
      if σ x = d₁ then σ d₂ else if σ x = d₂ then σ d₁ else σ x)
    {N : Nat} (hN : D.length ≤ N) (hN0 : 0 < N)
    (hsame : d₂ ∈ orbSet σ N d₁) :
    orbitsOf σ' N D' =
      ((orbitsOf σ N D) \ {orbSet σ N d₁}) ∪
        orbitsOf σ' N (D'.filter (fun x => decide (x ∈ orbSet σ N d₁))) := by
  have hsub' : ∀ x ∈ D', x ∈ D := fun x hx => ((hmem' x).mp hx).1
  have hOd₂ : orbSet σ N d₂ = orbSet σ N d₁ :=
    orbSet_eq_of_mem hnd hclosed hinj hd₁ hN hsame
  ext S
  rw [Finset.mem_union]
  constructor
  · intro hS
    unfold orbitsOf at hS
    rw [List.mem_toFinset, List.mem_map] at hS
    obtain ⟨x, hx, rfl⟩ := hS
    have hxD : x ∈ D := hsub' x hx
    by_cases hxO : x ∈ orbSet σ N d₁
    · right
      unfold orbitsOf
      rw [List.mem_toFinset, List.mem_map]
      refine ⟨x, List.mem_filter.mpr ⟨hx, ?_⟩, rfl⟩
      rw [decide_eq_true_iff]
      exact hxO
    · left
      have hda : d₁ ∉ orbSet σ N x := by
        intro h
        apply hxO
        rw [orbSet_eq_of_mem hnd hclosed hinj hxD hN h]
        exact mem_orbSet_self hN0 x
      have hdb : d₂ ∉ orbSet σ N x := by
        intro h
        apply hxO
        rw [← hOd₂, orbSet_eq_of_mem hnd hclosed hinj hxD hN h]
        exact mem_orbSet_self hN0 x
      have huntouched := splice_untouched hnd hclosed hinj hmem' hsp hx hN hda hdb
      rw [huntouched, Finset.mem_sdiff]
      refine ⟨?_, ?_⟩
      · unfold orbitsOf
        rw [List.mem_toFinset, List.mem_map]
        exact ⟨x, hxD, rfl⟩
      · rw [Finset.not_mem_singleton]
        intro hcontra
        apply hxO
        rw [← hcontra]
        exact mem_orbSet_self hN0 x
  · intro hS
    rcases hS with hS | hS
    · rw [Finset.mem_sdiff] at hS
      obtain ⟨hSin, hSne⟩ := hS
      rw [Finset.not_mem_singleton] at hSne
      unfold orbitsOf at hSin ⊢
      rw [List.mem_toFinset, List.mem_map] at hSin
      obtain ⟨x, hxD, rfl⟩ := hSin
      have hxO : x ∉ orbSet σ N d₁ := by
        intro h
        exact hSne (orbSet_eq_of_mem hnd hclosed hinj hd₁ hN h)
      have hx1 : x ≠ d₁ := by
        intro hcontra
        apply hxO
        rw [hcontra]
        exact mem_orbSet_self hN0 d₁
      have hx2 : x ≠ d₂ := by
        intro hcontra
        apply hxO
        rw [hcontra, ← hOd₂]
        exact mem_orbSet_self hN0 d₂
      have hx' : x ∈ D' := (hmem' x).mpr ⟨hxD, hx1, hx2⟩
      have hda : d₁ ∉ orbSet σ N x := by
        intro h
        apply hxO
        rw [orbSet_eq_of_mem hnd hclosed hinj hxD hN h]
        exact mem_orbSet_self hN0 x
      have hdb : d₂ ∉ orbSet σ N x := by
        intro h
        apply hxO
        rw [← hOd₂, orbSet_eq_of_mem hnd hclosed hinj hxD hN h]
        exact mem_orbSet_self hN0 x
      rw [List.mem_toFinset, List.mem_map]
      exact ⟨x, hx',
        splice_untouched hnd hclosed hinj hmem' hsp hx' hN hda hdb⟩
    · unfold orbitsOf at hS ⊢
      rw [List.mem_toFinset, List.mem_map] at hS
      obtain ⟨x, hxf, rfl⟩ := hS
      rw [List.mem_toFinset, List.mem_map]
      exact ⟨x, (List.mem_filter.mp hxf).1, rfl⟩

end SpliceSameFamily

section SpliceSplitCount

variable {σ σ' : Nat × Nat → Nat × Nat} {D D' : List (Nat × Nat)}
    {d₁ d₂ : Nat × Nat}

theorem splice_split_count
    (hnd : D.Nodup) (hndD' : D'.Nodup)
    (hclosed : ∀ x ∈ D, σ x ∈ D)
    (hinj : ∀ x ∈ D, ∀ y ∈ D, σ x = σ y → x = y)
    (hfix : ∀ x ∈ D, σ x ≠ x)
    (hd₁ : d₁ ∈ D) (hd₂ : d₂ ∈ D) (hne : d₁ ≠ d₂)
    (hmem' : ∀ x, x ∈ D' ↔ x ∈ D ∧ x ≠ d₁ ∧ x ≠ d₂)
    (hsp : ∀ x ∈ D', σ' x =
      if σ x = d₁ then σ d₂ else if σ x = d₂ then σ d₁ else σ x)
    {N : Nat} (hN2 : 2 * D.length ≤ N)
    (hsame : d₂ ∈ orbSet σ N d₁)
    (hsA : σ d₁ ≠ d₂) (hsB : σ d₂ ≠ d₁) :
    (orbitsOf σ' N D').card = (orbitsOf σ N D).card + 1 := by
  have hDpos : 0 < D.length := List.length_pos.mpr (List.ne_nil_of_mem hd₁)
  have hN : D.length ≤ N := by omega
  have hN0 : 0 < N := by omega
  have hsub' : ∀ x ∈ D', x ∈ D := fun x hx => ((hmem' x).mp hx).1
  have hND' : D'.length ≤ N := by
    have := (hndD'.subperm hsub').length_le
    omega
  have hclosed' := splice_closed hclosed hinj hfix hd₁ hd₂ hmem' hsp
  have hinj' := splice_inj hinj hd₁ hd₂ hne hmem' hsp
  obtain ⟨P, hP0, hPd, hPle, hmin⟩ := exists_min_period hnd hclosed hinj hd₁
  have hdist := iterates_distinct hclosed hinj hd₁ hmin
  obtain ⟨s, hsP, hs⟩ := mem_orbSet_reduce hP0 hPd hsame
  have hs0 : 0 < s := by
    rcases Nat.eq_zero_or_pos s with h0 | h0
    · exfalso
      apply hne
      rw [← hs, h0]
      simp
    · exact h0
  have hs2 : 2 ≤ s := by
    rcases Nat.lt_or_ge s 2 with h | h
    · exfalso
      have hs1 : s = 1 := by omega
      apply hsA
      rw [← hs, hs1]
      simp
    · exact h
  have hsP2 : s + 2 ≤ P := by
    by_contra hcon
    push_neg at hcon
    have hseq : s = P - 1 := by omega
    apply hsB
    rw [← hs, hseq, ← iterate_pred_apply σ hP0 d₁]
    exact hPd
  obtain ⟨ha', hAiff⟩ :=
    splice_seg hclosed hinj hd₁ hmem' hsp hN hPle hmin hs hs2 (by omega)
  obtain ⟨hb', hBiff⟩ :=
    splice_seg_B hclosed hinj hd₂ hne hmem' hsp hN hPd hPle hmin hd₁ hs hs0 hsP2
  have haO : σ d₁ ∈ orbSet σ N d₁ := mem_orbSet_iff.mpr ⟨1, by omega, by simp⟩
  have hbO : σ d₂ ∈ orbSet σ N d₁ := by
    refine mem_orbSet_iff.mpr ⟨s + 1, by omega, ?_⟩
    rw [Function.iterate_succ_apply', hs]
  have hfam := splice_same_family hnd hclosed hinj hd₁ hmem' hsp hN hN0 hsame
  have hSeg : orbitsOf σ' N (D'.filter (fun x => decide (x ∈ orbSet σ N d₁))) =
      {orbSet σ' N (σ d₁), orbSet σ' N (σ d₂)} := by
    ext S
    unfold orbitsOf
    rw [List.mem_toFinset, List.mem_map]
    simp only [Finset.mem_insert, Finset.mem_singleton]
    constructor
    · rintro ⟨x, hxf, rfl⟩
      obtain ⟨hx, hxOdec⟩ := List.mem_filter.mp hxf
      rw [decide_eq_true_iff] at hxOdec
      obtain ⟨-, hx1, hx2⟩ := (hmem' x).mp hx
      obtain ⟨m, hmP, hm⟩ := mem_orbSet_reduce hP0 hPd hxOdec
      have hm0 : 0 < m := by
        rcases Nat.eq_zero_or_pos m with h0 | h0
        · exfalso
          apply hx1
          rw [← hm, h0]
          simp
        · exact h0
      have hmne : m ≠ s := by
        intro hcontra
        apply hx2
        rw [← hm, hcontra, hs]
      rcases Nat.lt_or_ge m s with hms | hms
      · left
        have hxA : x ∈ orbSet σ' N (σ d₁) := (hAiff x).mpr ⟨m, hm0, hms, hm.symm⟩
        exact orbSet_eq_of_mem hndD' hclosed' hinj' ha' hND' hxA
      · right
        have hms' : s < m := by omega
        have hxB : x ∈ orbSet σ' N (σ d₂) := (hBiff x).mpr ⟨m, hms', hmP, hm.symm⟩
        exact orbSet_eq_of_mem hndD' hclosed' hinj' hb' hND' hxB
    · rintro (rfl | rfl)
      · refine ⟨σ d₁, List.mem_filter.mpr ⟨ha', ?_⟩, rfl⟩
        rw [decide_eq_true_iff]
        exact haO
      · refine ⟨σ d₂, List.mem_filter.mpr ⟨hb', ?_⟩, rfl⟩
        rw [decide_eq_true_iff]
        exact hbO
  have hSAB : orbSet σ' N (σ d₁) ≠ orbSet σ' N (σ d₂) := by
    intro hcontra
    have h1 : σ d₁ ∈ orbSet σ' N (σ d₁) := mem_orbSet_self hN0 _
    rw [hcontra] at h1
    obtain ⟨k, hks, hkP, hk⟩ := (hBiff _).mp h1
    have h2 : σ^[1] d₁ = σ^[k] d₁ := by
      rw [← hk]
      simp
    exact hdist 1 k (by omega) hkP h2
  have hOmem : orbSet σ N d₁ ∈ orbitsOf σ N D := by
    unfold orbitsOf
    rw [List.mem_toFinset, List.mem_map]
    exact ⟨d₁, hd₁, rfl⟩
  have hdisj : Disjoint ((orbitsOf σ N D) \ {orbSet σ N d₁})
      (orbitsOf σ' N (D'.filter (fun x => decide (x ∈ orbSet σ N d₁)))) := by
    rw [Finset.disjoint_left]
    intro S hS hS'
    rw [Finset.mem_sdiff] at hS
    obtain ⟨hSin, hSne⟩ := hS
    rw [Finset.not_mem_singleton] at hSne
    unfold orbitsOf at hSin hS'
    rw [List.mem_toFinset, List.mem_map] at hSin hS'
    obtain ⟨y, hyD, rfl⟩ := hSin
    obtain ⟨x, hxf, hxeq⟩ := hS'
    obtain ⟨hx, hxOdec⟩ := List.mem_filter.mp hxf
    rw [decide_eq_true_iff] at hxOdec
    have hxself : x ∈ orbSet σ' N x := mem_orbSet_self hN0 x
    rw [hxeq] at hxself
    have h1 : orbSet σ N x = orbSet σ N y :=
      orbSet_eq_of_mem hnd hclosed hinj hyD hN hxself
    have h2 : orbSet σ N x = orbSet σ N d₁ :=
      orbSet_eq_of_mem hnd hclosed hinj hd₁ hN hxOdec
    apply hSne
    rw [← h1, h2]
  have h1le : 1 ≤ (orbitsOf σ N D).card := Finset.card_pos.mpr ⟨_, hOmem⟩
  rw [hfam, Finset.card_union_of_disjoint hdisj, hSeg,
    Finset.card_sdiff (Finset.singleton_subset_iff.mpr hOmem),
    Finset.card_singleton,
    Finset.card_insert_of_not_mem (by rw [Finset.not_mem_singleton]; exact hSAB),
    Finset.card_singleton]
  omega

end SpliceSplitCount

section SpliceChainCount

variable {σ σ' : Nat × Nat → Nat × Nat} {D D' : List (Nat × Nat)}
    {d₁ d₂ : Nat × Nat}

theorem splice_seg_disjoint
    (hnd : D.Nodup)
    (hclosed : ∀ x ∈ D, σ x ∈ D)
    (hinj : ∀ x ∈ D, ∀ y ∈ D, σ x = σ y → x = y)
    (hd₁ : d₁ ∈ D) {N : Nat} (hN : D.length ≤ N) (hN0 : 0 < N) :
    Disjoint ((orbitsOf σ N D) \ {orbSet σ N d₁})
      (orbitsOf σ' N (D'.filter (fun x => decide (x ∈ orbSet σ N d₁)))) := by
  rw [Finset.disjoint_left]
  intro S hS hS'
  rw [Finset.mem_sdiff] at hS
  obtain ⟨hSin, hSne⟩ := hS
  rw [Finset.not_mem_singleton] at hSne
  unfold orbitsOf at hSin hS'
  rw [List.mem_toFinset, List.mem_map] at hSin hS'
  obtain ⟨y, hyD, rfl⟩ := hSin
  obtain ⟨x, hxf, hxeq⟩ := hS'
  obtain ⟨hx, hxOdec⟩ := List.mem_filter.mp hxf
  rw [decide_eq_true_iff] at hxOdec
  have hxself : x ∈ orbSet σ' N x := mem_orbSet_self hN0 x
  rw [hxeq] at hxself
  have h1 : orbSet σ N x = orbSet σ N y :=
    orbSet_eq_of_mem hnd hclosed hinj hyD hN hxself
  have h2 : orbSet σ N x = orbSet σ N d₁ :=
    orbSet_eq_of_mem hnd hclosed hinj hd₁ hN hxOdec
  apply hSne
  rw [← h1, h2]

theorem splice_chainA_count
    (hnd : D.Nodup) (hndD' : D'.Nodup)
    (hclosed : ∀ x ∈ D, σ x ∈ D)
    (hinj : ∀ x ∈ D, ∀ y ∈ D, σ x = σ y → x = y)
    (hfix : ∀ x ∈ D, σ x ≠ x)
    (hd₁ : d₁ ∈ D) (hd₂ : d₂ ∈ D) (hne : d₁ ≠ d₂)
    (hmem' : ∀ x, x ∈ D' ↔ x ∈ D ∧ x ≠ d₁ ∧ x ≠ d₂)
    (hsp : ∀ x ∈ D', σ' x =
      if σ x = d₁ then σ d₂ else if σ x = d₂ then σ d₁ else σ x)
    {N : Nat} (hN2 : 2 * D.length ≤ N)
    (hsA : σ d₁ = d₂) (hsB : σ d₂ ≠ d₁) :
    (orbitsOf σ' N D').card = (orbitsOf σ N D).card := by
  have hDpos : 0 < D.length := List.length_pos.mpr (List.ne_nil_of_mem hd₁)
  have hN : D.length ≤ N := by omega
  have hN0 : 0 < N := by omega
  have hsub' : ∀ x ∈ D', x ∈ D := fun x hx => ((hmem' x).mp hx).1
  have hND' : D'.length ≤ N := by
    have := (hndD'.subperm hsub').length_le
    omega
  have hclosed' := splice_closed hclosed hinj hfix hd₁ hd₂ hmem' hsp
  have hinj' := splice_inj hinj hd₁ hd₂ hne hmem' hsp
  obtain ⟨P, hP0, hPd, hPle, hmin⟩ := exists_min_period hnd hclosed hinj hd₁
  have hs : σ^[1] d₁ = d₂ := by simpa using hsA
  have hP1 : P ≠ 1 := by
    intro hcontra
    apply hne
    subst hcontra
    have h1 : σ d₁ = d₁ := by simpa using hPd
    rw [← hsA, h1]
  have hP2 : P ≠ 2 := by
    intro hcontra
    apply hsB
    subst hcontra
    have h1 : σ^[2] d₁ = σ (σ^[1] d₁) := by
      rw [← Function.iterate_succ_apply' σ 1 d₁]
    rw [← hPd, h1, hs]
  have hP3 : 3 ≤ P := by omega
  have hsame : d₂ ∈ orbSet σ N d₁ := mem_orbSet_iff.mpr ⟨1, by omega, hs⟩
  obtain ⟨hb', hBiff⟩ :=
    splice_seg_B hclosed hinj hd₂ hne hmem' hsp hN hPd hPle hmin hd₁ hs
      Nat.one_pos (by omega)
  have hbO : σ d₂ ∈ orbSet σ N d₁ := by
    refine mem_orbSet_iff.mpr ⟨2, by omega, ?_⟩
    have h1 : σ^[2] d₁ = σ (σ^[1] d₁) := by
      rw [← Function.iterate_succ_apply' σ 1 d₁]
    rw [h1, hs]
  have hfam := splice_same_family hnd hclosed hinj hd₁ hmem' hsp hN hN0 hsame
  have hSeg : orbitsOf σ' N (D'.filter (fun x => decide (x ∈ orbSet σ N d₁))) =
      {orbSet σ' N (σ d₂)} := by
    ext S
    unfold orbitsOf
    rw [List.mem_toFinset, List.mem_map]
    rw [Finset.mem_singleton]
    constructor
    · rintro ⟨x, hxf, rfl⟩
      obtain ⟨hx, hxOdec⟩ := List.mem_filter.mp hxf
      rw [decide_eq_true_iff] at hxOdec
      obtain ⟨-, hx1, hx2⟩ := (hmem' x).mp hx
      obtain ⟨m, hmP, hm⟩ := mem_orbSet_reduce hP0 hPd hxOdec
      have hm0 : 0 < m := by
        rcases Nat.eq_zero_or_pos m with h0 | h0
        · exfalso
          apply hx1
          rw [← hm, h0]
          simp
        · exact h0
      have hmne : m ≠ 1 := by
        intro hcontra
        apply hx2
        rw [← hm, hcontra, hs]
      have hxB : x ∈ orbSet σ' N (σ d₂) := (hBiff x).mpr ⟨m, by omega, hmP, hm.symm⟩
      exact orbSet_eq_of_mem hndD' hclosed' hinj' hb' hND' hxB
    · rintro rfl
      refine ⟨σ d₂, List.mem_filter.mpr ⟨hb', ?_⟩, rfl⟩
      rw [decide_eq_true_iff]
      exact hbO
  have hOmem : orbSet σ N d₁ ∈ orbitsOf σ N D := by
    unfold orbitsOf
    rw [List.mem_toFinset, List.mem_map]
    exact ⟨d₁, hd₁, rfl⟩
  have hdisj : Disjoint ((orbitsOf σ N D) \ {orbSet σ N d₁})
      (orbitsOf σ' N (D'.filter (fun x => decide (x ∈ orbSet σ N d₁)))) :=
    splice_seg_disjoint hnd hclosed hinj hd₁ hN hN0
  have h1le : 1 ≤ (orbitsOf σ N D).card := Finset.card_pos.mpr ⟨_, hOmem⟩
  rw [hfam, Finset.card_union_of_disjoint hdisj, hSeg,
    Finset.card_sdiff (Finset.singleton_subset_iff.mpr hOmem),
    Finset.card_singleton, Finset.card_singleton]
  omega

theorem splice_chainB_count
    (hnd : D.Nodup) (hndD' : D'.Nodup)
    (hclosed : ∀ x ∈ D, σ x ∈ D)
    (hinj : ∀ x ∈ D, ∀ y ∈ D, σ x = σ y → x = y)
    (hfix : ∀ x ∈ D, σ x ≠ x)
    (hd₁ : d₁ ∈ D) (hd₂ : d₂ ∈ D) (hne : d₁ ≠ d₂)
    (hmem' : ∀ x, x ∈ D' ↔ x ∈ D ∧ x ≠ d₁ ∧ x ≠ d₂)
    (hsp : ∀ x ∈ D', σ' x =
      if σ x = d₁ then σ d₂ else if σ x = d₂ then σ d₁ else σ x)
    {N : Nat} (hN2 : 2 * D.length ≤ N)
    (hsA : σ d₁ ≠ d₂) (hsB : σ d₂ = d₁) :
    (orbitsOf σ' N D').card = (orbitsOf σ N D).card := by
  have hDpos : 0 < D.length := List.length_pos.mpr (List.ne_nil_of_mem hd₁)
  have hN : D.length ≤ N := by omega
  have hN0 : 0 < N := by omega
  have hsub' : ∀ x ∈ D', x ∈ D := fun x hx => ((hmem' x).mp hx).1
  have hND' : D'.length ≤ N := by
    have := (hndD'.subperm hsub').length_le
    omega
  have hclosed' := splice_closed hclosed hinj hfix hd₁ hd₂ hmem' hsp
  have hinj' := splice_inj hinj hd₁ hd₂ hne hmem' hsp
  obtain ⟨P, hP0, hPd, hPle, hmin⟩ := exists_min_period hnd hclosed hinj hd₁
  have hsame : d₂ ∈ orbSet σ N d₁ := by
    refine orbSet_mem_symm hnd hclosed hinj hd₂ hN hN0 ?_
    exact mem_orbSet_iff.mpr ⟨1, by omega, by simpa using hsB⟩
  obtain ⟨s, hsP, hs⟩ := mem_orbSet_reduce hP0 hPd hsame
  have hs0 : 0 < s := by
    rcases Nat.eq_zero_or_pos s with h0 | h0
    · exfalso
      apply hne
      rw [← hs, h0]
      simp
    · exact h0
  have hseq : s = P - 1 := by
    by_contra hcontra
    have hsP1 : s + 1 < P := by omega
    apply hmin (s + 1) (by omega) hsP1
    rw [Function.iterate_succ_apply', hs, hsB]
  have hs2 : 2 ≤ s := by
    rcases Nat.lt_or_ge s 2 with h | h
    · exfalso
      have hs1 : s = 1 := by omega
      apply hsA
      rw [← hs, hs1]
      simp
    · exact h
  obtain ⟨ha', hAiff⟩ :=
    splice_seg hclosed hinj hd₁ hmem' hsp hN hPle hmin hs hs2 hsP
  have haO : σ d₁ ∈ orbSet σ N d₁ := mem_orbSet_iff.mpr ⟨1, by omega, by simp⟩
  have hfam := splice_same_family hnd hclosed hinj hd₁ hmem' hsp hN hN0 hsame
  have hSeg : orbitsOf σ' N (D'.filter (fun x => decide (x ∈ orbSet σ N d₁))) =
      {orbSet σ' N (σ d₁)} := by
    ext S
    unfold orbitsOf
    rw [List.mem_toFinset, List.mem_map]
    rw [Finset.mem_singleton]
    constructor
    · rintro ⟨x, hxf, rfl⟩
      obtain ⟨hx, hxOdec⟩ := List.mem_filter.mp hxf
      rw [decide_eq_true_iff] at hxOdec
      obtain ⟨-, hx1, hx2⟩ := (hmem' x).mp hx
      obtain ⟨m, hmP, hm⟩ := mem_orbSet_reduce hP0 hPd hxOdec
      have hm0 : 0 < m := by
        rcases Nat.eq_zero_or_pos m with h0 | h0
        · exfalso
          apply hx1
          rw [← hm, h0]
          simp
        · exact h0
      have hmne : m ≠ s := by
        intro hcontra
        apply hx2
        rw [← hm, hcontra, hs]
      have hms : m < s := by omega
      have hxA : x ∈ orbSet σ' N (σ d₁) := (hAiff x).mpr ⟨m, hm0, hms, hm.symm⟩
      exact orbSet_eq_of_mem hndD' hclosed' hinj' ha' hND' hxA
    · rintro rfl
      refine ⟨σ d₁, List.mem_filter.mpr ⟨ha', ?_⟩, rfl⟩
      rw [decide_eq_true_iff]
      exact haO
  have hOmem : orbSet σ N d₁ ∈ orbitsOf σ N D := by
    unfold orbitsOf
    rw [List.mem_toFinset, List.mem_map]
    exact ⟨d₁, hd₁, rfl⟩
  have hdisj : Disjoint ((orbitsOf σ N D) \ {orbSet σ N d₁})
      (orbitsOf σ' N (D'.filter (fun x => decide (x ∈ orbSet σ N d₁)))) :=
    splice_seg_disjoint hnd hclosed hinj hd₁ hN hN0
  have h1le : 1 ≤ (orbitsOf σ N D).card := Finset.card_pos.mpr ⟨_, hOmem⟩
  rw [hfam, Finset.card_union_of_disjoint hdisj, hSeg,
    Finset.card_sdiff (Finset.singleton_subset_iff.mpr hOmem),
    Finset.card_singleton, Finset.card_singleton]
  omega

theorem splice_pair_count
    (hnd : D.Nodup)
    (hclosed : ∀ x ∈ D, σ x ∈ D)
    (hinj : ∀ x ∈ D, ∀ y ∈ D, σ x = σ y → x = y)
    (hd₁ : d₁ ∈ D) (hne : d₁ ≠ d₂)
    (hmem' : ∀ x, x ∈ D' ↔ x ∈ D ∧ x ≠ d₁ ∧ x ≠ d₂)
    (hsp : ∀ x ∈ D', σ' x =
      if σ x = d₁ then σ d₂ else if σ x = d₂ then σ d₁ else σ x)
    {N : Nat} (hN2 : 2 * D.length ≤ N)
    (hsA : σ d₁ = d₂) (hsB : σ d₂ = d₁) :
    (orbitsOf σ' N D').card + 1 = (orbitsOf σ N D).card := by
  have hDpos : 0 < D.length := List.length_pos.mpr (List.ne_nil_of_mem hd₁)
  have hN : D.length ≤ N := by omega
  have hN0 : 0 < N := by omega
  obtain ⟨P, hP0, hPd, hPle, hmin⟩ := exists_min_period hnd hclosed hinj hd₁
  have hs : σ^[1] d₁ = d₂ := by simpa using hsA
  have hper2 : σ^[2] d₁ = d₁ := by
    have h1 : σ^[2] d₁ = σ (σ^[1] d₁) := by
      rw [← Function.iterate_succ_apply' σ 1 d₁]
    rw [h1, hs, hsB]
  have hP1 : P ≠ 1 := by
    intro hcontra
    apply hne
    subst hcontra
    have h1 : σ d₁ = d₁ := by simpa using hPd
    rw [← hsA, h1]
  have hPeq : P = 2 := by
    by_contra hcontra
    exact hmin 2 (by omega) (by omega) hper2
  have hsame : d₂ ∈ orbSet σ N d₁ := mem_orbSet_iff.mpr ⟨1, by omega, hs⟩
  have hfam := splice_same_family hnd hclosed hinj hd₁ hmem' hsp hN hN0 hsame
  have hSeg : orbitsOf σ' N (D'.filter (fun x => decide (x ∈ orbSet σ N d₁))) =
      (∅ : Finset (Finset (Nat × Nat))) := by
    rw [Finset.eq_empty_iff_forall_not_mem]
    intro S hS
    unfold orbitsOf at hS
    rw [List.mem_toFinset, List.mem_map] at hS
    obtain ⟨x, hxf, -⟩ := hS
    obtain ⟨hx, hxOdec⟩ := List.mem_filter.mp hxf
    rw [decide_eq_true_iff] at hxOdec
    obtain ⟨-, hx1, hx2⟩ := (hmem' x).mp hx
    obtain ⟨m, hmP, hm⟩ := mem_orbSet_reduce hP0 hPd hxOdec
    rw [hPeq] at hmP
    interval_cases m
    · exact hx1 (by simpa using hm.symm)
    · apply hx2
      rw [← hm, hs]
  have hOmem : orbSet σ N d₁ ∈ orbitsOf σ N D := by
    unfold orbitsOf
    rw [List.mem_toFinset, List.mem_map]
    exact ⟨d₁, hd₁, rfl⟩
  have hdisj : Disjoint ((orbitsOf σ N D) \ {orbSet σ N d₁})
      (orbitsOf σ' N (D'.filter (fun x => decide (x ∈ orbSet σ N d₁)))) :=
    splice_seg_disjoint hnd hclosed hinj hd₁ hN hN0
  have h1le : 1 ≤ (orbitsOf σ N D).card := Finset.card_pos.mpr ⟨_, hOmem⟩
  rw [hfam, Finset.card_union_of_disjoint hdisj, hSeg,
    Finset.card_sdiff (Finset.singleton_subset_iff.mpr hOmem),
    Finset.card_singleton, Finset.card_empty]
  omega

end SpliceChainCount

/-! Reachability: the breadth-first sweep computes exactly the vertices
reachable from the start. -/

theorem neighbors_symm {G : FGraph} {u v : Nat} :
    v ∈ G.neighbors u ↔ u ∈ G.neighbors v := by
  rw [mem_neighbors, mem_neighbors]
  tauto

theorem mem_neighbors_verts {G : FGraph} (hw : G.wfb = true) {u v : Nat}
    (h : v ∈ G.neighbors u) : u ∈ G.verts ∧ v ∈ G.verts := by
  obtain ⟨-, -, hedges⟩ := wfb_iff.mp hw
  rcases mem_neighbors.mp h with he | he
  · exact ⟨(hedges _ he).1, (hedges _ he).2.1⟩
  · exact ⟨(hedges _ he).2.1, (hedges _ he).1⟩

theorem Reaches_symm {G : FGraph} {u v : Nat} (h : Reaches G u v) :
    Reaches G v u := by
  induction h with
  | refl => exact Relation.ReflTransGen.refl
  | tail hab hbc ih => exact Relation.ReflTransGen.head (neighbors_symm.mp hbc) ih

theorem reachIter_mono {G : FGraph} : ∀ (n : Nat) (s : List Nat),
    ∀ x ∈ s, x ∈ reachIter G n s
  | 0, _ => fun _ hx => hx
  | n + 1, s => fun x hx =>
    reachIter_mono n (reachStep G s) x (List.mem_append_left _ hx)

theorem reachStep_reaches {G : FGraph} {v : Nat} {s : List Nat}
    (h : ∀ x ∈ s, Reaches G v x) : ∀ x ∈ reachStep G s, Reaches G v x := by
  intro x hx
  rcases List.mem_append.mp hx with hx | hx
  · exact h x hx
  · obtain ⟨hxv, hcond⟩ := List.mem_filter.mp hx
    rw [Bool.and_eq_true, List.any_eq_true] at hcond
    obtain ⟨-, y, hyn, hys⟩ := hcond
    rw [decide_eq_true_iff] at hys
    exact Relation.ReflTransGen.tail (h y hys) (neighbors_symm.mp hyn)

theorem reachIter_reaches {G : FGraph} {v : Nat} : ∀ (n : Nat) (s : List Nat),
    (∀ x ∈ s, Reaches G v x) → ∀ x ∈ reachIter G n s, Reaches G v x
  | 0, _, h => h
  | n + 1, s, h => reachIter_reaches n (reachStep G s) (reachStep_reaches h)

theorem reachFrom_sound {G : FGraph} {v : Nat} :
    ∀ x ∈ reachFrom G v, Reaches G v x := by
  apply reachIter_reaches
  intro x hx
  rw [List.mem_singleton] at hx
  subst hx
  exact Relation.ReflTransGen.refl

theorem reachStep_inv {G : FGraph} {s : List Nat} (hs : s.Nodup)
    (hv : G.verts.Nodup) (hsub : ∀ x ∈ s, x ∈ G.verts) :
    (reachStep G s).Nodup ∧ ∀ x ∈ reachStep G s, x ∈ G.verts := by
  constructor
  · rw [reachStep, List.nodup_append]
    refine ⟨hs, hv.filter _, ?_⟩
    intro a ha hafil
    have := (List.mem_filter.mp hafil).2
    rw [Bool.and_eq_true] at this
    obtain ⟨hnot, -⟩ := this
    rw [decide_eq_true_iff] at hnot
    exact hnot ha
  · intro x hx
    rcases List.mem_append.mp hx with hx | hx
    · exact hsub x hx
    · exact (List.mem_filter.mp hx).1

theorem reachIter_inv {G : FGraph} (hv : G.verts.Nodup) :
    ∀ (n : Nat) (s : List Nat), s.Nodup → (∀ x ∈ s, x ∈ G.verts) →
      (reachIter G n s).Nodup ∧ ∀ x ∈ reachIter G n s, x ∈ G.verts
  | 0, _, hs, hsub => ⟨hs, hsub⟩
  | n + 1, s, hs, hsub =>
    reachIter_inv hv n (reachStep G s) (reachStep_inv hs hv hsub).1
      (reachStep_inv hs hv hsub).2

theorem reachStep_eq_of_len {G : FGraph} {s : List Nat}
    (h : (reachStep G s).length ≤ s.length) : reachStep G s = s := by
  have hlen : (G.verts.filter
      (fun v => v ∉ s && (G.neighbors v).any (· ∈ s))).length = 0 := by
    rw [reachStep, List.length_append] at h
    omega
  rw [reachStep, List.length_eq_zero.mp hlen, List.append_nil]

theorem reachIter_of_fix {G : FGraph} {s : List Nat} (h : reachStep G s = s) :
    ∀ n, reachIter G n s = s
  | 0 => rfl
  | n + 1 => by
    show reachIter G n (reachStep G s) = s
    rw [h]
    exact reachIter_of_fix h n

theorem reachIter_fix_or_grow {G : FGraph} (hv : G.verts.Nodup) :
    ∀ (n : Nat) (s : List Nat), s.Nodup → (∀ x ∈ s, x ∈ G.verts) →
      reachStep G (reachIter G n s) = reachIter G n s ∨
        s.length + n ≤ (reachIter G n s).length := by
  intro n
  induction n with
  | zero =>
    intro s _ _
    right
    simp [reachIter]
  | succ n ih =>
    intro s hs hsub
    by_cases hfix : reachStep G s = s
    · left
      show reachStep G (reachIter G n (reachStep G s)) =
        reachIter G n (reachStep G s)
      rw [hfix, reachIter_of_fix hfix n]
      exact hfix
    · have hgrow : s.length + 1 ≤ (reachStep G s).length := by
        by_contra hcon
        push_neg at hcon
        exact hfix (reachStep_eq_of_len (by omega))
      obtain ⟨hnd', hsub'⟩ := reachStep_inv hs hv hsub
      rcases ih (reachStep G s) hnd' hsub' with h | h
      · left
        exact h
      · right
        show s.length + (n + 1) ≤ (reachIter G n (reachStep G s)).length
        omega

theorem reachFrom_fix {G : FGraph} (hw : G.wfb = true) {v : Nat}
    (hv : v ∈ G.verts) :
    reachStep G (reachFrom G v) = reachFrom G v := by
  obtain ⟨hvnd, -, -⟩ := wfb_iff.mp hw
  have hstart : ∀ x ∈ [v], x ∈ G.verts := by
    intro x hx
    rw [List.mem_singleton] at hx
    subst hx
    exact hv
  rcases reachIter_fix_or_grow hvnd G.verts.length [v] (by simp) hstart with h | h
  · exact h
  · exfalso
    obtain ⟨hnd', hsub'⟩ :=
      reachIter_inv hvnd G.verts.length [v] (by simp) hstart
    have hle := (hnd'.subperm hsub').length_le
    simp only [List.length_singleton] at h
    omega

theorem reachFrom_subset_verts {G : FGraph} (hw : G.wfb = true) {v : Nat}
    (hv : v ∈ G.verts) : ∀ x ∈ reachFrom G v, x ∈ G.verts := by
  obtain ⟨hvnd, -, -⟩ := wfb_iff.mp hw
  have hstart : ∀ x ∈ [v], x ∈ G.verts := by
    intro x hx
    rw [List.mem_singleton] at hx
    subst hx
    exact hv
  exact (reachIter_inv hvnd G.verts.length [v] (by simp) hstart).2

theorem reachFrom_complete {G : FGraph} (hw : G.wfb = true) {v : Nat}
    (hv : v ∈ G.verts) :
    ∀ x, Reaches G v x → x ∈ G.verts → x ∈ reachFrom G v := by
  intro x h
  induction h with
  | refl =>
    intro _
    exact reachIter_mono G.verts.length [v] v (by simp)
  | tail hub hbc ih =>
    rename_i b c
    intro hxv
    have hbv := (mem_neighbors_verts hw hbc).1
    have hbmem := ih hbv
    by_cases hxin : c ∈ reachFrom G v
    · exact hxin
    · have hadd : c ∈ reachStep G (reachFrom G v) := by
        refine List.mem_append_right _ ?_
        rw [List.mem_filter]
        refine ⟨hxv, ?_⟩
        rw [Bool.and_eq_true, List.any_eq_true]
        refine ⟨by rw [decide_eq_true_iff]; exact hxin, ?_⟩
        exact ⟨b, neighbors_symm.mp hbc, by rw [decide_eq_true_iff]; exact hbmem⟩
      rwa [reachFrom_fix hw hv] at hadd

theorem mem_reachFrom_iff {G : FGraph} (hw : G.wfb = true) {v x : Nat}
    (hv : v ∈ G.verts) :
    x ∈ reachFrom G v ↔ x ∈ G.verts ∧ Reaches G v x := by
  constructor
  · intro hx
    exact ⟨reachFrom_subset_verts hw hv x hx, reachFrom_sound x hx⟩
  · rintro ⟨hxv, hreach⟩
    exact reachFrom_complete hw hv x hreach hxv

/-! Component counting: the fueled counter computes the number of
distinct reachability classes. -/

theorem compF_self {G : FGraph} (v : Nat) : v ∈ compF G v := by
  rw [compF, List.mem_toFinset]
  exact reachIter_mono G.verts.length [v] v (by simp)

theorem compF_congr {G : FGraph} (hw : G.wfb = true) {v w : Nat}
    (hv : v ∈ G.verts) (hvw : w ∈ G.verts) (h : Reaches G v w) :
    compF G v = compF G w := by
  ext x
  rw [compF, compF, List.mem_toFinset, List.mem_toFinset,
    mem_reachFrom_iff hw hv, mem_reachFrom_iff hw hvw]
  constructor
  · rintro ⟨hxv, hr⟩
    exact ⟨hxv, (Reaches_symm h).trans hr⟩
  · rintro ⟨hxv, hr⟩
    exact ⟨hxv, h.trans hr⟩

theorem compF_reaches {G : FGraph} {v w : Nat}
    (h : w ∈ compF G v) : Reaches G v w := by
  rw [compF, List.mem_toFinset] at h
  exact reachFrom_sound w h

theorem compCountAux_nil {G : FGraph} : ∀ n, compCountAux G n [] = 0
  | 0 => rfl
  | _ + 1 => rfl

theorem compCountAux_spec {G : FGraph} (hw : G.wfb = true) :
    ∀ (n : Nat) (l : List Nat), l.Nodup → (∀ x ∈ l, x ∈ G.verts) →
      l.length ≤ n →
      compCountAux G n l = ((l.map (compF G)).toFinset).card := by
  intro n
  induction n with
  | zero =>
    intro l hnd hsub hlen
    have hl : l = [] := List.length_eq_zero.mp (by omega)
    subst hl
    simp [compCountAux]
  | succ n ih =>
    intro l hnd hsub hlen
    match l, hnd, hsub, hlen with
    | [], _, _, _ => simp [compCountAux]
    | v :: rest, hnd, hsub, hlen =>
      rw [compCountAux]
      have hv : v ∈ G.verts := hsub v (List.mem_cons_self v rest)
      have hndr : (rest.filter (fun w => w ∉ reachFrom G v)).Nodup :=
        ((List.nodup_cons.mp hnd).2).filter _
      have hsubr : ∀ x ∈ rest.filter (fun w => w ∉ reachFrom G v),
          x ∈ G.verts := by
        intro x hx
        exact hsub x (List.mem_cons_of_mem v (List.mem_filter.mp hx).1)
      have hlenr : (rest.filter (fun w => w ∉ reachFrom G v)).length ≤ n := by
        have h1 := List.length_filter_le (fun w => decide (w ∉ reachFrom G v)) rest
        have h2 : (v :: rest).length = rest.length + 1 := by simp
        omega
      rw [ih _ hndr hsubr hlenr]
      have hclasses : ((v :: rest).map (compF G)).toFinset =
          insert (compF G v)
            (((rest.filter (fun w => w ∉ reachFrom G v)).map (compF G)).toFinset) := by
        ext S
        rw [List.mem_toFinset, List.mem_map, Finset.mem_insert, List.mem_toFinset,
          List.mem_map]
        constructor
        · rintro ⟨x, hx, rfl⟩
          rcases List.mem_cons.mp hx with rfl | hx
          · exact Or.inl rfl
          · by_cases hxr : x ∈ reachFrom G v
            · left
              exact (compF_congr hw hv (hsub x (List.mem_cons_of_mem v hx))
                (reachFrom_sound x hxr)).symm
            · right
              refine ⟨x, List.mem_filter.mpr ⟨hx, ?_⟩, rfl⟩
              rw [decide_eq_true_iff]
              exact hxr
        · rintro (rfl | ⟨x, hx, rfl⟩)
          · exact ⟨v, List.mem_cons_self v rest, rfl⟩
          · exact ⟨x, List.mem_cons_of_mem v (List.mem_filter.mp hx).1, rfl⟩
      have hnotmem : compF G v ∉
          ((rest.filter (fun w => w ∉ reachFrom G v)).map (compF G)).toFinset := by
        rw [List.mem_toFinset, List.mem_map]
        rintro ⟨x, hx, hxeq⟩
        obtain ⟨hxrest, hxdec⟩ := List.mem_filter.mp hx
        rw [decide_eq_true_iff] at hxdec
        apply hxdec
        have hxv : x ∈ compF G x := compF_self x
        rw [hxeq] at hxv
        rw [compF, List.mem_toFinset] at hxv
        exact hxv
      rw [hclasses, Finset.card_insert_of_not_mem hnotmem]
      omega

theorem compCount_spec {G : FGraph} (hw : G.wfb = true) :
    G.compCount = ((G.verts.map (compF G)).toFinset).card := by
  obtain ⟨hvnd, -, -⟩ := wfb_iff.mp hw
  exact compCountAux_spec hw G.verts.length G.verts hvnd (fun x hx => hx)
    (le_refl _)

theorem compCount_pos {G : FGraph} (hne : G.verts ≠ []) :
    1 ≤ G.compCount := by
  obtain ⟨v, rest, hveq⟩ : ∃ v rest, G.verts = v :: rest := by
    cases hG : G.verts with
    | nil => exact absurd hG hne
    | cons v rest => exact ⟨v, rest, rfl⟩
  rw [FGraph.compCount, hveq, List.length_cons, compCountAux]
  omega

theorem compCount_of_connected {G : FGraph} (hc : connectedb G = true)
    (hne : G.verts ≠ []) : G.compCount = 1 := by
  obtain ⟨v, rest, hveq⟩ : ∃ v rest, G.verts = v :: rest := by
    cases hG : G.verts with
    | nil => exact absurd hG hne
    | cons v rest => exact ⟨v, rest, rfl⟩
  have hall : ∀ w ∈ G.verts, w ∈ reachFrom G v := by
    unfold connectedb at hc
    rw [hveq] at hc
    dsimp only at hc
    rw [List.all_eq_true] at hc
    intro w hw
    rw [hveq] at hw
    have := hc w hw
    rwa [decide_eq_true_iff] at this
  rw [FGraph.compCount, hveq, List.length_cons, compCountAux]
  have hfil : rest.filter (fun w => w ∉ reachFrom G v) = [] := by
    rw [List.filter_eq_nil_iff]
    intro w hw
    intro hcontra
    rw [decide_eq_true_iff] at hcontra
    exact hcontra (hall w (by rw [hveq]; exact List.mem_cons_of_mem v hw))
  rw [hfil, compCountAux_nil]

/-! Reachability across a single edge deletion. -/

theorem mem_neighbors_removeEdge {G : FGraph} (hw : G.wfb = true)
    {e : Nat × Nat} (he : e ∈ G.edges) {x y : Nat} :
    y ∈ (G.removeEdge e).neighbors x ↔
      y ∈ G.neighbors x ∧ ¬(x = e.1 ∧ y = e.2) ∧ ¬(x = e.2 ∧ y = e.1) := by
  obtain ⟨-, -, hedges⟩ := wfb_iff.mp hw
  have hne12 : e.1 ≠ e.2 := Nat.ne_of_lt (hedges e he).2.2
  by_cases h1 : x = e.1
  · subst h1
    rw [(neighbors_removeEdge_fst he).mem_iff,
      (List.Nodup.mem_erase_iff (neighbors_nodup hw e.1))]
    constructor
    · rintro ⟨hyne, hy⟩
      exact ⟨hy, fun h => hyne h.2, fun h => hne12 h.1⟩
    · rintro ⟨hy, h2, -⟩
      refine ⟨fun hcontra => h2 ⟨rfl, hcontra⟩, hy⟩
  · by_cases h2 : x = e.2
    · subst h2
      rw [(neighbors_removeEdge_snd hw he).mem_iff,
        (List.Nodup.mem_erase_iff (neighbors_nodup hw e.2))]
      constructor
      · rintro ⟨hyne, hy⟩
        exact ⟨hy, fun h => h1 h.1, fun h => hyne h.2⟩
      · rintro ⟨hy, -, h3⟩
        refine ⟨fun hcontra => h3 ⟨rfl, hcontra⟩, hy⟩
    · rw [(neighbors_removeEdge_other he h1 h2).mem_iff]
      constructor
      · intro hy
        exact ⟨hy, fun h => h1 h.1, fun h => h2 h.1⟩
      · rintro ⟨hy, -, -⟩
        exact hy

theorem Reaches_removeEdge_mono {G : FGraph} (hw : G.wfb = true)
    {e : Nat × Nat} (he : e ∈ G.edges) {x y : Nat}
    (h : Reaches (G.removeEdge e) x y) : Reaches G x y := by
  induction h with
  | refl => exact Relation.ReflTransGen.refl
  | tail hab hbc ih =>
    exact Relation.ReflTransGen.tail ih
      ((mem_neighbors_removeEdge hw he).mp hbc).1

theorem Reaches_removeEdge_avoid {G : FGraph} (hw : G.wfb = true)
    {e : Nat × Nat} (he : e ∈ G.edges) {x y : Nat}
    (h : Reaches G x y) (hav : ¬ Reaches G x e.1) :
    Reaches (G.removeEdge e) x y := by
  induction h with
  | refl => exact Relation.ReflTransGen.refl
  | tail hab hbc ih =>
    rename_i b c
    refine Relation.ReflTransGen.tail ih ?_
    rw [mem_neighbors_removeEdge hw he]
    refine ⟨hbc, ?_, ?_⟩
    · rintro ⟨rfl, rfl⟩
      exact hav hab
    · rintro ⟨rfl, rfl⟩
      have hstep : Reaches G e.2 e.1 := Relation.ReflTransGen.single hbc
      exact hav (hab.trans hstep)

theorem Reaches_removeEdge_of_bridge_joined {G : FGraph} (hw : G.wfb = true)
    {e : Nat × Nat} (he : e ∈ G.edges)
    (hjoin : Reaches (G.removeEdge e) e.1 e.2) {x y : Nat}
    (h : Reaches G x y) : Reaches (G.removeEdge e) x y := by
  induction h with
  | refl => exact Relation.ReflTransGen.refl
  | tail hab hbc ih =>
    rename_i b c
    by_cases h1 : b = e.1 ∧ c = e.2
    · obtain ⟨rfl, rfl⟩ := h1
      exact ih.trans hjoin
    · by_cases h2 : b = e.2 ∧ c = e.1
      · obtain ⟨rfl, rfl⟩ := h2
        exact ih.trans (Reaches_symm hjoin)
      · refine Relation.ReflTransGen.tail ih ?_
        rw [mem_neighbors_removeEdge hw he]
        exact ⟨hbc, h1, h2⟩

theorem compCount_removeEdge_of_joined {G : FGraph} (hw : G.wfb = true)
    {e : Nat × Nat} (he : e ∈ G.edges)
    (hjoin : Reaches (G.removeEdge e) e.1 e.2) :
    (G.removeEdge e).compCount = G.compCount := by
  have hw' : (G.removeEdge e).wfb = true := removeEdge_wfb hw e
  rw [compCount_spec hw, compCount_spec hw']
  have hverts : (G.removeEdge e).verts = G.verts := rfl
  have hmap : G.verts.map (compF (G.removeEdge e)) = G.verts.map (compF G) := by
    apply List.map_congr_left
    intro v hv
    ext x
    have hv' : v ∈ (G.removeEdge e).verts := hv
    rw [compF, compF, List.mem_toFinset, List.mem_toFinset,
      mem_reachFrom_iff hw hv, mem_reachFrom_iff hw' hv']
    constructor
    · rintro ⟨hxv, hr⟩
      exact ⟨hxv, Reaches_removeEdge_mono hw he hr⟩
    · rintro ⟨hxv, hr⟩
      exact ⟨hxv, Reaches_removeEdge_of_bridge_joined hw he hjoin hr⟩
  rw [hverts, hmap]

theorem Reaches_removeEdge_split {G : FGraph} (hw : G.wfb = true)
    {e : Nat × Nat} (he : e ∈ G.edges) {x y : Nat}
    (h : Reaches G x y) :
    Reaches (G.removeEdge e) x y ∨
      Reaches (G.removeEdge e) x e.1 ∨ Reaches (G.removeEdge e) x e.2 := by
  induction h with
  | refl => exact Or.inl Relation.ReflTransGen.refl
  | tail hab hbc ih =>
    rename_i b c
    rcases ih with ih | ih | ih
    · by_cases h1 : b = e.1 ∧ c = e.2
      · exact Or.inr (Or.inl (h1.1 ▸ ih))
      · by_cases h2 : b = e.2 ∧ c = e.1
        · exact Or.inr (Or.inr (h2.1 ▸ ih))
        · refine Or.inl (Relation.ReflTransGen.tail ih ?_)
          rw [mem_neighbors_removeEdge hw he]
          exact ⟨hbc, h1, h2⟩
    · exact Or.inr (Or.inl ih)
    · exact Or.inr (Or.inr ih)

theorem compF_removeEdge_of_avoid {G : FGraph} (hw : G.wfb = true)
    {e : Nat × Nat} (he : e ∈ G.edges) {x : Nat} (hx : x ∈ G.verts)
    (hav : ¬ Reaches G x e.1) :
    compF (G.removeEdge e) x = compF G x := by
  have hw' : (G.removeEdge e).wfb = true := removeEdge_wfb hw e
  have hx' : x ∈ (G.removeEdge e).verts := hx
  ext z
  rw [compF, compF, List.mem_toFinset, List.mem_toFinset,
    mem_reachFrom_iff hw' hx', mem_reachFrom_iff hw hx]
  constructor
  · rintro ⟨hzv, hr⟩
    exact ⟨hzv, Reaches_removeEdge_mono hw he hr⟩
  · rintro ⟨hzv, hr⟩
    exact ⟨hzv, Reaches_removeEdge_avoid hw he hr hav⟩

theorem compCount_removeEdge_le {G : FGraph} (hw : G.wfb = true)
    {e : Nat × Nat} (he : e ∈ G.edges) :
    (G.removeEdge e).compCount ≤ G.compCount + 1 := by
  obtain ⟨-, -, hedges⟩ := wfb_iff.mp hw
  have hw' : (G.removeEdge e).wfb = true := removeEdge_wfb hw e
  have he1v : e.1 ∈ G.verts := (hedges e he).1
  rw [compCount_spec hw, compCount_spec hw']
  have hverts : (G.removeEdge e).verts = G.verts := rfl
  rw [hverts]
  have hsub : ((G.verts.map (compF (G.removeEdge e))).toFinset) ⊆
      insert (compF (G.removeEdge e) e.1)
        (insert (compF (G.removeEdge e) e.2)
          (((G.verts.map (compF G)).toFinset).erase (compF G e.1))) := by
    intro S hS
    rw [List.mem_toFinset, List.mem_map] at hS
    obtain ⟨x, hx, rfl⟩ := hS
    by_cases hReach : Reaches G x e.1
    · rcases Reaches_removeEdge_split hw he hReach with hr | hr | hr
      · rw [Finset.mem_insert]
        exact Or.inl (compF_congr hw' hx ((hedges e he).1) hr)
      · rw [Finset.mem_insert]
        exact Or.inl (compF_congr hw' hx ((hedges e he).1) hr)
      · rw [Finset.mem_insert, Finset.mem_insert]
        exact Or.inr (Or.inl (compF_congr hw' hx ((hedges e he).2.1) hr))
    · rw [Finset.mem_insert, Finset.mem_insert]
      refine Or.inr (Or.inr ?_)
      rw [compF_removeEdge_of_avoid hw he hx hReach]
      rw [Finset.mem_erase]
      constructor
      · intro hcontra
        apply hReach
        apply compF_reaches
        rw [hcontra]
        exact compF_self e.1
      · rw [List.mem_toFinset, List.mem_map]
        exact ⟨x, hx, rfl⟩
  have hcard := Finset.card_le_card hsub
  have hc1 := Finset.card_insert_le (compF (G.removeEdge e) e.1)
    (insert (compF (G.removeEdge e) e.2)
      (((G.verts.map (compF G)).toFinset).erase (compF G e.1)))
  have hc2 := Finset.card_insert_le (compF (G.removeEdge e) e.2)
    (((G.verts.map (compF G)).toFinset).erase (compF G e.1))
  have hmem1 : compF G e.1 ∈ (G.verts.map (compF G)).toFinset := by
    rw [List.mem_toFinset, List.mem_map]
    exact ⟨e.1, he1v, rfl⟩
  have hc3 := Finset.card_erase_of_mem hmem1
  have hpos : 1 ≤ ((G.verts.map (compF G)).toFinset).card :=
    Finset.card_pos.mpr ⟨_, hmem1⟩
  omega

/-! When the two sides of an edge lie on distinct faces, the edge is not
a bridge: its endpoints stay connected after the deletion. -/

theorem joined_of_not_sameorb {G : FGraph} (hw : G.wfb = true)
    {e : Nat × Nat} (he : e ∈ G.edges) {ρ : List (Nat × List Nat)}
    (hρ : validRot G ρ) {N : Nat} (hN : G.darts.length ≤ N)
    (hsep : (e.2, e.1) ∉ orbSet (faceSucc ρ) N e) :
    Reaches (G.removeEdge e) e.1 e.2 := by
  have hw' : (G.removeEdge e).wfb = true := removeEdge_wfb hw e
  obtain ⟨-, hend, hedges⟩ := wfb_iff.mp hw
  have hde : e ∈ G.darts := mem_darts.mpr (Or.inl he)
  have hclosed : ∀ x ∈ G.darts, faceSucc ρ x ∈ G.darts :=
    fun x hx => faceSucc_mem_darts hw hρ hx
  have hinj : ∀ x ∈ G.darts, ∀ y ∈ G.darts,
      faceSucc ρ x = faceSucc ρ y → x = y :=
    fun x hx y hy h => faceSucc_injOn hw hρ hx hy h
  obtain ⟨P, hP0, hPd, hPle, hmin⟩ :=
    exists_min_period (darts_nodup hw) hclosed hinj hde
  have hP1 : 1 < P := by
    rcases Nat.lt_or_ge 1 P with h | h
    · exact h
    · exfalso
      have hPeq : P = 1 := by omega
      subst hPeq
      exact faceSucc_ne hw hde (by simpa using hPd)
  have havoid : ∀ k, 0 < k → k < P →
      (faceSucc ρ)^[k] e ≠ e ∧ (faceSucc ρ)^[k] e ≠ (e.2, e.1) := by
    intro k hk0 hkP
    refine ⟨hmin k hk0 hkP, ?_⟩
    intro hcontra
    exact hsep (mem_orbSet_iff.mpr ⟨k, by omega, hcontra⟩)
  have hmemD' : ∀ k, 0 < k → k < P →
      (faceSucc ρ)^[k] e ∈ (G.removeEdge e).darts := by
    intro k hk0 hkP
    obtain ⟨h1, h2⟩ := havoid k hk0 hkP
    exact (mem_darts_removeEdge hw he).mpr
      ⟨iterate_mem_of_closed hclosed hde k, h1, h2⟩
  have hsnd : ∀ k, ((faceSucc ρ)^[k + 1] e).1 = ((faceSucc ρ)^[k] e).2 := by
    intro k
    rw [Function.iterate_succ_apply']
    rfl
  have hwalk : ∀ k, 1 ≤ k → k ≤ P - 1 →
      Reaches (G.removeEdge e) e.2 ((faceSucc ρ)^[k] e).1 := by
    intro k
    induction k with
    | zero => omega
    | succ k ih =>
      intro hk1 hkP
      rcases Nat.eq_zero_or_pos k with h0 | h0
      · subst h0
        have h1 : ((faceSucc ρ)^[1] e).1 = e.2 := by
          simp [faceSucc]
        rw [h1]
        exact Relation.ReflTransGen.refl
      · have hkP' : k ≤ P - 1 := by omega
        have ihk := ih h0 hkP'
        have hx : (faceSucc ρ)^[k] e ∈ (G.removeEdge e).darts :=
          hmemD' k h0 (by omega)
        have hstep : ((faceSucc ρ)^[k] e).2 ∈
            (G.removeEdge e).neighbors (((faceSucc ρ)^[k] e).1) :=
          neighbors_symm.mp (darts_fst_mem_neighbors hx)
        rw [hsnd k]
        exact Relation.ReflTransGen.tail ihk hstep
  have hy : (faceSucc ρ)^[P - 1] e ∈ (G.removeEdge e).darts :=
    hmemD' (P - 1) (by omega) (by omega)
  have hysnd : ((faceSucc ρ)^[P - 1] e).2 = e.1 := by
    have h1 : (faceSucc ρ) ((faceSucc ρ)^[P - 1] e) = e := by
      rw [← iterate_pred_apply (faceSucc ρ) hP0 e]
      exact hPd
    have h2 := congrArg Prod.fst h1
    rw [← h2]
    rfl
  have hlast : Reaches (G.removeEdge e) e.2 e.1 := by
    have hstep : ((faceSucc ρ)^[P - 1] e).2 ∈
        (G.removeEdge e).neighbors (((faceSucc ρ)^[P - 1] e).1) :=
      neighbors_symm.mp (darts_fst_mem_neighbors hy)
    have := Relation.ReflTransGen.tail (hwalk (P - 1) (by omega) (le_refl _)) hstep
    rwa [hysnd] at this
  exact Reaches_symm hlast

/-! Bookkeeping for isolated vertices under an edge deletion. -/

theorem cyclicNext_self_iff {l : List Nat} {x : Nat} (hnd : l.Nodup)
    (hx : x ∈ l) : cyclicNext l x = x ↔ l = [x] := by
  constructor
  · intro h
    obtain ⟨p, q, rfl, hxp, hxq⟩ := split_at_mem hnd hx
    rw [cyclicNext_split hxp] at h
    cases hqp : q ++ p with
    | nil =>
      obtain ⟨hq, hp⟩ := List.append_eq_nil.mp hqp
      rw [hp, hq]
      rfl
    | cons z t =>
      exfalso
      rw [hqp] at h
      simp only [List.headD_cons] at h
      have hz : z ∈ q ++ p := by
        rw [hqp]
        exact List.mem_cons_self z t
      rw [h] at hz
      rcases List.mem_append.mp hz with hc | hc
      · exact hxq hc
      · exact hxp hc
  · intro h
    subst h
    have h0 : x ∉ ([] : List Nat) := List.not_mem_nil x
    have := cyclicNext_split (p := []) (q := []) (x := x) h0
    simpa using this

theorem erase_nil_iff {l : List Nat} {b : Nat} (hb : b ∈ l) :
    l.erase b = [] ↔ l = [b] := by
  constructor
  · intro h
    cases l with
    | nil => cases hb
    | cons x t =>
      by_cases hxb : x = b
      · subst hxb
        rw [List.erase_cons_head] at h
        rw [h]
      · rw [List.erase_cons_tail] at h
        · cases h
        · simpa using hxb
  · intro h
    subst h
    rw [List.erase_cons_head]

theorem perm_cons_erase_nat {l : List Nat} {a : Nat} (h : a ∈ l) :
    l.Perm (a :: l.erase a) := by
  induction l with
  | nil => cases h
  | cons b t ih =>
    rcases List.mem_cons.mp h with h | h
    · subst h
      rw [List.erase_cons_head]
    · by_cases hba : b = a
      · subst hba
        rw [List.erase_cons_head]
      · rw [List.erase_cons_tail]
        · exact ((ih h).cons b).trans (List.Perm.swap a b _)
        · simpa using hba

theorem filter_length_two {l : List Nat} (hnd : l.Nodup) {a b : Nat}
    (ha : a ∈ l) (hb : b ∈ l) (hab : a ≠ b) (p q : Nat → Bool)
    (hpq : ∀ x ∈ l, x ≠ a → x ≠ b → p x = q x) :
    (l.filter p).length + (if q a = true then 1 else 0)
        + (if q b = true then 1 else 0) =
      (l.filter q).length + (if p a = true then 1 else 0)
        + (if p b = true then 1 else 0) := by
  have hb' : b ∈ l.erase a :=
    (List.Nodup.mem_erase_iff hnd).mpr ⟨Ne.symm hab, hb⟩
  have hperm : l.Perm (a :: b :: (l.erase a).erase b) :=
    (perm_cons_erase_nat ha).trans ((perm_cons_erase_nat hb').cons a)
  have htmem : ∀ x ∈ (l.erase a).erase b, x ≠ a ∧ x ≠ b ∧ x ∈ l := by
    intro x hx
    have hx1 := (List.Nodup.mem_erase_iff (hnd.erase a)).mp hx
    have hx2 := (List.Nodup.mem_erase_iff hnd).mp hx1.2
    exact ⟨hx2.1, hx1.1, hx2.2⟩
  have hteq : ((l.erase a).erase b).filter p = ((l.erase a).erase b).filter q := by
    apply List.filter_congr
    intro x hx
    obtain ⟨hxa, hxb, hxl⟩ := htmem x hx
    rw [hpq x hxl hxa hxb]
  have hsplit : ∀ r : Nat → Bool, ((a :: b :: (l.erase a).erase b).filter r).length =
      (if r a = true then 1 else 0) + (if r b = true then 1 else 0)
        + (((l.erase a).erase b).filter r).length := by
    intro r
    rw [List.filter_cons, List.filter_cons]
    by_cases h1 : r a = true <;> by_cases h2 : r b = true <;>
      simp [h1, h2] <;> omega
  have hp := (hperm.filter p).length_eq
  have hq := (hperm.filter q).length_eq
  rw [hsplit p] at hp
  rw [hsplit q] at hq
  rw [hteq] at hp
  omega

theorem isolatedCount_removeEdge {G : FGraph} (hw : G.wfb = true)
    {e : Nat × Nat} (he : e ∈ G.edges) :
    (G.removeEdge e).isolatedCount =
      G.isolatedCount + (if G.neighbors e.1 = [e.2] then 1 else 0)
        + (if G.neighbors e.2 = [e.1] then 1 else 0) := by
  obtain ⟨hvnd, -, hedges⟩ := wfb_iff.mp hw
  have hav : e.1 ∈ G.verts := (hedges e he).1
  have hbv : e.2 ∈ G.verts := (hedges e he).2.1
  have hab : e.1 ≠ e.2 := Nat.ne_of_lt (hedges e he).2.2
  have heta : (e.1, e.2) = e := by
    obtain ⟨a, b⟩ := e
    rfl
  have hbn : e.2 ∈ G.neighbors e.1 := mem_neighbors.mpr (Or.inl (heta ▸ he))
  have han : e.1 ∈ G.neighbors e.2 := mem_neighbors.mpr (Or.inr (heta ▸ he))
  have hiffA : ((G.removeEdge e).neighbors e.1 = []) ↔ (G.neighbors e.1 = [e.2]) := by
    constructor
    · intro h
      have hperm := neighbors_removeEdge_fst he
      rw [h] at hperm
      exact (erase_nil_iff hbn).mp hperm.symm.eq_nil
    · intro h
      have hperm := neighbors_removeEdge_fst he
      rw [h, List.erase_cons_head] at hperm
      exact hperm.eq_nil
  have hiffB : ((G.removeEdge e).neighbors e.2 = []) ↔ (G.neighbors e.2 = [e.1]) := by
    constructor
    · intro h
      have hperm := neighbors_removeEdge_snd hw he
      rw [h] at hperm
      exact (erase_nil_iff han).mp hperm.symm.eq_nil
    · intro h
      have hperm := neighbors_removeEdge_snd hw he
      rw [h, List.erase_cons_head] at hperm
      exact hperm.eq_nil
  have hpq : ∀ x ∈ G.verts, x ≠ e.1 → x ≠ e.2 →
      (fun v => decide ((G.removeEdge e).neighbors v = [])) x =
        (fun v => decide (G.neighbors v = [])) x := by
    intro x _ h1 h2
    simp only
    rw [decide_eq_decide]
    have hperm := neighbors_removeEdge_other he h1 h2
    constructor
    · intro h
      rw [h] at hperm
      exact hperm.symm.eq_nil
    · intro h
      rw [h] at hperm
      exact hperm.eq_nil
  have key := filter_length_two hvnd hav hbv hab _ _ hpq
  have hqa : decide (G.neighbors e.1 = []) = false := by
    simp only [decide_eq_false_iff_not]
    exact List.ne_nil_of_mem hbn
  have hqb : decide (G.neighbors e.2 = []) = false := by
    simp only [decide_eq_false_iff_not]
    exact List.ne_nil_of_mem han
  rw [hqa, hqb, if_neg Bool.false_ne_true] at key
  have hpa : (if decide ((G.removeEdge e).neighbors e.1 = []) = true
      then 1 else 0) = (if G.neighbors e.1 = [e.2] then 1 else 0) :=
    if_congr (by simp only [decide_eq_true_iff]; exact hiffA) rfl rfl
  have hpb : (if decide ((G.removeEdge e).neighbors e.2 = []) = true
      then 1 else 0) = (if G.neighbors e.2 = [e.1] then 1 else 0) :=
    if_congr (by simp only [decide_eq_true_iff]; exact hiffB) rfl rfl
  rw [hpa, hpb] at key
  show (G.verts.filter (fun v => decide ((G.removeEdge e).neighbors v = []))).length
    = (G.verts.filter (fun v => decide (G.neighbors v = []))).length
      + (if G.neighbors e.1 = [e.2] then 1 else 0)
      + (if G.neighbors e.2 = [e.1] then 1 else 0)
  omega

theorem chain_snd_iff {G : FGraph} (hw : G.wfb = true) {e : Nat × Nat}
    (he : e ∈ G.edges) {ρ : List (Nat × List Nat)} (hρ : validRot G ρ) :
    faceSucc ρ e = (e.2, e.1) ↔ G.neighbors e.2 = [e.1] := by
  obtain ⟨-, -, hedges⟩ := wfb_iff.mp hw
  have hbv : e.2 ∈ G.verts := (hedges e he).2.1
  have heta : (e.1, e.2) = e := by
    obtain ⟨a, b⟩ := e
    rfl
  have han : e.1 ∈ G.neighbors e.2 := mem_neighbors.mpr (Or.inr (heta ▸ he))
  have haL : e.1 ∈ lookupRot ρ e.2 := (hρ _ hbv).mem_iff.mpr han
  have hnd : (lookupRot ρ e.2).Nodup := lookupRot_nodup hw hρ hbv
  constructor
  · intro h
    have h2 : cyclicNext (lookupRot ρ e.2) e.1 = e.1 := by
      have := congrArg Prod.snd h
      simpa [faceSucc] using this
    have h3 := (cyclicNext_self_iff hnd haL).mp h2
    have h4 : (G.neighbors e.2).Perm [e.1] := by
      rw [← h3]
      exact (hρ _ hbv).symm
    exact List.perm_singleton.mp h4
  · intro h
    have h4 : lookupRot ρ e.2 = [e.1] := by
      have h5 := hρ _ hbv
      rw [h] at h5
      exact List.perm_singleton.mp h5
    show (e.2, cyclicNext (lookupRot ρ e.2) e.1) = (e.2, e.1)
    rw [h4, (cyclicNext_self_iff (by simp) (by simp)).mpr rfl]

theorem chain_fst_iff {G : FGraph} (hw : G.wfb = true) {e : Nat × Nat}
    (he : e ∈ G.edges) {ρ : List (Nat × List Nat)} (hρ : validRot G ρ) :
    faceSucc ρ (e.2, e.1) = e ↔ G.neighbors e.1 = [e.2] := by
  obtain ⟨-, -, hedges⟩ := wfb_iff.mp hw
  have hav : e.1 ∈ G.verts := (hedges e he).1
  have heta : (e.1, e.2) = e := by
    obtain ⟨a, b⟩ := e
    rfl
  have hbn : e.2 ∈ G.neighbors e.1 := mem_neighbors.mpr (Or.inl (heta ▸ he))
  have hbL : e.2 ∈ lookupRot ρ e.1 := (hρ _ hav).mem_iff.mpr hbn
  have hnd : (lookupRot ρ e.1).Nodup := lookupRot_nodup hw hρ hav
  constructor
  · intro h
    have h2 : cyclicNext (lookupRot ρ e.1) e.2 = e.2 := by
      have h3 := congrArg Prod.snd h
      rw [← heta] at h3
      simpa [faceSucc] using h3
    have h3 := (cyclicNext_self_iff hnd hbL).mp h2
    have h4 : (G.neighbors e.1).Perm [e.2] := by
      rw [← h3]
      exact (hρ _ hav).symm
    exact List.perm_singleton.mp h4
  · intro h
    have h4 : lookupRot ρ e.1 = [e.2] := by
      have h5 := hρ _ hav
      rw [h] at h5
      exact List.perm_singleton.mp h5
    show (e.1, cyclicNext (lookupRot ρ e.1) e.2) = e
    rw [h4, (cyclicNext_self_iff (by simp) (by simp)).mpr rfl]

/-! The face count changes by exactly one under an edge deletion:
down when the edge's two darts lie on distinct faces, up otherwise. -/

theorem faceCount_eq_card {G : FGraph} (hw : G.wfb = true)
    {ρ : List (Nat × List Nat)} (hρ : validRot G ρ) {N : Nat}
    (hN : G.darts.length ≤ N) :
    faceCount G ρ = (orbitsOf (faceSucc ρ) N G.darts).card + G.isolatedCount := by
  rw [faceCount]
  congr 1
  exact countOrbits_eq_card G.darts.length G.darts (darts_nodup hw)
    (fun x hx => faceSucc_mem_darts hw hρ hx)
    (fun x hx y hy h => faceSucc_injOn hw hρ hx hy h) (le_refl _) N hN

theorem faceCount_removeEdge_sep {G : FGraph} (hw : G.wfb = true)
    {e : Nat × Nat} (he : e ∈ G.edges) {ρ : List (Nat × List Nat)}
    (hρ : validRot G ρ)
    (hsep : (e.2, e.1) ∉ orbSet (faceSucc ρ) (2 * G.darts.length) e) :
    faceCount (G.removeEdge e) (deleteRotSys G e ρ) + 1 = faceCount G ρ := by
  obtain ⟨-, -, hedges⟩ := wfb_iff.mp hw
  have hw' : (G.removeEdge e).wfb = true := removeEdge_wfb hw e
  have hρ' := validRot_deleteRotSys hw he hρ
  have heta : (e.1, e.2) = e := by
    obtain ⟨a, b⟩ := e
    rfl
  have hd₁ : e ∈ G.darts := mem_darts.mpr (Or.inl he)
  have hd₂ : (e.2, e.1) ∈ G.darts := by
    refine mem_darts.mpr (Or.inr ?_)
    show (e.1, e.2) ∈ G.edges
    rw [heta]
    exact he
  have hne : e ≠ (e.2, e.1) := by
    intro h
    have h1 := congrArg Prod.fst h
    have h2 := Nat.ne_of_lt (hedges e he).2.2
    exact h2 (by simpa using h1)
  have hclosed : ∀ x ∈ G.darts, faceSucc ρ x ∈ G.darts :=
    fun x hx => faceSucc_mem_darts hw hρ hx
  have hinj : ∀ x ∈ G.darts, ∀ y ∈ G.darts,
      faceSucc ρ x = faceSucc ρ y → x = y :=
    fun x hx y hy h => faceSucc_injOn hw hρ hx hy h
  have hfix : ∀ x ∈ G.darts, faceSucc ρ x ≠ x := fun x hx => faceSucc_ne hw hx
  have hmem' : ∀ x, x ∈ (G.removeEdge e).darts ↔
      x ∈ G.darts ∧ x ≠ e ∧ x ≠ (e.2, e.1) :=
    fun x => mem_darts_removeEdge hw he
  have hsp : ∀ x ∈ (G.removeEdge e).darts,
      faceSucc (deleteRotSys G e ρ) x =
        if faceSucc ρ x = e then faceSucc ρ (e.2, e.1)
        else if faceSucc ρ x = (e.2, e.1) then faceSucc ρ e
        else faceSucc ρ x :=
    fun x hx => faceSucc_deleteRotSys hw he hρ hx
  have hDpos : 0 < G.darts.length := List.length_pos.mpr (List.ne_nil_of_mem hd₁)
  have hND' : (G.removeEdge e).darts.length ≤ 2 * G.darts.length := by
    have := ((darts_nodup hw').subperm
      (fun x hx => ((mem_darts_removeEdge hw he).mp hx).1)).length_le
    omega
  rw [faceCount_eq_card hw hρ (N := 2 * G.darts.length) (by omega),
    faceCount_eq_card hw' hρ' hND']
  have horb := splice_merge_count (darts_nodup hw) (darts_nodup hw') hclosed hinj
    hfix hd₁ hd₂ hne hmem' hsp (le_refl _) hsep
  have hchainA : G.neighbors e.2 ≠ [e.1] := by
    intro h
    apply hsep
    have h2 := (chain_snd_iff hw he hρ).mpr h
    exact mem_orbSet_iff.mpr ⟨1, by omega, by simpa using h2⟩
  have hchainB : G.neighbors e.1 ≠ [e.2] := by
    intro h
    apply hsep
    have h2 := (chain_fst_iff hw he hρ).mpr h
    have h3 : e ∈ orbSet (faceSucc ρ) (2 * G.darts.length) (e.2, e.1) :=
      mem_orbSet_iff.mpr ⟨1, by omega, by simpa using h2⟩
    exact orbSet_mem_symm (darts_nodup hw) hclosed hinj hd₂ (by omega) (by omega) h3
  have hiso := isolatedCount_removeEdge hw he
  rw [if_neg hchainB, if_neg hchainA] at hiso
  omega

theorem faceCount_removeEdge_same {G : FGraph} (hw : G.wfb = true)
    {e : Nat × Nat} (he : e ∈ G.edges) {ρ : List (Nat × List Nat)}
    (hρ : validRot G ρ)
    (hsame : (e.2, e.1) ∈ orbSet (faceSucc ρ) (2 * G.darts.length) e) :
    faceCount (G.removeEdge e) (deleteRotSys G e ρ) = faceCount G ρ + 1 := by
  obtain ⟨-, -, hedges⟩ := wfb_iff.mp hw
  have hw' : (G.removeEdge e).wfb = true := removeEdge_wfb hw e
  have hρ' := validRot_deleteRotSys hw he hρ
  have heta : (e.1, e.2) = e := by
    obtain ⟨a, b⟩ := e
    rfl
  have hd₁ : e ∈ G.darts := mem_darts.mpr (Or.inl he)
  have hd₂ : (e.2, e.1) ∈ G.darts := by
    refine mem_darts.mpr (Or.inr ?_)
    show (e.1, e.2) ∈ G.edges
    rw [heta]
    exact he
  have hne : e ≠ (e.2, e.1) := by
    intro h
    have h1 := congrArg Prod.fst h
    have h2 := Nat.ne_of_lt (hedges e he).2.2
    exact h2 (by simpa using h1)
  have hclosed : ∀ x ∈ G.darts, faceSucc ρ x ∈ G.darts :=
    fun x hx => faceSucc_mem_darts hw hρ hx
  have hinj : ∀ x ∈ G.darts, ∀ y ∈ G.darts,
      faceSucc ρ x = faceSucc ρ y → x = y :=
    fun x hx y hy h => faceSucc_injOn hw hρ hx hy h
  have hfix : ∀ x ∈ G.darts, faceSucc ρ x ≠ x := fun x hx => faceSucc_ne hw hx
  have hmem' : ∀ x, x ∈ (G.removeEdge e).darts ↔
      x ∈ G.darts ∧ x ≠ e ∧ x ≠ (e.2, e.1) :=
    fun x => mem_darts_removeEdge hw he
  have hsp : ∀ x ∈ (G.removeEdge e).darts,
      faceSucc (deleteRotSys G e ρ) x =
        if faceSucc ρ x = e then faceSucc ρ (e.2, e.1)
        else if faceSucc ρ x = (e.2, e.1) then faceSucc ρ e
        else faceSucc ρ x :=
    fun x hx => faceSucc_deleteRotSys hw he hρ hx
  have hDpos : 0 < G.darts.length := List.length_pos.mpr (List.ne_nil_of_mem hd₁)
  have hND' : (G.removeEdge e).darts.length ≤ 2 * G.darts.length := by
    have := ((darts_nodup hw').subperm
      (fun x hx => ((mem_darts_removeEdge hw he).mp hx).1)).length_le
    omega
  rw [faceCount_eq_card hw hρ (N := 2 * G.darts.length) (by omega),
    faceCount_eq_card hw' hρ' hND']
  have hiso := isolatedCount_removeEdge hw he
  by_cases hA : faceSucc ρ e = (e.2, e.1)
  · by_cases hB : faceSucc ρ (e.2, e.1) = e
    · have horb := splice_pair_count (darts_nodup hw) hclosed hinj hd₁ hne hmem'
        hsp (le_refl _) hA hB
      have h1 := (chain_snd_iff hw he hρ).mp hA
      have h2 := (chain_fst_iff hw he hρ).mp hB
      rw [if_pos h2, if_pos h1] at hiso
      omega
    · have horb := splice_chainA_count (darts_nodup hw) (darts_nodup hw') hclosed
        hinj hfix hd₁ hd₂ hne hmem' hsp (le_refl _) hA hB
      have h1 := (chain_snd_iff hw he hρ).mp hA
      have h2 : G.neighbors e.1 ≠ [e.2] := fun h => hB ((chain_fst_iff hw he hρ).mpr h)
      rw [if_neg h2, if_pos h1] at hiso
      omega
  · by_cases hB : faceSucc ρ (e.2, e.1) = e
    · have horb := splice_chainB_count (darts_nodup hw) (darts_nodup hw') hclosed
        hinj hfix hd₁ hd₂ hne hmem' hsp (le_refl _) hA hB
      have h1 : G.neighbors e.2 ≠ [e.1] := fun h => hA ((chain_snd_iff hw he hρ).mpr h)
      have h2 := (chain_fst_iff hw he hρ).mp hB
      rw [if_pos h2, if_neg h1] at hiso
      omega
    · have horb := splice_split_count (darts_nodup hw) (darts_nodup hw') hclosed
        hinj hfix hd₁ hd₂ hne hmem' hsp (le_refl _) hsame hA hB
      have h1 : G.neighbors e.2 ≠ [e.1] := fun h => hA ((chain_snd_iff hw he hρ).mpr h)
      have h2 : G.neighbors e.1 ≠ [e.2] := fun h => hB ((chain_fst_iff hw he hρ).mpr h)
      rw [if_neg h2, if_neg h1] at hiso
      omega

/-! Euler's inequality (genus nonnegativity) and exact preservation of
the planarity criterion under edge deletion. -/

theorem euler_edgeless {G : FGraph} (hE : G.edges = []) (hw : G.wfb = true)
    (ρ : List (Nat × List Nat)) :
    G.verts.length + faceCount G ρ = G.edges.length + 2 * G.compCount := by
  obtain ⟨hvnd, -, -⟩ := wfb_iff.mp hw
  have hdarts : G.darts = [] := by
    unfold FGraph.darts
    rw [hE]
    rfl
  have hnbr : ∀ v, G.neighbors v = [] := by
    intro v
    unfold FGraph.neighbors
    rw [hE]
    rfl
  have hiso : G.isolatedCount = G.verts.length := by
    unfold FGraph.isolatedCount
    have hall : G.verts.filter (fun v => decide (G.neighbors v = [])) = G.verts := by
      apply List.filter_eq_self.mpr
      intro a _
      rw [decide_eq_true_iff]
      exact hnbr a
    rw [hall]
  have hface : faceCount G ρ = G.verts.length := by
    rw [faceCount, hdarts, hiso]
    simp [countOrbits]
  have hreach : ∀ v, reachFrom G v = [v] := by
    intro v
    apply reachIter_of_fix
    show [v] ++ G.verts.filter _ = [v]
    have hfil : G.verts.filter
        (fun w => w ∉ [v] && (G.neighbors w).any (· ∈ [v])) = [] := by
      rw [List.filter_eq_nil_iff]
      intro w _
      rw [hnbr w]
      simp
    rw [hfil]
    rfl
  have haux : ∀ (fuel : Nat) (l : List Nat), l.Nodup → l.length ≤ fuel →
      compCountAux G fuel l = l.length := by
    intro fuel
    induction fuel with
    | zero =>
      intro l hnd hlen
      have : l = [] := List.length_eq_zero.mp (by omega)
      subst this
      simp [compCountAux]
    | succ fuel ih =>
      intro l hnd hlen
      match l, hnd, hlen with
      | [], _, _ => simp [compCountAux]
      | v :: rest, hnd, hlen =>
        rw [compCountAux, hreach v]
        have hvrest : v ∉ rest := (List.nodup_cons.mp hnd).1
        have hfil : rest.filter (fun w => w ∉ [v]) = rest := by
          apply List.filter_eq_self.mpr
          intro w hwr
          rw [decide_eq_true_iff]
          intro hcontra
          rw [List.mem_singleton] at hcontra
          subst hcontra
          exact hvrest hwr
        rw [hfil, ih rest (List.nodup_cons.mp hnd).2 (by
          simp only [List.length_cons] at hlen
          omega)]
        simp only [List.length_cons]
        omega
  have hcomp : G.compCount = G.verts.length :=
    haux G.verts.length G.verts hvnd (le_refl _)
  rw [hE, hface, hcomp]
  simp
  omega

theorem euler_ineq : ∀ (n : Nat) (G : FGraph), G.edges.length ≤ n →
    G.wfb = true → ∀ ρ, validRot G ρ →
    G.verts.length + faceCount G ρ ≤ G.edges.length + 2 * G.compCount := by
  intro n
  induction n with
  | zero =>
    intro G hlen hw ρ _
    have hE : G.edges = [] := List.length_eq_zero.mp (by omega)
    exact le_of_eq (euler_edgeless hE hw ρ)
  | succ n ih =>
    intro G hlen hw ρ hρ
    cases hE : G.edges with
    | nil =>
      have h := euler_edgeless hE hw ρ
      rw [hE] at h
      exact le_of_eq h
    | cons e₀ rest =>
      have he₀ : e₀ ∈ G.edges := by
        rw [hE]
        exact List.mem_cons_self e₀ rest
      have hE' : (G.removeEdge e₀).edges = rest := by
        show G.edges.erase e₀ = rest
        rw [hE, List.erase_cons_head]
      have hlen' : (G.removeEdge e₀).edges.length ≤ n := by
        rw [hE']
        rw [hE] at hlen
        simp only [List.length_cons] at hlen
        omega
      have hw' := removeEdge_wfb hw e₀
      have hρ' := validRot_deleteRotSys hw he₀ hρ
      have IH := ih (G.removeEdge e₀) hlen' hw' _ hρ'
      have hEl : (G.removeEdge e₀).edges.length + 1 = (e₀ :: rest).length := by
        rw [hE']
        simp
      have hV : (G.removeEdge e₀).verts.length = G.verts.length := rfl
      by_cases hsame : (e₀.2, e₀.1) ∈ orbSet (faceSucc ρ) (2 * G.darts.length) e₀
      · have hF := faceCount_removeEdge_same hw he₀ hρ hsame
        have hC := compCount_removeEdge_le hw he₀
        omega
      · have hF := faceCount_removeEdge_sep hw he₀ hρ hsame
        have hjoin := joined_of_not_sameorb hw he₀ hρ
          (show G.darts.length ≤ 2 * G.darts.length by omega) hsame
        have hC := compCount_removeEdge_of_joined hw he₀ hjoin
        omega

theorem euler_le {G : FGraph} (hw : G.wfb = true) {ρ : List (Nat × List Nat)}
    (hρ : validRot G ρ) :
    G.verts.length + faceCount G ρ ≤ G.edges.length + 2 * G.compCount :=
  euler_ineq G.edges.length G (le_refl _) hw ρ hρ

theorem planarCheck_removeEdge {G : FGraph} (hw : G.wfb = true)
    {e : Nat × Nat} (he : e ∈ G.edges) {ρ : List (Nat × List Nat)}
    (hρ : validRot G ρ) (hpc : planarCheck G ρ = true) :
    planarCheck (G.removeEdge e) (deleteRotSys G e ρ) = true := by
  have hw' := removeEdge_wfb hw e
  have hρ' := validRot_deleteRotSys hw he hρ
  rw [planarCheck, beq_iff_eq] at hpc ⊢
  have hEl : (G.removeEdge e).edges.length + 1 = G.edges.length := by
    show (G.edges.erase e).length + 1 = G.edges.length
    rw [List.length_erase_of_mem he]
    have : 0 < G.edges.length := List.length_pos.mpr (List.ne_nil_of_mem he)
    omega
  have hV : (G.removeEdge e).verts.length = G.verts.length := rfl
  by_cases hsame : (e.2, e.1) ∈ orbSet (faceSucc ρ) (2 * G.darts.length) e
  · have hF := faceCount_removeEdge_same hw he hρ hsame
    have hCle := compCount_removeEdge_le hw he
    have heul := euler_le hw' hρ'
    omega
  · have hF := faceCount_removeEdge_sep hw he hρ hsame
    have hjoin := joined_of_not_sameorb hw he hρ
      (show G.darts.length ≤ 2 * G.darts.length by omega) hsame
    have hC := compCount_removeEdge_of_joined hw he hjoin
    omega

/-! The cluster-induced rotation system and graph. -/

theorem lookupRot_inducedRot (c : List Nat) :
    ∀ (ρ : List (Nat × List Nat)) (v : Nat),
      lookupRot (inducedRot c ρ) v = (lookupRot ρ v).filter (· ∈ c)
  | [], v => rfl
  | p :: t, v => by
    unfold inducedRot lookupRot
    rw [List.map_cons, List.find?_cons, List.find?_cons]
    by_cases h : p.1 = v
    · simp only [h]
      simp
    · simp only [h]
      have ih := lookupRot_inducedRot c t v
      unfold inducedRot lookupRot at ih
      simpa using ih

theorem filter_erase {α : Type} [DecidableEq α] (a : α) (p : α → Bool) :
    ∀ l : List α, (l.erase a).filter p =
      if p a = true then (l.filter p).erase a else l.filter p
  | [] => by
    by_cases h : p a = true <;> simp [h]
  | x :: t => by
    by_cases hxa : x = a
    · subst hxa
      rw [List.erase_cons_head, List.filter_cons]
      by_cases h : p x = true
      · rw [if_pos h, if_pos h, List.erase_cons_head]
      · rw [if_neg h, if_neg h]
    · rw [List.erase_cons_tail (by simpa using hxa), List.filter_cons,
        List.filter_cons]
      by_cases h : p x = true
      · rw [if_pos h, if_pos h, filter_erase a p t]
        by_cases ha : p a = true
        · rw [if_pos ha, if_pos ha, List.erase_cons_tail (by simpa using hxa)]
        · rw [if_neg ha, if_neg ha]
      · rw [if_neg h, if_neg h, filter_erase a p t]

theorem filter_erase_pair (a : Nat × Nat) (p : Nat × Nat → Bool) :
    ∀ l : List (Nat × Nat), (l.erase a).filter p =
      if p a = true then (l.filter p).erase a else l.filter p
  | [] => by
    by_cases h : p a = true <;> simp [h]
  | x :: t => by
    by_cases hxa : x = a
    · subst hxa
      rw [List.erase_cons_head, List.filter_cons]
      by_cases h : p x = true
      · rw [if_pos h, if_pos h, List.erase_cons_head]
      · rw [if_neg h, if_neg h]
    · rw [List.erase_cons_tail (by simpa using hxa), List.filter_cons,
        List.filter_cons]
      by_cases h : p x = true
      · rw [if_pos h, if_pos h, filter_erase_pair a p t]
        by_cases ha : p a = true
        · rw [if_pos ha, if_pos ha, List.erase_cons_tail (by simpa using hxa)]
        · rw [if_neg ha, if_neg ha]
      · rw [if_neg h, if_neg h, filter_erase_pair a p t]

theorem inducedGraph_wfb {G : FGraph} (hw : G.wfb = true) (c : List Nat) :
    (inducedGraph G c).wfb = true := by
  obtain ⟨hvnd, hend, hedges⟩ := wfb_iff.mp hw
  rw [wfb_iff]
  refine ⟨hvnd.filter _, hend.filter _, ?_⟩
  intro e he
  have he' : e ∈ G.edges.filter (fun e => e.1 ∈ c && e.2 ∈ c) := he
  obtain ⟨heG, hcond⟩ := List.mem_filter.mp he'
  rw [Bool.and_eq_true, decide_eq_true_iff, decide_eq_true_iff] at hcond
  refine ⟨?_, ?_, (hedges e heG).2.2⟩
  · show e.1 ∈ G.verts.filter (· ∈ c)
    rw [List.mem_filter, decide_eq_true_iff]
    exact ⟨(hedges e heG).1, hcond.1⟩
  · show e.2 ∈ G.verts.filter (· ∈ c)
    rw [List.mem_filter, decide_eq_true_iff]
    exact ⟨(hedges e heG).2.1, hcond.2⟩

theorem inducedGraph_neighbors {G : FGraph} {c : List Nat} {v : Nat}
    (hv : v ∈ c) :
    (inducedGraph G c).neighbors v = (G.neighbors v).filter (· ∈ c) := by
  show (G.edges.filter _).filterMap _ = _
  unfold FGraph.neighbors
  induction G.edges with
  | nil => rfl
  | cons e t ih =>
    by_cases hc1 : e.1 ∈ c <;> by_cases hc2 : e.2 ∈ c
    · by_cases h1 : e.1 = v
      · simp [List.filter_cons, List.filterMap_cons, h1, hv, hc1, hc2, ih]
      · by_cases h2 : e.2 = v
        · simp [List.filter_cons, List.filterMap_cons, h1, h2, hv, hc1, hc2, ih]
        · simp [List.filter_cons, List.filterMap_cons, h1, h2, hc1, hc2, ih]
    · by_cases h1 : e.1 = v
      · simp [List.filter_cons, List.filterMap_cons, h1, hc1, hc2, ih]
      · by_cases h2 : e.2 = v
        · have hc1' : e.1 ∉ c := by
            intro hcon
            exact hc2 (h2 ▸ hv)
          simp [List.filter_cons, List.filterMap_cons, h1, h2, hc1', ih]
        · simp [List.filter_cons, List.filterMap_cons, h1, h2, hc2, ih]
    · by_cases h1 : e.1 = v
      · exact absurd (h1 ▸ hv) hc1
      · by_cases h2 : e.2 = v
        · simp [List.filter_cons, List.filterMap_cons, h1, h2, hc1, hc2, ih]
        · simp [List.filter_cons, List.filterMap_cons, h1, h2, hc1, ih]
    · by_cases h1 : e.1 = v
      · exact absurd (h1 ▸ hv) hc1
      · by_cases h2 : e.2 = v
        · exact absurd (h2 ▸ hv) hc2
        · simp [List.filter_cons, List.filterMap_cons, h1, h2, hc1, ih]

theorem validRot_induced {G : FGraph} {ρ : List (Nat × List Nat)}
    (hρ : validRot G ρ) (c : List Nat) :
    validRot (inducedGraph G c) (inducedRot c ρ) := by
  intro v hv
  have hv' : v ∈ G.verts.filter (· ∈ c) := hv
  obtain ⟨hvG, hvc⟩ := List.mem_filter.mp hv'
  rw [decide_eq_true_iff] at hvc
  rw [lookupRot_inducedRot, inducedGraph_neighbors hvc]
  exact (hρ v hvG).filter _

/-! Characterisation of the corner-walk `faceOrbit` as an orbit. -/

theorem faceOrbit_walk (σ : Nat × Nat → Nat × Nat) {d : Nat × Nat} {P : Nat}
    (hP0 : 0 < P) (hPd : σ^[P] d = d)
    (hdist : ∀ i k, i < k → k < P → σ^[i] d ≠ σ^[k] d) :
    ∀ fuel j, j ≤ P → P + 1 - j ≤ fuel →
      faceOrbit σ fuel (σ^[j] d)
          (((List.range j).map (fun i => σ^[i] d)).reverse) =
        ((List.range P).map (fun i => σ^[i] d)).reverse := by
  intro fuel
  induction fuel with
  | zero =>
    intro j hj hf
    exact absurd hf (by omega)
  | succ fuel ih =>
    intro j hj hf
    rw [faceOrbit]
    by_cases hjP : j = P
    · subst hjP
      rw [if_pos ?_]
      rw [List.mem_reverse, List.mem_map]
      exact ⟨0, List.mem_range.mpr hP0, by rw [Function.iterate_zero_apply]; exact hPd.symm⟩
    · have hjlt : j < P := lt_of_le_of_ne hj hjP
      rw [if_neg ?_]
      · have hstep : σ (σ^[j] d) = σ^[j + 1] d :=
          (Function.iterate_succ_apply' σ j d).symm
        have hacc : σ^[j] d :: ((List.range j).map (fun i => σ^[i] d)).reverse =
            ((List.range (j + 1)).map (fun i => σ^[i] d)).reverse := by
          rw [List.range_succ, List.map_append, List.reverse_append]
          simp
        rw [hstep, hacc]
        exact ih (j + 1) (by omega) (by omega)
      · intro hmem
        rw [List.mem_reverse, List.mem_map] at hmem
        obtain ⟨i, hi, heq⟩ := hmem
        exact hdist i j (List.mem_range.mp hi) hjlt heq

theorem faceOrbit_eq (σ : Nat × Nat → Nat × Nat) {d : Nat × Nat} {P : Nat}
    (hP0 : 0 < P) (hPd : σ^[P] d = d)
    (hdist : ∀ i k, i < k → k < P → σ^[i] d ≠ σ^[k] d)
    {fuel : Nat} (hfuel : P + 1 ≤ fuel) :
    faceOrbit σ fuel d [] =
      ((List.range P).map (fun i => σ^[i] d)).reverse := by
  have h := faceOrbit_walk σ hP0 hPd hdist fuel 0 (by omega) (by omega)
  simpa using h

theorem faceOrbit_mem {σ : Nat × Nat → Nat × Nat} {D : List (Nat × Nat)}
    (hnd : D.Nodup)
    (hclosed : ∀ x ∈ D, σ x ∈ D)
    (hinj : ∀ x ∈ D, ∀ y ∈ D, σ x = σ y → x = y)
    {d : Nat × Nat} (hd : d ∈ D) {fuel N : Nat}
    (hfuel : D.length + 1 ≤ fuel) (hN : D.length ≤ N) (x : Nat × Nat) :
    x ∈ faceOrbit σ fuel d [] ↔ x ∈ orbSet σ N d := by
  obtain ⟨P, hP0, hPd, hPle, hmin⟩ := exists_min_period hnd hclosed hinj hd
  have hdist := iterates_distinct hclosed hinj hd hmin
  rw [faceOrbit_eq σ hP0 hPd hdist (by omega), mem_orbSet_iff,
    List.mem_reverse, List.mem_map]
  constructor
  · rintro ⟨i, hi, rfl⟩
    exact ⟨i, by have := List.mem_range.mp hi; omega, rfl⟩
  · rintro ⟨i, hiN, rfl⟩
    exact ⟨i % P, List.mem_range.mpr (Nat.mod_lt _ hP0),
      (iterate_mod hP0 hPd i).symm⟩

/-! Corners returned by `cornerOf` are darts of the induced graph. -/

theorem scanForMember_spec {c l : List Nat} :
    ∀ (k y z : Nat), scanForMember c l k y = some z →
      z ∈ c ∧ (y ∈ l → z ∈ l)
  | 0, y, z => by
    intro h
    exact absurd h (by rw [scanForMember]; simp)
  | k + 1, y, z => by
    intro h
    rw [scanForMember] at h
    by_cases hz : cyclicNext l y ∈ c
    · rw [if_pos hz] at h
      obtain rfl : cyclicNext l y = z := by simpa using h
      exact ⟨hz, fun hy => cyclicNext_mem hy⟩
    · rw [if_neg hz] at h
      obtain ⟨hzc, hzl⟩ := scanForMember_spec k (cyclicNext l y) z h
      exact ⟨hzc, fun hy => hzl (cyclicNext_mem hy)⟩

theorem cornerOf_mem_darts {G : FGraph} {ρ : List (Nat × List Nat)}
    (hρ : validRot G ρ) {c : List Nat} {d x : Nat × Nat}
    (hd : d ∈ G.darts) (hd1 : d.1 ∈ c) (hdv : d.1 ∈ G.verts)
    (hx : cornerOf c ρ d = some x) :
    x ∈ (inducedGraph G c).darts := by
  unfold cornerOf at hx
  obtain ⟨a, ha, rfl⟩ := Option.map_eq_some'.mp hx
  obtain ⟨hac, hal⟩ := scanForMember_spec _ _ _ ha
  have hperm := hρ d.1 hdv
  have h2 : d.2 ∈ lookupRot ρ d.1 :=
    hperm.mem_iff.mpr (neighbors_symm.mp (darts_fst_mem_neighbors hd))
  have haN : a ∈ G.neighbors d.1 := hperm.mem_iff.mp (hal h2)
  rw [mem_darts]
  rcases mem_neighbors.mp haN with he | he
  · left
    show (d.1, a) ∈ G.edges.filter _
    rw [List.mem_filter]
    exact ⟨he, by simp [hd1, hac]⟩
  · right
    show (a, d.1) ∈ G.edges.filter _
    rw [List.mem_filter]
    exact ⟨he, by simp [hd1, hac]⟩

theorem cornersList_mem_darts {G : FGraph} {ρ : List (Nat × List Nat)}
    {c : List Nat} (hw : G.wfb = true) (hρ : validRot G ρ) :
    ∀ x ∈ cornersList G ρ c, x ∈ (inducedGraph G c).darts := by
  intro x hx
  unfold cornersList at hx
  obtain ⟨d, hd, hsome⟩ := List.mem_filterMap.mp hx
  obtain ⟨hdD, hcond⟩ := List.mem_filter.mp hd
  rw [Bool.and_eq_true, decide_eq_true_iff] at hcond
  exact cornerOf_mem_darts hρ hdD hcond.1 (darts_fst_mem_verts hw hdD) hsome

/-- `respectsb` holds exactly when every two corners of the cluster lie
on a common face orbit of the induced embedding. -/
theorem respectsb_iff {G : FGraph} {ρ : List (Nat × List Nat)} {c : List Nat}
    (hw : G.wfb = true) (hρ : validRot G ρ) :
    respectsb G ρ c = true ↔
      ∀ x ∈ cornersList G ρ c, ∀ y ∈ cornersList G ρ c,
        y ∈ orbSet (faceSucc (inducedRot c ρ))
          (inducedGraph G c).darts.length x := by
  have hre : respectsb G ρ c =
      (match cornersList G ρ c with
       | [] => true
       | d :: rest => rest.all
           (· ∈ faceOrbit (faceSucc (inducedRot c ρ))
             ((inducedGraph G c).darts.length + 1) d [])) := rfl
  have hwc := inducedGraph_wfb hw c
  have hvalc := validRot_induced hρ c
  have hnd := darts_nodup hwc
  have hclosed : ∀ x ∈ (inducedGraph G c).darts,
      faceSucc (inducedRot c ρ) x ∈ (inducedGraph G c).darts :=
    fun x hx => faceSucc_mem_darts hwc hvalc hx
  have hinj : ∀ x ∈ (inducedGraph G c).darts, ∀ y ∈ (inducedGraph G c).darts,
      faceSucc (inducedRot c ρ) x = faceSucc (inducedRot c ρ) y → x = y :=
    fun x hx y hy h => faceSucc_injOn hwc hvalc hx hy h
  have hcor := cornersList_mem_darts (c := c) hw hρ
  rw [hre]
  cases hc : cornersList G ρ c with
  | nil => simp
  | cons d rest =>
    have hcor' : ∀ x ∈ d :: rest, x ∈ (inducedGraph G c).darts :=
      fun x hx => hcor x (hc ▸ hx)
    have hdD := hcor' d (List.mem_cons_self d rest)
    have hN0 : 0 < (inducedGraph G c).darts.length :=
      List.length_pos_of_mem hdD
    have hfo := faceOrbit_mem hnd hclosed hinj hdD
      (le_refl ((inducedGraph G c).darts.length + 1))
      (le_refl (inducedGraph G c).darts.length)
    constructor
    · intro hall x hx y hy
      rw [List.all_eq_true] at hall
      have horb : ∀ z ∈ d :: rest,
          z ∈ orbSet (faceSucc (inducedRot c ρ))
            (inducedGraph G c).darts.length d := by
        intro z hz
        rcases List.mem_cons.mp hz with rfl | hz'
        · exact mem_orbSet_self hN0 _
        · exact (hfo z).mp (by simpa using hall z hz')
      have hxe := orbSet_eq_of_mem hnd hclosed hinj hdD
        (le_refl (inducedGraph G c).darts.length) (horb x hx)
      rw [hxe]
      exact horb y hy
    · intro hpair
      rw [List.all_eq_true]
      intro z hz
      have h := hpair d (List.mem_cons_self d rest) z (List.mem_cons_of_mem d hz)
      simpa using (hfo z).mpr h

/-! Generic iteration toolkit for maps restricted to a finite list. -/

theorem iterate_mem_gen {α : Type} {f : α → α} {S : List α}
    (hclosed : ∀ x ∈ S, f x ∈ S) {y : α} (hy : y ∈ S) :
    ∀ i, f^[i] y ∈ S := by
  intro i
  induction i with
  | zero => exact hy
  | succ i ih =>
    rw [Function.iterate_succ_apply']
    exact hclosed _ ih

theorem iterate_congr_gen {α : Type} {f g : α → α} {S : List α}
    (hagree : ∀ x ∈ S, f x = g x)
    (hclosed : ∀ x ∈ S, f x ∈ S) {y : α} (hy : y ∈ S) :
    ∀ i, f^[i] y = g^[i] y := by
  intro i
  induction i with
  | zero => rfl
  | succ i ih =>
    rw [Function.iterate_succ_apply', Function.iterate_succ_apply', ← ih]
    exact hagree _ (iterate_mem_gen hclosed hy i)

theorem iterate_cancel_gen {α : Type} {f : α → α} {S : List α}
    (hclosed : ∀ x ∈ S, f x ∈ S)
    (hinj : ∀ x ∈ S, ∀ y ∈ S, f x = f y → x = y) {y : α} (hy : y ∈ S) :
    ∀ i q, f^[i] y = f^[i + q] y → y = f^[q] y := by
  intro i
  induction i with
  | zero =>
    intro q h
    simpa using h
  | succ i ih =>
    intro q h
    refine ih q ?_
    have h1 : f (f^[i] y) = f (f^[i + q] y) := by
      rw [← Function.iterate_succ_apply' f i y,
        ← Function.iterate_succ_apply' f (i + q) y]
      show f^[i + 1] y = f^[i + q + 1] y
      have h2 : i + q + 1 = i + 1 + q := by omega
      rw [h2]
      exact h
    exact hinj _ (iterate_mem_gen hclosed hy i) _ (iterate_mem_gen hclosed hy (i + q)) h1

theorem exists_period_gen {α : Type} [DecidableEq α] {f : α → α} {S : List α}
    (hclosed : ∀ x ∈ S, f x ∈ S)
    (hinj : ∀ x ∈ S, ∀ y ∈ S, f x = f y → x = y) {y : α} (hy : y ∈ S) :
    ∃ P, 0 < P ∧ P ≤ S.length ∧ f^[P] y = y := by
  by_contra hcon
  push_neg at hcon
  have hdist : ∀ i k, i < k → k ≤ S.length → f^[i] y ≠ f^[k] y := by
    intro i k hik hkS heq
    have h1 : f^[i] y = f^[i + (k - i)] y := by
      rw [Nat.add_sub_cancel' (Nat.le_of_lt hik)]
      exact heq
    have h2 := iterate_cancel_gen hclosed hinj hy i (k - i) h1
    exact hcon (k - i) (by omega) (by omega) h2.symm
  have hnd : ((List.range (S.length + 1)).map (fun i => f^[i] y)).Nodup := by
    refine List.Nodup.map_on ?_ (List.nodup_range _)
    intro i hi k hk heq
    rcases Nat.lt_trichotomy i k with h | h | h
    · exact absurd heq (hdist i k h (by have := List.mem_range.mp hk; omega))
    · exact h
    · exact absurd heq.symm (hdist k i h (by have := List.mem_range.mp hi; omega))
  have hsub : ((List.range (S.length + 1)).map (fun i => f^[i] y)) ⊆ S := by
    intro x hx
    obtain ⟨i, _, rfl⟩ := List.mem_map.mp hx
    exact iterate_mem_gen hclosed hy i
  have hlen := (List.subperm_of_subset hnd hsub).length_le
  rw [List.length_map, List.length_range] at hlen
  omega

theorem iterate_mod_gen {α : Type} {f : α → α} {y : α} {P : Nat} (hP0 : 0 < P)
    (hPy : f^[P] y = y) : ∀ i, f^[i] y = f^[i % P] y := by
  intro i
  induction i using Nat.strong_induction_on with
  | _ i ih =>
    rcases Nat.lt_or_ge i P with h | h
    · rw [Nat.mod_eq_of_lt h]
    · have h1 : i = (i - P) + P := by omega
      have h2 : i % P = (i - P) % P := by
        conv_lhs => rw [h1]
        rw [Nat.add_mod_right]
      conv_lhs => rw [h1]
      rw [Function.iterate_add_apply, hPy, ih (i - P) (by omega), h2]

/-! The member scan as a first-hit search along cyclic-successor iterates. -/

theorem scanForMember_some_iff {c l : List Nat} :
    ∀ (k y z : Nat), scanForMember c l k y = some z ↔
      ∃ i, i < k ∧ (cyclicNext l)^[i + 1] y = z ∧ z ∈ c ∧
        ∀ j, j < i → (cyclicNext l)^[j + 1] y ∉ c
  | 0, y, z => by
    constructor
    · intro h
      exact absurd h (by rw [scanForMember]; simp)
    · rintro ⟨i, hi, -⟩
      omega
  | k + 1, y, z => by
    rw [scanForMember]
    by_cases hz : cyclicNext l y ∈ c
    · rw [if_pos hz]
      constructor
      · intro h
        obtain rfl : cyclicNext l y = z := by simpa using h
        exact ⟨0, by omega, by simp, hz, fun j hj => absurd hj (by omega)⟩
      · rintro ⟨i, hi, hit, hzc, hmin⟩
        rcases Nat.eq_zero_or_pos i with rfl | hi0
        · have h1 : cyclicNext l y = z := by simpa using hit
          rw [h1]
        · have h2 := hmin 0 hi0
          simp at h2
          exact absurd hz h2
    · rw [if_neg hz]
      rw [scanForMember_some_iff k (cyclicNext l y) z]
      constructor
      · rintro ⟨i, hi, hit, hzc, hmin⟩
        refine ⟨i + 1, by omega, ?_, hzc, ?_⟩
        · rw [Function.iterate_succ_apply (cyclicNext l) (i + 1) y]
          exact hit
        · intro j hj
          rcases Nat.eq_zero_or_pos j with rfl | hj0
          · simpa using hz
          · obtain ⟨j', rfl⟩ : ∃ j', j = j' + 1 := ⟨j - 1, by omega⟩
            have h3 := hmin j' (by omega)
            rw [Function.iterate_succ_apply (cyclicNext l) (j' + 1) y]
            exact h3
      · rintro ⟨i, hi, hit, hzc, hmin⟩
        rcases Nat.eq_zero_or_pos i with rfl | hi0
        · have h1 : cyclicNext l y = z := by simpa using hit
          exact absurd (h1 ▸ hzc) hz
        · obtain ⟨i', rfl⟩ : ∃ i', i = i' + 1 := ⟨i - 1, by omega⟩
          refine ⟨i', by omega, ?_, hzc, ?_⟩
          · rw [← Function.iterate_succ_apply (cyclicNext l) (i' + 1) y]
            exact hit
          · intro j hj
            have h3 := hmin (j + 1) (by omega)
            rw [Function.iterate_succ_apply (cyclicNext l) (j + 1) y] at h3
            exact h3

theorem scan_of_iterate {c l : List Nat} {w : Nat} (hw : w ∈ c) :
    ∀ (i k y : Nat), y ∈ l → (cyclicNext l)^[i + 1] y = w → i + 1 ≤ k →
      ∃ z, scanForMember c l k y = some z
  | _, 0, _ => by
    intro _ _ h
    omega
  | 0, k + 1, y => by
    intro hy hit _
    rw [scanForMember]
    have h1 : cyclicNext l y = w := by simpa using hit
    rw [h1, if_pos hw]
    exact ⟨w, rfl⟩
  | i + 1, k + 1, y => by
    intro hy hit hk
    rw [scanForMember]
    by_cases hz : cyclicNext l y ∈ c
    · rw [if_pos hz]
      exact ⟨_, rfl⟩
    · rw [if_neg hz]
      refine scan_of_iterate hw i k (cyclicNext l y) (cyclicNext_mem hy) ?_ (by omega)
      rw [← Function.iterate_succ_apply (cyclicNext l) (i + 1) y]
      exact hit

/-- Deleting a non-member of the target set from the scanned cyclic
order does not change a successful member scan. -/
theorem scan_erase_some {c l : List Nat} {a y z : Nat} (hnd : l.Nodup)
    (ha : a ∈ l) (hac : a ∉ c) (hy : y ∈ l) (hya : y ≠ a)
    (h : scanForMember c (l.erase a) (l.erase a).length y = some z) :
    scanForMember c l l.length y = some z := by
  have hy' : y ∈ l.erase a := (List.Nodup.mem_erase_iff hnd).mpr ⟨hya, hy⟩
  have hndE : (l.erase a).Nodup := hnd.erase a
  have hclosedE : ∀ x ∈ l.erase a, cyclicNext (l.erase a) x ∈ l.erase a :=
    fun x hx => cyclicNext_mem hx
  have hclosedL : ∀ x ∈ l, cyclicNext l x ∈ l :=
    fun x hx => cyclicNext_mem hx
  have hinjL : ∀ x ∈ l, ∀ x' ∈ l, cyclicNext l x = cyclicNext l x' → x = x' :=
    fun x hx x' hx' hh => cyclicNext_injOn hnd hx hx' hh
  obtain ⟨i', hi', hitz, hzc, hmin'⟩ := (scanForMember_some_iff _ _ _).mp h
  have hcover : ∀ j : Nat, ∃ m, j ≤ m ∧
      (cyclicNext (l.erase a))^[j] y = (cyclicNext l)^[m] y ∧
      ∀ t, 1 ≤ t → t ≤ m → (cyclicNext l)^[t] y = a ∨
        ∃ j', 1 ≤ j' ∧ j' ≤ j ∧
          (cyclicNext l)^[t] y = (cyclicNext (l.erase a))^[j'] y := by
    intro j
    induction j with
    | zero => exact ⟨0, le_refl 0, rfl, fun t ht1 htm => by omega⟩
    | succ j ih =>
      obtain ⟨m, hjm, heq, hcov⟩ := ih
      have hxE : (cyclicNext (l.erase a))^[j] y ∈ l.erase a :=
        iterate_mem_gen hclosedE hy' j
      have hxl : (cyclicNext (l.erase a))^[j] y ∈ l := List.mem_of_mem_erase hxE
      have hxa : (cyclicNext (l.erase a))^[j] y ≠ a :=
        ((List.Nodup.mem_erase_iff hnd).mp hxE).1
      by_cases hca : cyclicNext l ((cyclicNext (l.erase a))^[j] y) = a
      · have hstep : cyclicNext (l.erase a) ((cyclicNext (l.erase a))^[j] y) =
            cyclicNext l a :=
          cyclicNext_erase_eq hnd ha hxl hxa hca
        have e1 : (cyclicNext l)^[m + 1] y = a := by
          rw [Function.iterate_succ_apply' (cyclicNext l) m y, ← heq]
          exact hca
        have e2 : (cyclicNext l)^[m + 2] y = cyclicNext l a := by
          rw [show m + 2 = m + 1 + 1 from rfl,
            Function.iterate_succ_apply' (cyclicNext l) (m + 1) y, e1]
        have e3 : (cyclicNext (l.erase a))^[j + 1] y = cyclicNext l a := by
          rw [Function.iterate_succ_apply' (cyclicNext (l.erase a)) j y, hstep]
        refine ⟨m + 2, by omega, by rw [e3, e2], ?_⟩
        intro t ht1 htm
        rcases Nat.lt_or_ge t (m + 1) with h1 | h1
        · rcases hcov t ht1 (by omega) with hl | ⟨j', hj1, hj2, hj3⟩
          · exact Or.inl hl
          · exact Or.inr ⟨j', hj1, by omega, hj3⟩
        · rcases Nat.eq_or_lt_of_le h1 with h2 | h2
          · left
            rw [← h2]
            exact e1
          · have h3 : t = m + 2 := by omega
            right
            exact ⟨j + 1, by omega, le_refl _, by rw [h3, e2, e3]⟩
      · have hstep : cyclicNext (l.erase a) ((cyclicNext (l.erase a))^[j] y) =
            cyclicNext l ((cyclicNext (l.erase a))^[j] y) :=
          cyclicNext_erase_ne hnd ha hxl hxa hca
        have e2 : (cyclicNext l)^[m + 1] y =
            cyclicNext l ((cyclicNext (l.erase a))^[j] y) := by
          rw [Function.iterate_succ_apply' (cyclicNext l) m y, ← heq]
        have e3 : (cyclicNext (l.erase a))^[j + 1] y =
            cyclicNext l ((cyclicNext (l.erase a))^[j] y) := by
          rw [Function.iterate_succ_apply' (cyclicNext (l.erase a)) j y, hstep]
        refine ⟨m + 1, by omega, by rw [e3, e2], ?_⟩
        intro t ht1 htm
        rcases Nat.lt_or_ge t (m + 1) with h1 | h1
        · rcases hcov t ht1 (by omega) with hl | ⟨j', hj1, hj2, hj3⟩
          · exact Or.inl hl
          · exact Or.inr ⟨j', hj1, by omega, hj3⟩
        · have h3 : t = m + 1 := by omega
          right
          exact ⟨j + 1, by omega, le_refl _, by rw [h3, e2, e3]⟩
  obtain ⟨M, hM, hMz, hcov⟩ := hcover (i' + 1)
  have hMz' : (cyclicNext l)^[M] y = z := by
    rw [← hMz]
    exact hitz
  obtain ⟨P, hP0, hPle, hPy⟩ := exists_period_gen hclosedL hinjL hy
  have hidx : ∃ i, i + 1 ≤ l.length ∧ (cyclicNext l)^[i + 1] y = z := by
    have hmod := iterate_mod_gen hP0 hPy M
    rcases Nat.eq_zero_or_pos (M % P) with h0 | hpos
    · have hzy : z = y := by
        rw [← hMz', hmod, h0]
        rfl
      exact ⟨P - 1, by omega,
        by rw [show P - 1 + 1 = P from by omega, hPy, hzy]⟩
    · exact ⟨M % P - 1, by have := Nat.mod_lt M hP0; omega, by
        rw [show M % P - 1 + 1 = M % P from by omega, ← hmod, hMz']⟩
  obtain ⟨i0, hi0, hit0⟩ := hidx
  obtain ⟨w, hwscan⟩ := scan_of_iterate hzc i0 l.length y hy hit0 hi0
  obtain ⟨t0, ht0, hitw, hwc, hminw⟩ := (scanForMember_some_iff _ _ _).mp hwscan
  rcases Nat.lt_or_ge t0 M with hlt | hge
  · rcases hcov (t0 + 1) (by omega) (by omega) with hla | ⟨j', hj1, hj2, hj3⟩
    · have hwa : w = a := by rw [← hitw, hla]
      exact absurd (hwa ▸ hwc) hac
    · rcases Nat.lt_or_ge j' (i' + 1) with hj | hj
      · have h5 := hmin' (j' - 1) (by omega)
        rw [show j' - 1 + 1 = j' from by omega] at h5
        have h6 : (cyclicNext (l.erase a))^[j'] y = w := by rw [← hj3, hitw]
        exact absurd (h6 ▸ hwc) h5
      · have hj'e : j' = i' + 1 := by omega
        have h6 : w = z := by rw [← hitw, hj3, hj'e, hitz]
        rw [← h6]
        exact hwscan
  · have h5 := hminw (M - 1) (by omega)
    rw [show M - 1 + 1 = M from by omega] at h5
    exact absurd (hMz' ▸ hzc) h5

/-! Cluster respect is preserved when the deleted edge is not internal
to the cluster. -/

theorem inducedGraph_removeEdge_notmem {G : FGraph} {e : Nat × Nat}
    {c : List Nat} (hno : ¬(e.1 ∈ c ∧ e.2 ∈ c)) :
    inducedGraph (G.removeEdge e) c = inducedGraph G c := by
  show FGraph.mk _ _ = FGraph.mk _ _
  congr 1
  show (G.edges.erase e).filter _ = G.edges.filter _
  rw [filter_erase_pair]
  rw [if_neg]
  intro hcon
  rw [Bool.and_eq_true, decide_eq_true_iff, decide_eq_true_iff] at hcon
  exact hno hcon

theorem induced_darts_mem_c {G : FGraph} {c : List Nat} {x : Nat × Nat}
    (hx : x ∈ (inducedGraph G c).darts) : x.1 ∈ c ∧ x.2 ∈ c := by
  rcases mem_darts.mp hx with h | h
  · have h' : x ∈ G.edges.filter (fun e => e.1 ∈ c && e.2 ∈ c) := h
    have := (List.mem_filter.mp h').2
    rw [Bool.and_eq_true, decide_eq_true_iff, decide_eq_true_iff] at this
    exact this
  · have h' : (x.2, x.1) ∈ G.edges.filter (fun e => e.1 ∈ c && e.2 ∈ c) := h
    have := (List.mem_filter.mp h').2
    rw [Bool.and_eq_true, decide_eq_true_iff, decide_eq_true_iff] at this
    exact ⟨this.2, this.1⟩

theorem lookup_induced_delete_eq {G : FGraph} {e : Nat × Nat}
    {ρ : List (Nat × List Nat)} {c : List Nat}
    (hno : ¬(e.1 ∈ c ∧ e.2 ∈ c)) {v : Nat} (hv : v ∈ G.verts) (hvc : v ∈ c) :
    lookupRot (inducedRot c (deleteRotSys G e ρ)) v =
      lookupRot (inducedRot c ρ) v := by
  rw [lookupRot_inducedRot, lookupRot_inducedRot, lookupRot_deleteRotSys e ρ hv]
  by_cases h1 : v = e.1
  · rw [if_pos h1, filter_erase, if_neg]
    rw [decide_eq_true_iff]
    intro hcon
    exact hno ⟨h1 ▸ hvc, hcon⟩
  · rw [if_neg h1]
    by_cases h2 : v = e.2
    · rw [if_pos h2, filter_erase, if_neg]
      rw [decide_eq_true_iff]
      intro hcon
      exact hno ⟨hcon, h2 ▸ hvc⟩
    · rw [if_neg h2]

theorem faceSucc_induced_delete_eq {G : FGraph} (hw : G.wfb = true)
    {e : Nat × Nat} {ρ : List (Nat × List Nat)} {c : List Nat}
    (hno : ¬(e.1 ∈ c ∧ e.2 ∈ c)) {x : Nat × Nat}
    (hx : x ∈ (inducedGraph G c).darts) :
    faceSucc (inducedRot c (deleteRotSys G e ρ)) x =
      faceSucc (inducedRot c ρ) x := by
  have hc := (induced_darts_mem_c hx).2
  have hv : x.2 ∈ G.verts := by
    have h1 := darts_snd_mem_verts (inducedGraph_wfb hw c) hx
    have h2 : x.2 ∈ G.verts.filter (· ∈ c) := h1
    exact (List.mem_filter.mp h2).1
  unfold faceSucc
  rw [lookup_induced_delete_eq hno hv hc]

theorem orbSet_congr {σ₁ σ₂ : Nat × Nat → Nat × Nat} {D : List (Nat × Nat)}
    (hagree : ∀ x ∈ D, σ₁ x = σ₂ x) (hclosed : ∀ x ∈ D, σ₁ x ∈ D)
    {d : Nat × Nat} (hd : d ∈ D) (N : Nat) :
    orbSet σ₁ N d = orbSet σ₂ N d := by
  ext x
  rw [mem_orbSet_iff, mem_orbSet_iff]
  constructor <;> rintro ⟨i, hi, rfl⟩
  · exact ⟨i, hi, (iterate_congr_gen hagree hclosed hd i).symm⟩
  · exact ⟨i, hi, iterate_congr_gen hagree hclosed hd i⟩

theorem cornerOf_delete_notmem {G : FGraph} (hw : G.wfb = true)
    {e : Nat × Nat} (he : e ∈ G.edges) {ρ : List (Nat × List Nat)}
    (hρ : validRot G ρ) {c : List Nat} (hno : ¬(e.1 ∈ c ∧ e.2 ∈ c))
    {d x : Nat × Nat} (hd : d ∈ (G.removeEdge e).darts) (hd1 : d.1 ∈ c)
    (hx : cornerOf c (deleteRotSys G e ρ) d = some x) :
    cornerOf c ρ d = some x := by
  obtain ⟨hdG, hdne, hdns⟩ := (mem_darts_removeEdge hw he).mp hd
  have hdv : d.1 ∈ G.verts := darts_fst_mem_verts hw hdG
  have hL := lookupRot_deleteRotSys e ρ (v := d.1) hdv
  have hnd : (lookupRot ρ d.1).Nodup := lookupRot_nodup hw hρ hdv
  have hy : d.2 ∈ lookupRot ρ d.1 :=
    ((hρ d.1 hdv).mem_iff).mpr (neighbors_symm.mp (darts_fst_mem_neighbors hdG))
  by_cases h1 : d.1 = e.1
  · have he2c : e.2 ∉ c := fun hcon => hno ⟨h1 ▸ hd1, hcon⟩
    have ha : e.2 ∈ lookupRot ρ d.1 := by
      refine ((hρ d.1 hdv).mem_iff).mpr ?_
      rw [h1]
      exact mem_neighbors.mpr (Or.inl (by simpa using he))
    have hya : d.2 ≠ e.2 := by
      intro hcon
      apply hdne
      have : d = (d.1, d.2) := rfl
      rw [this, h1, hcon]
    rw [if_pos h1] at hL
    unfold cornerOf at hx ⊢
    rw [hL] at hx
    obtain ⟨a0, ha0, rfl⟩ := Option.map_eq_some'.mp hx
    rw [scan_erase_some hnd ha he2c hy hya ha0]
    rfl
  · by_cases h2 : d.1 = e.2
    · have he1c : e.1 ∉ c := fun hcon => hno ⟨hcon, h2 ▸ hd1⟩
      have ha : e.1 ∈ lookupRot ρ d.1 := by
        refine ((hρ d.1 hdv).mem_iff).mpr ?_
        rw [h2]
        exact mem_neighbors.mpr (Or.inr (by simpa using he))
      have hya : d.2 ≠ e.1 := by
        intro hcon
        apply hdns
        have : d = (d.1, d.2) := rfl
        rw [this, h2, hcon]
      rw [if_neg h1, if_pos h2] at hL
      unfold cornerOf at hx ⊢
      rw [hL] at hx
      obtain ⟨a0, ha0, rfl⟩ := Option.map_eq_some'.mp hx
      rw [scan_erase_some hnd ha he1c hy hya ha0]
      rfl
    · rw [if_neg h1, if_neg h2] at hL
      unfold cornerOf at hx ⊢
      rw [hL] at hx
      exact hx

theorem cornersList_delete_notmem {G : FGraph} (hw : G.wfb = true)
    {e : Nat × Nat} (he : e ∈ G.edges) {ρ : List (Nat × List Nat)}
    (hρ : validRot G ρ) {c : List Nat} (hno : ¬(e.1 ∈ c ∧ e.2 ∈ c)) :
    ∀ x ∈ cornersList (G.removeEdge e) (deleteRotSys G e ρ) c,
      x ∈ cornersList G ρ c := by
  intro x hx
  unfold cornersList at hx ⊢
  obtain ⟨d, hd, hsome⟩ := List.mem_filterMap.mp hx
  obtain ⟨hdD, hcond⟩ := List.mem_filter.mp hd
  rw [List.mem_filterMap]
  have hcond' := hcond
  rw [Bool.and_eq_true, decide_eq_true_iff] at hcond'
  refine ⟨d, List.mem_filter.mpr ⟨darts_removeEdge_subset hw he hdD, hcond⟩, ?_⟩
  exact cornerOf_delete_notmem hw he hρ hno hdD hcond'.1 hsome

/-- Case A of edge deletion: if the deleted edge is not internal to the
cluster, `respectsb` is preserved. -/
theorem respectsb_delete_notmem {G : FGraph} (hw : G.wfb = true)
    {e : Nat × Nat} (he : e ∈ G.edges) {ρ : List (Nat × List Nat)}
    (hρ : validRot G ρ) {c : List Nat} (hno : ¬(e.1 ∈ c ∧ e.2 ∈ c))
    (hresp : respectsb G ρ c = true) :
    respectsb (G.removeEdge e) (deleteRotSys G e ρ) c = true := by
  have hw2 := removeEdge_wfb hw e
  have hρ2 := validRot_deleteRotSys hw he hρ
  rw [respectsb_iff hw2 hρ2]
  rw [respectsb_iff hw hρ] at hresp
  rw [inducedGraph_removeEdge_notmem hno]
  intro x hx y hy
  have hx' := cornersList_delete_notmem hw he hρ hno x hx
  have hy' := cornersList_delete_notmem hw he hρ hno y hy
  have hxD : x ∈ (inducedGraph G c).darts := cornersList_mem_darts hw hρ x hx'
  have hagree : ∀ t ∈ (inducedGraph G c).darts,
      faceSucc (inducedRot c (deleteRotSys G e ρ)) t =
        faceSucc (inducedRot c ρ) t :=
    fun t ht => faceSucc_induced_delete_eq hw hno ht
  have hclosed : ∀ t ∈ (inducedGraph G c).darts,
      faceSucc (inducedRot c (deleteRotSys G e ρ)) t ∈ (inducedGraph G c).darts := by
    intro t ht
    rw [hagree t ht]
    exact faceSucc_mem_darts (inducedGraph_wfb hw c) (validRot_induced hρ c) ht
  rw [orbSet_congr hagree hclosed hxD]
  exact hresp x hx' y hy'

/-! Congruence of the face count under pointwise-equal rotations, and
stability of orbit enumeration in the iteration bound. -/

theorem orbitsOf_congr {σ₁ σ₂ : Nat × Nat → Nat × Nat} {D : List (Nat × Nat)}
    (hagree : ∀ x ∈ D, σ₁ x = σ₂ x) (hclosed : ∀ x ∈ D, σ₁ x ∈ D) (N : Nat) :
    orbitsOf σ₁ N D = orbitsOf σ₂ N D := by
  unfold orbitsOf
  congr 1
  exact List.map_congr_left (fun d hd => orbSet_congr hagree hclosed hd N)

theorem orbSet_stable {σ : Nat × Nat → Nat × Nat} {D : List (Nat × Nat)}
    (hnd : D.Nodup)
    (hclosed : ∀ x ∈ D, σ x ∈ D)
    (hinj : ∀ x ∈ D, ∀ y ∈ D, σ x = σ y → x = y)
    {x : Nat × Nat} (hx : x ∈ D) {N₁ N₂ : Nat}
    (h1 : D.length ≤ N₁) (h2 : D.length ≤ N₂) :
    orbSet σ N₁ x = orbSet σ N₂ x := by
  obtain ⟨P, hP0, hPd, hPle, -⟩ := exists_min_period hnd hclosed hinj hx
  exact orbSet_eq_of_period hP0 hPd (le_trans hPle h1) (le_trans hPle h2)

theorem faceCount_congr {G : FGraph} (hw : G.wfb = true)
    {ρ₁ ρ₂ : List (Nat × List Nat)} (hρ₁ : validRot G ρ₁)
    (hagree : ∀ v ∈ G.verts, lookupRot ρ₁ v = lookupRot ρ₂ v) :
    faceCount G ρ₁ = faceCount G ρ₂ := by
  have hagreeD : ∀ x ∈ G.darts, faceSucc ρ₁ x = faceSucc ρ₂ x := by
    intro x hx
    unfold faceSucc
    rw [hagree x.2 (darts_snd_mem_verts hw hx)]
  have hclosed : ∀ x ∈ G.darts, faceSucc ρ₁ x ∈ G.darts :=
    fun x hx => faceSucc_mem_darts hw hρ₁ hx
  have hinj : ∀ x ∈ G.darts, ∀ y ∈ G.darts,
      faceSucc ρ₁ x = faceSucc ρ₁ y → x = y :=
    fun x hx y hy h => faceSucc_injOn hw hρ₁ hx hy h
  unfold faceCount
  congr 1
  rw [countOrbits_eq_card G.darts.length G.darts (darts_nodup hw) hclosed hinj
    (le_refl _) G.darts.length (le_refl _)]
  rw [countOrbits_eq_card G.darts.length G.darts (darts_nodup hw)
    (fun x hx => (hagreeD x hx) ▸ hclosed x hx)
    (fun x hx y hy h => hinj x hx y hy
      (by rw [hagreeD x hx, hagreeD y hy]; exact h))
    (le_refl _) G.darts.length (le_refl _)]
  rw [orbitsOf_congr hagreeD hclosed]

theorem planarCheck_congr {G : FGraph} (hw : G.wfb = true)
    {ρ₁ ρ₂ : List (Nat × List Nat)} (hρ₁ : validRot G ρ₁)
    (hagree : ∀ v ∈ G.verts, lookupRot ρ₁ v = lookupRot ρ₂ v) :
    planarCheck G ρ₁ = planarCheck G ρ₂ := by
  unfold planarCheck
  rw [faceCount_congr hw hρ₁ hagree]

theorem validRot_congr {G : FGraph} {ρ₁ ρ₂ : List (Nat × List Nat)}
    (hρ₁ : validRot G ρ₁)
    (hagree : ∀ v ∈ G.verts, lookupRot ρ₁ v = lookupRot ρ₂ v) :
    validRot G ρ₂ := by
  intro v hv
  rw [← hagree v hv]
  exact hρ₁ v hv

/-! When every edge is internal to the cluster, the induced graph keeps
the edges and loses only isolated outside vertices. -/

theorem length_filter_not (p : Nat → Bool) :
    ∀ l : List Nat,
      (l.filter p).length + (l.filter (fun x => !(p x))).length = l.length
  | [] => rfl
  | x :: t => by
    have ih := length_filter_not p t
    rw [List.filter_cons, List.filter_cons]
    by_cases h : p x = true
    · rw [if_pos h, if_neg (by rw [h]; simp)]
      simp only [List.length_cons]
      omega
    · rw [if_neg h, if_pos (by rw [Bool.not_eq_true] at h; rw [h]; rfl)]
      simp only [List.length_cons]
      omega

theorem filter_filter_and (p q : Nat → Bool) :
    ∀ l : List Nat, (l.filter q).filter p = l.filter (fun x => q x && p x)
  | [] => rfl
  | x :: t => by
    have ih := filter_filter_and p q t
    rw [List.filter_cons, List.filter_cons]
    by_cases hq : q x = true
    · rw [if_pos hq, List.filter_cons]
      by_cases hp : p x = true
      · rw [if_pos hp, if_pos (by rw [hq, hp]; rfl), ih]
      · rw [if_neg hp, if_neg (by rw [hq]; simpa using hp), ih]
    · rw [if_neg hq,
        if_neg (by intro hcon; rw [Bool.and_eq_true] at hcon; exact hq hcon.1),
        ih]

theorem edges_induced_all {G : FGraph} {c : List Nat}
    (hall : ∀ e ∈ G.edges, e.1 ∈ c ∧ e.2 ∈ c) :
    (inducedGraph G c).edges = G.edges := by
  show G.edges.filter _ = G.edges
  rw [List.filter_eq_self]
  intro e he
  rw [Bool.and_eq_true, decide_eq_true_iff, decide_eq_true_iff]
  exact hall e he

theorem neighbors_induced_all {G : FGraph} {c : List Nat}
    (hall : ∀ e ∈ G.edges, e.1 ∈ c ∧ e.2 ∈ c) (v : Nat) :
    (inducedGraph G c).neighbors v = G.neighbors v := by
  unfold FGraph.neighbors
  rw [show (inducedGraph G c).edges = G.edges from edges_induced_all hall]

theorem neighbor_in_c {G : FGraph} {c : List Nat}
    (hall : ∀ e ∈ G.edges, e.1 ∈ c ∧ e.2 ∈ c) {v w : Nat}
    (h : w ∈ G.neighbors v) : w ∈ c ∧ v ∈ c := by
  rcases mem_neighbors.mp h with he | he
  · exact ⟨(hall _ he).2, (hall _ he).1⟩
  · exact ⟨(hall _ he).1, (hall _ he).2⟩

theorem Reaches_induced_all {G : FGraph} {c : List Nat}
    (hall : ∀ e ∈ G.edges, e.1 ∈ c ∧ e.2 ∈ c) (u x : Nat) :
    Reaches (inducedGraph G c) u x ↔ Reaches G u x := by
  unfold Reaches
  rw [show (fun u w => w ∈ (inducedGraph G c).neighbors u) =
      (fun u w => w ∈ G.neighbors u) from
    by funext u w; rw [neighbors_induced_all hall]]

theorem compF_induced_all {G : FGraph} (hw : G.wfb = true) {c : List Nat}
    (hall : ∀ e ∈ G.edges, e.1 ∈ c ∧ e.2 ∈ c) {v : Nat}
    (hv : v ∈ (inducedGraph G c).verts) :
    compF (inducedGraph G c) v = compF G v := by
  have hv' : v ∈ G.verts.filter (· ∈ c) := hv
  obtain ⟨hvG, hvc⟩ := List.mem_filter.mp hv'
  rw [decide_eq_true_iff] at hvc
  ext x
  rw [compF, compF, List.mem_toFinset, List.mem_toFinset,
    mem_reachFrom_iff (inducedGraph_wfb hw c) hv, mem_reachFrom_iff hw hvG,
    Reaches_induced_all hall]
  constructor
  · rintro ⟨hxv, hr⟩
    have hxv' : x ∈ G.verts.filter (· ∈ c) := hxv
    exact ⟨(List.mem_filter.mp hxv').1, hr⟩
  · rintro ⟨hxv, hr⟩
    refine ⟨?_, hr⟩
    have hxc : x ∈ c := by
      rcases Relation.ReflTransGen.cases_tail hr with heq | ⟨u, -, hstep⟩
      · rw [heq]
        exact hvc
      · exact (neighbor_in_c hall hstep).1
    show x ∈ G.verts.filter (· ∈ c)
    rw [List.mem_filter, decide_eq_true_iff]
    exact ⟨hxv, hxc⟩

theorem compF_isolated {G : FGraph} (hw : G.wfb = true) {v : Nat}
    (hv : v ∈ G.verts) (hiso : G.neighbors v = []) :
    compF G v = {v} := by
  ext x
  rw [compF, List.mem_toFinset, mem_reachFrom_iff hw hv, Finset.mem_singleton]
  constructor
  · rintro ⟨hxv, hr⟩
    rcases Relation.ReflTransGen.cases_head hr with heq | ⟨u, hstep, -⟩
    · exact heq.symm
    · rw [hiso] at hstep
      exact absurd hstep (List.not_mem_nil u)
  · rintro rfl
    exact ⟨hv, Relation.ReflTransGen.refl⟩

theorem compCount_induced_all {G : FGraph} (hw : G.wfb = true) {c : List Nat}
    (hall : ∀ e ∈ G.edges, e.1 ∈ c ∧ e.2 ∈ c) :
    G.compCount + (inducedGraph G c).verts.length =
      (inducedGraph G c).compCount + G.verts.length := by
  have hwc := inducedGraph_wfb hw c
  have hvnd := (wfb_iff.mp hw).1
  rw [compCount_spec hw, compCount_spec hwc]
  have hout_iso : ∀ v ∈ G.verts, v ∉ c → G.neighbors v = [] := by
    intro v _ hvc
    cases hnb : G.neighbors v with
    | nil => rfl
    | cons w t =>
      exact absurd (neighbor_in_c hall (by rw [hnb]; exact List.mem_cons_self w t)).2 hvc
  have hset : (G.verts.map (compF G)).toFinset =
      ((inducedGraph G c).verts.map (compF (inducedGraph G c))).toFinset ∪
        ((G.verts.filter (fun v => !(decide (v ∈ c)))).map
          (fun v => ({v} : Finset Nat))).toFinset := by
    ext A
    rw [Finset.mem_union, List.mem_toFinset, List.mem_toFinset,
      List.mem_toFinset, List.mem_map, List.mem_map, List.mem_map]
    constructor
    · rintro ⟨v, hv, rfl⟩
      by_cases hvc : v ∈ c
      · left
        have hvc' : v ∈ (inducedGraph G c).verts := by
          show v ∈ G.verts.filter (· ∈ c)
          rw [List.mem_filter, decide_eq_true_iff]
          exact ⟨hv, hvc⟩
        exact ⟨v, hvc', compF_induced_all hw hall hvc'⟩
      · right
        refine ⟨v, ?_, (compF_isolated hw hv (hout_iso v hv hvc)).symm⟩
        rw [List.mem_filter]
        simpa using ⟨hv, hvc⟩
    · rintro (⟨v, hv, rfl⟩ | ⟨v, hv, rfl⟩)
      · have hv' : v ∈ G.verts.filter (· ∈ c) := hv
        obtain ⟨hvG, -⟩ := List.mem_filter.mp hv'
        exact ⟨v, hvG, (compF_induced_all hw hall hv).symm⟩
      · rw [List.mem_filter] at hv
        obtain ⟨hvG, hvnc⟩ := hv
        have hvnc' : v ∉ c := by simpa using hvnc
        exact ⟨v, hvG, compF_isolated hw hvG (hout_iso v hvG hvnc')⟩
  have hdisj : Disjoint
      (((inducedGraph G c).verts.map (compF (inducedGraph G c))).toFinset)
      (((G.verts.filter (fun v => !(decide (v ∈ c)))).map
        (fun v => ({v} : Finset Nat))).toFinset) := by
    rw [Finset.disjoint_left]
    intro A hA hB
    rw [List.mem_toFinset, List.mem_map] at hA hB
    obtain ⟨v, hv, rfl⟩ := hA
    obtain ⟨w, hwmem, hweq⟩ := hB
    rw [List.mem_filter] at hwmem
    have hwnc : w ∉ c := by simpa using hwmem.2
    have hv' : v ∈ G.verts.filter (· ∈ c) := hv
    obtain ⟨-, hvc⟩ := List.mem_filter.mp hv'
    rw [decide_eq_true_iff] at hvc
    have hvmem : v ∈ compF (inducedGraph G c) v := compF_self v
    rw [← hweq, Finset.mem_singleton] at hvmem
    exact hwnc (hvmem ▸ hvc)
  rw [hset, Finset.card_union_of_disjoint hdisj]
  have hTcard :
      (((G.verts.filter (fun v => !(decide (v ∈ c)))).map
        (fun v => ({v} : Finset Nat))).toFinset).card =
      (G.verts.filter (fun v => !(decide (v ∈ c)))).length := by
    rw [List.toFinset_card_of_nodup]
    · rw [List.length_map]
    · refine List.Nodup.map ?_ (hvnd.filter _)
      intro a b hab
      simpa using hab
  rw [hTcard]
  have hsplit := length_filter_not (fun v => decide (v ∈ c)) G.verts
  have hVc : (inducedGraph G c).verts.length =
      (G.verts.filter (fun v => decide (v ∈ c))).length := rfl
  omega

theorem isolatedCount_induced_all {G : FGraph} (hw : G.wfb = true)
    {c : List Nat} (hall : ∀ e ∈ G.edges, e.1 ∈ c ∧ e.2 ∈ c) :
    G.isolatedCount + (inducedGraph G c).verts.length =
      (inducedGraph G c).isolatedCount + G.verts.length := by
  have hvnd := (wfb_iff.mp hw).1
  have hout_iso : ∀ v ∈ G.verts, v ∉ c → G.neighbors v = [] := by
    intro v _ hvc
    cases hnb : G.neighbors v with
    | nil => rfl
    | cons w t =>
      exact absurd
        (neighbor_in_c hall (by rw [hnb]; exact List.mem_cons_self w t)).2 hvc
  have hisoc : (inducedGraph G c).isolatedCount =
      ((G.verts.filter (fun v => decide (v ∈ c))).filter
        (fun v => decide (G.neighbors v = []))).length := by
    show ((G.verts.filter _).filter
      (fun v => decide ((inducedGraph G c).neighbors v = []))).length = _
    congr 1
    exact List.filter_congr
      (fun v _ => by rw [neighbors_induced_all hall])
  have hisoG : G.isolatedCount =
      (G.verts.filter (fun v => decide (G.neighbors v = []))).length := rfl
  have hsplit1 := length_filter_not (fun v => decide (v ∈ c))
    (G.verts.filter (fun v => decide (G.neighbors v = [])))
  have hff1 := filter_filter_and (fun v => decide (v ∈ c))
    (fun v => decide (G.neighbors v = [])) G.verts
  have hff2 := filter_filter_and (fun v => !(decide (v ∈ c)))
    (fun v => decide (G.neighbors v = [])) G.verts
  have hff3 := filter_filter_and (fun v => decide (G.neighbors v = []))
    (fun v => decide (v ∈ c)) G.verts
  have hcongr1 : G.verts.filter
      (fun v => decide (G.neighbors v = []) && !(decide (v ∈ c))) =
      G.verts.filter (fun v => !(decide (v ∈ c))) := by
    refine List.filter_congr ?_
    intro v hv
    by_cases hvc : v ∈ c
    · simp [hvc]
    · simp [hvc, hout_iso v hv hvc]
  have hcongr2 : G.verts.filter
      (fun v => decide (G.neighbors v = []) && decide (v ∈ c)) =
      G.verts.filter (fun v => decide (v ∈ c) && decide (G.neighbors v = [])) := by
    refine List.filter_congr ?_
    intro v _
    rw [Bool.and_comm]
  have hsplit2 := length_filter_not (fun v => decide (v ∈ c)) G.verts
  have hVc : (inducedGraph G c).verts.length =
      (G.verts.filter (fun v => decide (v ∈ c))).length := rfl
  rw [hisoc, hisoG, hff3, hVc]
  rw [hff1, hff2, hcongr1, hcongr2] at hsplit1
  omega

theorem planarCheck_induced_all {G : FGraph} (hw : G.wfb = true)
    {ρ : List (Nat × List Nat)} (hρ : validRot G ρ)
    (hpc : planarCheck G ρ = true) {c : List Nat}
    (hall : ∀ e ∈ G.edges, e.1 ∈ c ∧ e.2 ∈ c) :
    planarCheck (inducedGraph G c) (inducedRot c ρ) = true := by
  have hD : (inducedGraph G c).darts = G.darts := by
    unfold FGraph.darts
    rw [edges_induced_all hall]
  have hlu : ∀ v ∈ G.verts, lookupRot (inducedRot c ρ) v = lookupRot ρ v := by
    intro v hv
    rw [lookupRot_inducedRot]
    refine List.filter_eq_self.mpr ?_
    intro w hwmem
    rw [decide_eq_true_iff]
    exact (neighbor_in_c hall ((hρ v hv).mem_iff.mp hwmem)).1
  have hagreeD : ∀ x ∈ G.darts, faceSucc (inducedRot c ρ) x = faceSucc ρ x := by
    intro x hx
    unfold faceSucc
    rw [hlu x.2 (darts_snd_mem_verts hw hx)]
  have hclosed : ∀ x ∈ G.darts, faceSucc ρ x ∈ G.darts :=
    fun x hx => faceSucc_mem_darts hw hρ hx
  have hinj : ∀ x ∈ G.darts, ∀ y ∈ G.darts,
      faceSucc ρ x = faceSucc ρ y → x = y :=
    fun x hx y hy h => faceSucc_injOn hw hρ hx hy h
  have horb : countOrbits (faceSucc (inducedRot c ρ)) G.darts.length G.darts =
      countOrbits (faceSucc ρ) G.darts.length G.darts := by
    rw [countOrbits_eq_card G.darts.length G.darts (darts_nodup hw)
      (fun x hx => (hagreeD x hx) ▸ hclosed x hx)
      (fun x hx y hy h => hinj x hx y hy
        (by rw [← hagreeD x hx, ← hagreeD y hy]; exact h))
      (le_refl _) G.darts.length (le_refl _)]
    rw [countOrbits_eq_card G.darts.length G.darts (darts_nodup hw) hclosed hinj
      (le_refl _) G.darts.length (le_refl _)]
    rw [orbitsOf_congr hagreeD (fun x hx => (hagreeD x hx) ▸ hclosed x hx)]
  have hcomp := compCount_induced_all hw hall
  have hiso := isolatedCount_induced_all hw hall
  rw [planarCheck, beq_iff_eq] at hpc ⊢
  unfold faceCount at hpc ⊢
  rw [hD, horb, show (inducedGraph G c).edges = G.edges from
    edges_induced_all hall]
  omega

/-- Restriction theorem: a genus-zero embedding induces a genus-zero
embedding on every cluster-induced subgraph. -/
theorem planarCheck_induced_aux :
    ∀ (n : Nat) (G : FGraph), G.edges.length ≤ n → G.wfb = true →
      ∀ ρ, validRot G ρ → planarCheck G ρ = true →
      ∀ c, planarCheck (inducedGraph G c) (inducedRot c ρ) = true := by
  intro n
  induction n with
  | zero =>
    intro G hlen hw ρ hρ hpc c
    refine planarCheck_induced_all hw hρ hpc ?_
    intro e he
    have hnil : G.edges = [] := List.length_eq_zero.mp (by omega)
    rw [hnil] at he
    exact absurd he (List.not_mem_nil e)
  | succ n ih =>
    intro G hlen hw ρ hρ hpc c
    by_cases hall : ∀ e ∈ G.edges, e.1 ∈ c ∧ e.2 ∈ c
    · exact planarCheck_induced_all hw hρ hpc hall
    · push_neg at hall
      obtain ⟨e, he, hno⟩ := hall
      have hno' : ¬(e.1 ∈ c ∧ e.2 ∈ c) := fun hcon => hno hcon.1 hcon.2
      have hw1 := removeEdge_wfb hw e
      have hρ1 := validRot_deleteRotSys hw he hρ
      have hpc1 := planarCheck_removeEdge hw he hρ hpc
      have hlen1 : (G.removeEdge e).edges.length ≤ n := by
        show (G.edges.erase e).length ≤ n
        rw [List.length_erase_of_mem he]
        have hp : 0 < G.edges.length := List.length_pos.mpr (List.ne_nil_of_mem he)
        omega
      have hrec := ih (G.removeEdge e) hlen1 hw1 _ hρ1 hpc1 c
      rw [inducedGraph_removeEdge_notmem hno'] at hrec
      have hval1 : validRot (inducedGraph G c)
          (inducedRot c (deleteRotSys G e ρ)) := by
        have hv := validRot_induced hρ1 c
        rwa [inducedGraph_removeEdge_notmem hno'] at hv
      have hagree : ∀ v ∈ (inducedGraph G c).verts,
          lookupRot (inducedRot c (deleteRotSys G e ρ)) v =
            lookupRot (inducedRot c ρ) v := by
        intro v hv
        have hv' : v ∈ G.verts.filter (· ∈ c) := hv
        obtain ⟨hvG, hvc⟩ := List.mem_filter.mp hv'
        rw [decide_eq_true_iff] at hvc
        exact lookup_induced_delete_eq hno' hvG hvc
      rw [← planarCheck_congr (inducedGraph_wfb hw c) hval1 hagree]
      exact hrec

theorem planarCheck_induced {G : FGraph} (hw : G.wfb = true)
    {ρ : List (Nat × List Nat)} (hρ : validRot G ρ)
    (hpc : planarCheck G ρ = true) (c : List Nat) :
    planarCheck (inducedGraph G c) (inducedRot c ρ) = true :=
  planarCheck_induced_aux G.edges.length G (le_refl _) hw ρ hρ hpc c

/-! If the induced subgraph stays connected after deleting an internal
edge, the two darts of that edge lie on different faces of the induced
embedding. -/

theorem inducedGraph_removeEdge_mem {G : FGraph} {e : Nat × Nat}
    {c : List Nat} (hec : e.1 ∈ c ∧ e.2 ∈ c) :
    inducedGraph (G.removeEdge e) c = (inducedGraph G c).removeEdge e := by
  show FGraph.mk _ _ = FGraph.mk _ _
  congr 1
  show (G.edges.erase e).filter _ = (G.edges.filter _).erase e
  rw [filter_erase_pair]
  rw [if_pos]
  rw [Bool.and_eq_true, decide_eq_true_iff, decide_eq_true_iff]
  exact hec

theorem sep_of_connected_induced {G : FGraph} (hw : G.wfb = true)
    {ρ : List (Nat × List Nat)} (hρ : validRot G ρ)
    (hpc : planarCheck G ρ = true)
    {c : List Nat} {e : Nat × Nat} (hec : e.1 ∈ c ∧ e.2 ∈ c)
    (he : e ∈ G.edges)
    (hconn : connectedb (inducedGraph (G.removeEdge e) c) = true) :
    (e.2, e.1) ∉ orbSet (faceSucc (inducedRot c ρ))
      (2 * (inducedGraph G c).darts.length) e := by
  intro hsame
  have hwc := inducedGraph_wfb hw c
  have hvalc := validRot_induced hρ c
  have hpcc := planarCheck_induced hw hρ hpc c
  have hein : e ∈ (inducedGraph G c).edges :=
    List.mem_filter.mpr ⟨he, by simp [hec.1, hec.2]⟩
  have hF := faceCount_removeEdge_same hwc hein hvalc hsame
  have hpc' := planarCheck_removeEdge hwc hein hvalc hpcc
  have hEq := inducedGraph_removeEdge_mem (G := G) hec
  rw [hEq] at hconn
  have hvne : (inducedGraph G c).verts ≠ [] := by
    intro hnil
    have h1 := (wfb_iff.mp hwc).2.2 e hein
    rw [hnil] at h1
    exact absurd h1.1 (List.not_mem_nil _)
  have hC1 : ((inducedGraph G c).removeEdge e).compCount = 1 :=
    compCount_of_connected hconn hvne
  have hCpos : 1 ≤ (inducedGraph G c).compCount := compCount_pos hvne
  rw [planarCheck, beq_iff_eq] at hpcc hpc'
  have hEl : ((inducedGraph G c).removeEdge e).edges.length + 1 =
      (inducedGraph G c).edges.length := by
    show ((inducedGraph G c).edges.erase e).length + 1 = _
    rw [List.length_erase_of_mem hein]
    have hp : 0 < (inducedGraph G c).edges.length :=
      List.length_pos.mpr (List.ne_nil_of_mem hein)
    omega
  have hV : ((inducedGraph G c).removeEdge e).verts.length =
      (inducedGraph G c).verts.length := rfl
  omega

/-! The cyclic successor walks through the whole list. -/

theorem indexOf_get_self {l : List Nat} (hnd : l.Nodup) (i : Fin l.length) :
    l.indexOf (l.get i) = i.1 := by
  have hmem : l.get i ∈ l := l.get_mem i.1 i.2
  have hlt : l.indexOf (l.get i) < l.length := List.indexOf_lt_length.mpr hmem
  have hg : l.get ⟨l.indexOf (l.get i), hlt⟩ = l.get i := List.indexOf_get hlt
  have := (List.Nodup.get_inj_iff hnd).mp hg
  exact congrArg Fin.val this

theorem cyclicNext_get {l : List Nat} (hnd : l.Nodup) (i : Fin l.length) :
    cyclicNext l (l.get i) =
      l.get ⟨(i.1 + 1) % l.length,
        Nat.mod_lt _ (Nat.lt_of_le_of_lt (Nat.zero_le i.1) i.2)⟩ := by
  rw [cyclicNext_eq_get (l.get_mem i.1 i.2)]
  congr 1
  apply Fin.ext
  show (l.indexOf (l.get i) + 1) % l.length = (i.1 + 1) % l.length
  rw [indexOf_get_self hnd i]

theorem iterate_cyclicNext_get {l : List Nat} (hnd : l.Nodup) (i : Fin l.length) :
    ∀ k, (cyclicNext l)^[k] (l.get i) =
      l.get ⟨(i.1 + k) % l.length,
        Nat.mod_lt _ (Nat.lt_of_le_of_lt (Nat.zero_le i.1) i.2)⟩ := by
  intro k
  induction k with
  | zero =>
    show l.get i = _
    congr 1
    apply Fin.ext
    show i.1 = (i.1 + 0) % l.length
    rw [Nat.add_zero, Nat.mod_eq_of_lt i.2]
  | succ k ih =>
    rw [Function.iterate_succ_apply' (cyclicNext l) k (l.get i), ih,
      cyclicNext_get hnd]
    congr 1
    apply Fin.ext
    show ((i.1 + k) % l.length + 1) % l.length = (i.1 + (k + 1)) % l.length
    rw [Nat.mod_add_mod, Nat.add_assoc]

theorem cyclic_period {l : List Nat} (hnd : l.Nodup) {y : Nat} (hy : y ∈ l) :
    (cyclicNext l)^[l.length] y = y := by
  obtain ⟨i, rfl⟩ := List.mem_iff_get.mp hy
  rw [iterate_cyclicNext_get hnd i]
  congr 1
  apply Fin.ext
  show (i.1 + l.length) % l.length = i.1
  rw [Nat.add_mod_right, Nat.mod_eq_of_lt i.2]

theorem cyclic_coverage {l : List Nat} (hnd : l.Nodup) {y w : Nat}
    (hy : y ∈ l) (hw : w ∈ l) :
    ∃ j, 1 ≤ j ∧ j ≤ l.length ∧ (cyclicNext l)^[j] y = w := by
  obtain ⟨i, rfl⟩ := List.mem_iff_get.mp hy
  obtain ⟨m, rfl⟩ := List.mem_iff_get.mp hw
  have hiL := i.2
  have hmL := m.2
  have hL : 0 < l.length := by omega
  refine ⟨(m.1 + l.length - i.1 - 1) % l.length + 1, by omega, ?_, ?_⟩
  · have := Nat.mod_lt (m.1 + l.length - i.1 - 1) hL
    omega
  · rw [iterate_cyclicNext_get hnd i]
    congr 1
    apply Fin.ext
    show (i.1 + ((m.1 + l.length - i.1 - 1) % l.length + 1)) % l.length = m.1
    rw [show i.1 + ((m.1 + l.length - i.1 - 1) % l.length + 1) =
      (m.1 + l.length - i.1 - 1) % l.length + (i.1 + 1) from by omega]
    rw [Nat.mod_add_mod]
    rw [show m.1 + l.length - i.1 - 1 + (i.1 + 1) = m.1 + l.length from by omega]
    rw [Nat.add_mod_right, Nat.mod_eq_of_lt hmL]

/-- Scanning from a member of the target set finds exactly the cyclic
successor within the filtered sublist. -/
theorem scan_from_member_aux {c : List Nat} :
    ∀ (n : Nat) (l : List Nat), l.length ≤ n → l.Nodup →
      ∀ a, a ∈ l → a ∈ c →
        scanForMember c l l.length a =
          some (cyclicNext (l.filter (· ∈ c)) a) := by
  intro n
  induction n with
  | zero =>
    intro l hlen hnd a ha hac
    have : l = [] := List.length_eq_zero.mp (by omega)
    rw [this] at ha
    exact absurd ha (List.not_mem_nil a)
  | succ n ih =>
    intro l hlen hnd a ha hac
    by_cases hall : ∀ x ∈ l, x ∈ c
    · have hfe : l.filter (· ∈ c) = l :=
        List.filter_eq_self.mpr (fun x hx => by
          rw [decide_eq_true_iff]; exact hall x hx)
      obtain ⟨k, hk⟩ : ∃ k, l.length = k + 1 := by
        have : 0 < l.length := List.length_pos.mpr (List.ne_nil_of_mem ha)
        exact ⟨l.length - 1, by omega⟩
      rw [hk, scanForMember]
      rw [if_pos (hall _ (cyclicNext_mem ha))]
      rw [hfe]
    · push_neg at hall
      obtain ⟨b, hb, hbc⟩ := hall
      have hab : a ≠ b := fun hcon => hbc (hcon ▸ hac)
      have hnd' : (l.erase b).Nodup := hnd.erase b
      have ha' : a ∈ l.erase b := (List.Nodup.mem_erase_iff hnd).mpr ⟨hab, ha⟩
      have hlen' : (l.erase b).length ≤ n := by
        rw [List.length_erase_of_mem hb]
        have : 0 < l.length := List.length_pos.mpr (List.ne_nil_of_mem ha)
        omega
      have hrec := ih (l.erase b) hlen' hnd' a ha' hac
      have hfe : (l.erase b).filter (· ∈ c) = l.filter (· ∈ c) := by
        rw [filter_erase]
        rw [if_neg (by rw [decide_eq_true_iff]; exact hbc)]
      rw [hfe] at hrec
      exact scan_erase_some hnd hb hbc ha hab hrec

theorem scan_from_member {c l : List Nat} (hnd : l.Nodup) {a : Nat}
    (ha : a ∈ l) (hac : a ∈ c) :
    scanForMember c l l.length a =
      some (cyclicNext (l.filter (· ∈ c)) a) :=
  scan_from_member_aux l.length l (le_refl _) hnd a ha hac

theorem scan_erase_some_rev {c l : List Nat} {a y z' : Nat} (hnd : l.Nodup)
    (hy : y ∈ l) (hya : y ≠ a)
    (h : scanForMember c (l.erase a) (l.erase a).length y = some z') :
    ∃ z, scanForMember c l l.length y = some z := by
  have hy' : y ∈ l.erase a := (List.Nodup.mem_erase_iff hnd).mpr ⟨hya, hy⟩
  obtain ⟨hz'c, hz'l⟩ := scanForMember_spec _ _ _ h
  have hz'' : z' ∈ l := List.mem_of_mem_erase (hz'l hy')
  obtain ⟨j, hj1, hjL, hjit⟩ := cyclic_coverage hnd hy hz''
  exact scan_of_iterate hz'c (j - 1) l.length y hy
    (by rw [show j - 1 + 1 = j from by omega]; exact hjit) (by omega)

/-- Deleting a member of the target set other than the found one does
not change a successful member scan. -/
theorem scan_erase_member_ne {c l : List Nat} {a y z : Nat} (hnd : l.Nodup)
    (ha : a ∈ l) (hac : a ∈ c) (hy : y ∈ l) (hyc : y ∉ c)
    (h : scanForMember c l l.length y = some z) (hza : z ≠ a) :
    scanForMember c (l.erase a) (l.erase a).length y = some z := by
  have hya : y ≠ a := fun hcon => hyc (hcon ▸ hac)
  have hclosedL : ∀ x ∈ l, cyclicNext l x ∈ l := fun x hx => cyclicNext_mem hx
  obtain ⟨i₀, hi₀, hit, hzc, hmin⟩ := (scanForMember_some_iff _ _ _).mp h
  obtain ⟨ia, hia1, hiaL, hita⟩ := cyclic_coverage hnd hy ha
  have hia2 : i₀ + 2 ≤ ia := by
    rcases Nat.lt_or_ge ia (i₀ + 1) with h1 | h1
    · exfalso
      have h2 := hmin (ia - 1) (by omega)
      rw [show ia - 1 + 1 = ia from by omega] at h2
      exact h2 (hita ▸ hac)
    · rcases Nat.eq_or_lt_of_le h1 with h2 | h2
      · exfalso
        apply hza
        rw [← hit, h2]
        exact hita
      · omega
  have hsync : ∀ j, j ≤ i₀ + 1 →
      (cyclicNext (l.erase a))^[j] y = (cyclicNext l)^[j] y ∧
        (cyclicNext l)^[j] y ≠ a := by
    intro j
    induction j with
    | zero => intro _; exact ⟨rfl, hya⟩
    | succ j ih =>
      intro hj
      obtain ⟨heq, hne⟩ := ih (by omega)
      have hxl : (cyclicNext l)^[j] y ∈ l := iterate_mem_gen hclosedL hy j
      have hnext_ne : (cyclicNext l)^[j + 1] y ≠ a := by
        rcases Nat.eq_or_lt_of_le hj with h1 | h1
        · rw [h1, hit]
          exact hza
        · intro hcon
          exact hmin j (by omega) (hcon ▸ hac)
      refine ⟨?_, hnext_ne⟩
      rw [Function.iterate_succ_apply' (cyclicNext (l.erase a)) j y, heq,
        Function.iterate_succ_apply' (cyclicNext l) j y]
      exact cyclicNext_erase_ne hnd ha hxl hne (by
        rw [← Function.iterate_succ_apply' (cyclicNext l) j y]
        exact hnext_ne)
  refine (scanForMember_some_iff _ _ _).mpr ⟨i₀, ?_, ?_, hzc, ?_⟩
  · rw [List.length_erase_of_mem ha]
    omega
  · rw [(hsync (i₀ + 1) (le_refl _)).1]
    exact hit
  · intro j hj
    rw [(hsync (j + 1) (by omega)).1]
    exact hmin j hj

/-- Deleting the found member redirects a successful scan to the next
member in the filtered cyclic order. -/
theorem scan_erase_member_eq {c l : List Nat} {a y w : Nat} (hnd : l.Nodup)
    (ha : a ∈ l) (hac : a ∈ c) (hy : y ∈ l) (hyc : y ∉ c)
    (h : scanForMember c l l.length y = some a)
    (h' : scanForMember c (l.erase a) (l.erase a).length y = some w) :
    w = cyclicNext (l.filter (· ∈ c)) a := by
  have hya : y ≠ a := fun hcon => hyc (hcon ▸ hac)
  have hy' : y ∈ l.erase a := (List.Nodup.mem_erase_iff hnd).mpr ⟨hya, hy⟩
  have hclosedL : ∀ x ∈ l, cyclicNext l x ∈ l := fun x hx => cyclicNext_mem hx
  have hL1 : 1 ≤ l.length := List.length_pos.mpr (List.ne_nil_of_mem hy)
  obtain ⟨hwc, hwl'⟩ := scanForMember_spec _ _ _ h'
  have hwe : w ∈ l.erase a := hwl' hy'
  have hwa : w ≠ a := ((List.Nodup.mem_erase_iff hnd).mp hwe).1
  have hwl : w ∈ l := List.mem_of_mem_erase hwe
  have hF := scan_from_member hnd ha hac
  obtain ⟨i₀, hi₀, hita, -, hmin₁⟩ := (scanForMember_some_iff _ _ _).mp h
  obtain ⟨m₀, hm₀, hitw, hwsc, hmin₂⟩ := (scanForMember_some_iff _ _ _).mp hF
  have hwsa : cyclicNext (l.filter (· ∈ c)) a ≠ a := by
    intro hcon
    have hndf : (l.filter (· ∈ c)).Nodup := hnd.filter _
    have haf : a ∈ l.filter (· ∈ c) :=
      List.mem_filter.mpr ⟨ha, by simpa using hac⟩
    have hfl : l.filter (· ∈ c) = [a] := (cyclicNext_self_iff hndf haf).mp hcon
    have hwf : w ∈ l.filter (· ∈ c) :=
      List.mem_filter.mpr ⟨hwl, by simpa using hwc⟩
    rw [hfl] at hwf
    exact hwa (by simpa using hwf)
  have hcomp : ∀ t, (cyclicNext l)^[t] a = (cyclicNext l)^[t + (i₀ + 1)] y := by
    intro t
    rw [Function.iterate_add_apply, hita]
  have hsync1 : ∀ j, j ≤ i₀ →
      (cyclicNext (l.erase a))^[j] y = (cyclicNext l)^[j] y ∧
        (cyclicNext l)^[j] y ≠ a := by
    intro j
    induction j with
    | zero => intro _; exact ⟨rfl, hya⟩
    | succ j ih =>
      intro hj
      obtain ⟨heq, hne⟩ := ih (by omega)
      have hxl : (cyclicNext l)^[j] y ∈ l := iterate_mem_gen hclosedL hy j
      have hnext_ne : (cyclicNext l)^[j + 1] y ≠ a := by
        intro hcon
        exact hmin₁ j (by omega) (hcon ▸ hac)
      refine ⟨?_, hnext_ne⟩
      rw [Function.iterate_succ_apply' (cyclicNext (l.erase a)) j y, heq,
        Function.iterate_succ_apply' (cyclicNext l) j y]
      exact cyclicNext_erase_ne hnd ha hxl hne (by
        rw [← Function.iterate_succ_apply' (cyclicNext l) j y]
        exact hnext_ne)
  have hsync2 : ∀ t, 1 ≤ t → t ≤ m₀ + 1 →
      (cyclicNext (l.erase a))^[i₀ + t] y = (cyclicNext l)^[t] a ∧
        (cyclicNext l)^[t] a ≠ a := by
    intro t
    induction t with
    | zero => intro h0; omega
    | succ t ih =>
      intro _ ht
      have hne2 : (cyclicNext l)^[t + 1] a ≠ a := by
        rcases Nat.eq_or_lt_of_le ht with h1 | h1
        · rw [h1, hitw]
          exact hwsa
        · intro hcon
          exact hmin₂ t (by omega) (by rw [hcon]; exact hac)
      rcases Nat.eq_zero_or_pos t with rfl | ht0
      · obtain ⟨heq, hne⟩ := hsync1 i₀ (le_refl _)
        refine ⟨?_, hne2⟩
        show (cyclicNext (l.erase a))^[i₀ + 1] y = (cyclicNext l)^[0 + 1] a
        rw [Function.iterate_succ_apply' (cyclicNext (l.erase a)) i₀ y, heq]
        have hca : cyclicNext l ((cyclicNext l)^[i₀] y) = a := by
          rw [← Function.iterate_succ_apply' (cyclicNext l) i₀ y]
          exact hita
        rw [cyclicNext_erase_eq hnd ha (iterate_mem_gen hclosedL hy i₀) hne hca]
        simp
      · obtain ⟨heq, hne⟩ := ih ht0 (by omega)
        refine ⟨?_, hne2⟩
        rw [show i₀ + (t + 1) = (i₀ + t) + 1 from by omega]
        rw [Function.iterate_succ_apply' (cyclicNext (l.erase a)) (i₀ + t) y,
          heq]
        have hxl : (cyclicNext l)^[t] a ∈ l := iterate_mem_gen hclosedL ha t
        have hcn_ne : cyclicNext l ((cyclicNext l)^[t] a) ≠ a := by
          rw [← Function.iterate_succ_apply' (cyclicNext l) t a]
          exact hne2
        rw [cyclicNext_erase_ne hnd ha hxl hne hcn_ne]
        rw [← Function.iterate_succ_apply' (cyclicNext l) t a]
  have hperiod := cyclic_period hnd hy
  have hw1 : (cyclicNext l)^[i₀ + m₀ + 2] y = cyclicNext (l.filter (· ∈ c)) a := by
    rw [show i₀ + m₀ + 2 = m₀ + 1 + (i₀ + 1) from by omega, ← hcomp (m₀ + 1)]
    exact hitw
  have hSle : i₀ + m₀ + 1 ≤ l.length - 1 := by
    by_contra hcon
    push_neg at hcon
    have hr : (cyclicNext l)^[i₀ + m₀ + 2] y =
        (cyclicNext l)^[i₀ + m₀ + 2 - l.length] y := by
      conv_lhs => rw [show i₀ + m₀ + 2 =
        (i₀ + m₀ + 2 - l.length) + l.length from by omega]
      rw [Function.iterate_add_apply, hperiod]
    have hr1 : 1 ≤ i₀ + m₀ + 2 - l.length := by omega
    rcases Nat.lt_or_ge (i₀ + m₀ + 2 - l.length) (i₀ + 1) with hband | hband
    · have h5 := hmin₁ (i₀ + m₀ + 2 - l.length - 1) (by omega)
      rw [show i₀ + m₀ + 2 - l.length - 1 + 1 = i₀ + m₀ + 2 - l.length
        from by omega] at h5
      apply h5
      rw [← hr, hw1]
      exact hwsc
    · rcases Nat.eq_or_lt_of_le hband with hband2 | hband2
      · apply hwsa
        rw [← hw1, hr, ← hband2]
        exact hita
      · have h5 := hmin₂ (i₀ + m₀ + 2 - l.length - i₀ - 2) (by omega)
        apply h5
        rw [hcomp (i₀ + m₀ + 2 - l.length - i₀ - 2 + 1)]
        rw [show i₀ + m₀ + 2 - l.length - i₀ - 2 + 1 + (i₀ + 1) =
          i₀ + m₀ + 2 - l.length from by omega]
        rw [← hr, hw1]
        exact hwsc
  have hcert : scanForMember c (l.erase a) (l.erase a).length y =
      some (cyclicNext (l.filter (· ∈ c)) a) := by
    refine (scanForMember_some_iff _ _ _).mpr ⟨i₀ + m₀, ?_, ?_, hwsc, ?_⟩
    · rw [List.length_erase_of_mem ha]
      omega
    · have h6 := (hsync2 (m₀ + 1) (by omega) (le_refl _)).1
      rw [show i₀ + m₀ + 1 = i₀ + (m₀ + 1) from by omega, h6]
      exact hitw
    · intro j hj
      rcases Nat.lt_or_ge (j + 1) (i₀ + 1) with hb | hb
      · rw [(hsync1 (j + 1) (by omega)).1]
        exact hmin₁ j (by omega)
      · have h7 := (hsync2 (j + 1 - i₀) (by omega) (by omega)).1
        rw [show j + 1 = i₀ + (j + 1 - i₀) from by omega, h7]
        have h8 := hmin₂ (j + 1 - i₀ - 1) (by omega)
        rw [show j + 1 - i₀ - 1 + 1 = j + 1 - i₀ from by omega] at h8
        exact h8
  rw [hcert] at h'
  exact (Option.some.inj h').symm

/-- After deleting an internal edge of the cluster, every corner is
either an unchanged old corner or the face successor of one of the two
darts of the deleted edge (a moved corner). -/
theorem cornersList_delete_mem_classify {G : FGraph} (hw : G.wfb = true)
    {e : Nat × Nat} (he : e ∈ G.edges) {ρ : List (Nat × List Nat)}
    (hρ : validRot G ρ) {c : List Nat} (hec : e.1 ∈ c ∧ e.2 ∈ c) :
    ∀ x ∈ cornersList (G.removeEdge e) (deleteRotSys G e ρ) c,
      (x ∈ cornersList G ρ c ∧ x ≠ e ∧ x ≠ (e.2, e.1)) ∨
      (x = faceSucc (inducedRot c ρ) (e.2, e.1) ∧ e ∈ cornersList G ρ c) ∨
      (x = faceSucc (inducedRot c ρ) e ∧ (e.2, e.1) ∈ cornersList G ρ c) := by
  obtain ⟨-, -, hedges⟩ := wfb_iff.mp hw
  have hne12 : e.1 ≠ e.2 := Nat.ne_of_lt (hedges e he).2.2
  intro x hx
  unfold cornersList at hx
  obtain ⟨d, hd, hsome⟩ := List.mem_filterMap.mp hx
  obtain ⟨hdD', hcond⟩ := List.mem_filter.mp hd
  have hdG : d ∈ G.darts := darts_removeEdge_subset hw he hdD'
  have hcond' : d.1 ∈ c ∧ d.2 ∉ c := by
    rw [Bool.and_eq_true, decide_eq_true_iff] at hcond
    exact ⟨hcond.1, by simpa using hcond.2⟩
  have hdv : d.1 ∈ G.verts := darts_fst_mem_verts hw hdG
  have hL := lookupRot_deleteRotSys (G := G) e ρ (v := d.1) hdv
  have hnd : (lookupRot ρ d.1).Nodup := lookupRot_nodup hw hρ hdv
  have hy : d.2 ∈ lookupRot ρ d.1 :=
    ((hρ d.1 hdv).mem_iff).mpr (neighbors_symm.mp (darts_fst_mem_neighbors hdG))
  have hyc : d.2 ∉ c := hcond'.2
  have hdcut : d ∈ G.darts.filter (fun d => d.1 ∈ c && d.2 ∉ c) :=
    List.mem_filter.mpr ⟨hdG, hcond⟩
  by_cases h1 : d.1 = e.1
  · have ha : e.2 ∈ lookupRot ρ d.1 := by
      refine ((hρ d.1 hdv).mem_iff).mpr ?_
      rw [h1]
      exact mem_neighbors.mpr (Or.inl (by simpa using he))
    rw [if_pos h1] at hL
    unfold cornerOf at hsome
    rw [hL] at hsome
    obtain ⟨w, hw', rfl⟩ := Option.map_eq_some'.mp hsome
    have hya : d.2 ≠ e.2 := fun hcon => hyc (hcon ▸ hec.2)
    obtain ⟨z, hz⟩ := scan_erase_some_rev hnd hy hya hw'
    by_cases hz_a : z = e.2
    · subst hz_a
      right
      left
      have hwe := scan_erase_member_eq hnd ha hec.2 hy hyc hz hw'
      constructor
      · have hfs : faceSucc (inducedRot c ρ) (e.2, e.1) =
            (e.1, cyclicNext ((lookupRot ρ e.1).filter (· ∈ c)) e.2) := by
          show (e.1, cyclicNext (lookupRot (inducedRot c ρ) e.1) e.2) = _
          rw [lookupRot_inducedRot]
        rw [hfs, Prod.ext_iff]
        rw [h1] at hwe
        exact ⟨h1, hwe⟩
      · unfold cornersList
        refine List.mem_filterMap.mpr ⟨d, hdcut, ?_⟩
        unfold cornerOf
        rw [hz]
        show some (d.1, e.2) = some e
        rw [h1, Prod.mk.eta]
    · left
      have hnew := scan_erase_member_ne hnd ha hec.2 hy hyc hz hz_a
      rw [hw'] at hnew
      have hwz : w = z := Option.some.inj hnew
      refine ⟨?_, ?_, ?_⟩
      · unfold cornersList
        refine List.mem_filterMap.mpr ⟨d, hdcut, ?_⟩
        unfold cornerOf
        rw [hz]
        show some (d.1, z) = some (d.1, w)
        rw [hwz]
      · intro hcon
        apply hz_a
        rw [← hwz, ← (show (d.1, w).2 = e.2 from by rw [hcon])]
      · intro hcon
        apply hne12
        rw [← h1]
        exact congrArg Prod.fst hcon
  · by_cases h2 : d.1 = e.2
    · have ha : e.1 ∈ lookupRot ρ d.1 := by
        refine ((hρ d.1 hdv).mem_iff).mpr ?_
        rw [h2]
        exact mem_neighbors.mpr (Or.inr (by simpa using he))
      rw [if_neg h1, if_pos h2] at hL
      unfold cornerOf at hsome
      rw [hL] at hsome
      obtain ⟨w, hw', rfl⟩ := Option.map_eq_some'.mp hsome
      have hya : d.2 ≠ e.1 := fun hcon => hyc (hcon ▸ hec.1)
      obtain ⟨z, hz⟩ := scan_erase_some_rev hnd hy hya hw'
      by_cases hz_a : z = e.1
      · subst hz_a
        right
        right
        have hwe := scan_erase_member_eq hnd ha hec.1 hy hyc hz hw'
        constructor
        · have hfs : faceSucc (inducedRot c ρ) e =
              (e.2, cyclicNext ((lookupRot ρ e.2).filter (· ∈ c)) e.1) := by
            show (e.2, cyclicNext (lookupRot (inducedRot c ρ) e.2) e.1) = _
            rw [lookupRot_inducedRot]
          rw [hfs, Prod.ext_iff]
          rw [h2] at hwe
          exact ⟨h2, hwe⟩
        · unfold cornersList
          refine List.mem_filterMap.mpr ⟨d, hdcut, ?_⟩
          unfold cornerOf
          rw [hz]
          show some (d.1, e.1) = some (e.2, e.1)
          rw [h2]
      · left
        have hnew := scan_erase_member_ne hnd ha hec.1 hy hyc hz hz_a
        rw [hw'] at hnew
        have hwz : w = z := Option.some.inj hnew
        refine ⟨?_, ?_, ?_⟩
        · unfold cornersList
          refine List.mem_filterMap.mpr ⟨d, hdcut, ?_⟩
          unfold cornerOf
          rw [hz]
          show some (d.1, z) = some (d.1, w)
          rw [hwz]
        · intro hcon
          apply hne12
          rw [← h2]
          exact (congrArg Prod.fst hcon).symm
        · intro hcon
          apply hz_a
          rw [← hwz, ← (show (d.1, w).2 = e.1 from by rw [hcon])]
    · rw [if_neg h1, if_neg h2] at hL
      unfold cornerOf at hsome
      rw [hL] at hsome
      obtain ⟨w, hw', rfl⟩ := Option.map_eq_some'.mp hsome
      left
      refine ⟨?_, ?_, ?_⟩
      · unfold cornersList
        refine List.mem_filterMap.mpr ⟨d, hdcut, ?_⟩
        unfold cornerOf
        rw [hw']
        rfl
      · intro hcon
        rw [Prod.ext_iff] at hcon
        exact h1 hcon.1
      · intro hcon
        rw [Prod.ext_iff] at hcon
        exact h2 hcon.1

theorem lookup_induced_delete_mem {G : FGraph} {e : Nat × Nat}
    {ρ : List (Nat × List Nat)} {c : List Nat} (hec : e.1 ∈ c ∧ e.2 ∈ c)
    {v : Nat} (hv : v ∈ G.verts) (hvc : v ∈ c) :
    lookupRot (inducedRot c (deleteRotSys G e ρ)) v =
      lookupRot (deleteRotSys (inducedGraph G c) e (inducedRot c ρ)) v := by
  have hv' : v ∈ (inducedGraph G c).verts := by
    show v ∈ G.verts.filter (· ∈ c)
    rw [List.mem_filter, decide_eq_true_iff]
    exact ⟨hv, hvc⟩
  rw [lookupRot_inducedRot, lookupRot_deleteRotSys (G := G) e ρ hv,
    lookupRot_deleteRotSys (G := inducedGraph G c) e (inducedRot c ρ) hv']
  by_cases h1 : v = e.1
  · rw [if_pos h1, if_pos h1, filter_erase,
      if_pos (by rw [decide_eq_true_iff]; exact hec.2), lookupRot_inducedRot]
  · rw [if_neg h1, if_neg h1]
    by_cases h2 : v = e.2
    · rw [if_pos h2, if_pos h2, filter_erase,
        if_pos (by rw [decide_eq_true_iff]; exact hec.1), lookupRot_inducedRot]
    · rw [if_neg h2, if_neg h2, lookupRot_inducedRot]

/-- Case B of edge deletion: deleting an internal edge of a cluster
that keeps the cluster-induced subgraph connected preserves
`respectsb`. -/
theorem respectsb_delete_mem {G : FGraph} (hw : G.wfb = true)
    {e : Nat × Nat} (he : e ∈ G.edges) {ρ : List (Nat × List Nat)}
    (hρ : validRot G ρ) (hpc : planarCheck G ρ = true)
    {c : List Nat} (hec : e.1 ∈ c ∧ e.2 ∈ c)
    (hconn : connectedb (inducedGraph (G.removeEdge e) c) = true)
    (hresp : respectsb G ρ c = true) :
    respectsb (G.removeEdge e) (deleteRotSys G e ρ) c = true := by
  obtain ⟨-, -, hedges⟩ := wfb_iff.mp hw
  have hne12 : e.1 ≠ e.2 := Nat.ne_of_lt (hedges e he).2.2
  have hwc := inducedGraph_wfb hw c
  have hvalc := validRot_induced hρ c
  have hndD := darts_nodup hwc
  have hclosed : ∀ x ∈ (inducedGraph G c).darts,
      faceSucc (inducedRot c ρ) x ∈ (inducedGraph G c).darts :=
    fun x hx => faceSucc_mem_darts hwc hvalc hx
  have hinj : ∀ x ∈ (inducedGraph G c).darts, ∀ y ∈ (inducedGraph G c).darts,
      faceSucc (inducedRot c ρ) x = faceSucc (inducedRot c ρ) y → x = y :=
    fun x hx y hy h => faceSucc_injOn hwc hvalc hx hy h
  have hfix : ∀ x ∈ (inducedGraph G c).darts, faceSucc (inducedRot c ρ) x ≠ x := by
    intro x hx hcon
    have h2 : x.2 = x.1 := congrArg Prod.fst hcon
    exact darts_ne hwc hx h2.symm
  have hein : e ∈ (inducedGraph G c).edges :=
    List.mem_filter.mpr ⟨he, by simp [hec.1, hec.2]⟩
  have hd₁ : e ∈ (inducedGraph G c).darts := mem_darts.mpr (Or.inl hein)
  have hd₂ : (e.2, e.1) ∈ (inducedGraph G c).darts := by
    refine mem_darts.mpr (Or.inr ?_)
    show (e.1, e.2) ∈ _
    rw [Prod.mk.eta]
    exact hein
  have hned : e ≠ (e.2, e.1) := by
    intro hcon
    have h2 : e.1 = e.2 := congrArg Prod.fst hcon
    exact hne12 h2
  have hDpos : 0 < (inducedGraph G c).darts.length := List.length_pos_of_mem hd₁
  have hsep := sep_of_connected_induced hw hρ hpc hec he hconn
  have hwc' := removeEdge_wfb hwc e
  have hndD' := darts_nodup hwc'
  have hmem' : ∀ x, x ∈ ((inducedGraph G c).removeEdge e).darts ↔
      x ∈ (inducedGraph G c).darts ∧ x ≠ e ∧ x ≠ (e.2, e.1) :=
    fun x => mem_darts_removeEdge hwc hein
  have hsp : ∀ x ∈ ((inducedGraph G c).removeEdge e).darts,
      faceSucc (deleteRotSys (inducedGraph G c) e (inducedRot c ρ)) x =
        if faceSucc (inducedRot c ρ) x = e
          then faceSucc (inducedRot c ρ) (e.2, e.1)
        else if faceSucc (inducedRot c ρ) x = (e.2, e.1)
          then faceSucc (inducedRot c ρ) e
        else faceSucc (inducedRot c ρ) x :=
    fun x hx => faceSucc_deleteRotSys hwc hein hvalc hx
  have hvalc' := validRot_deleteRotSys hwc hein hvalc
  have hclosed' : ∀ x ∈ ((inducedGraph G c).removeEdge e).darts,
      faceSucc (deleteRotSys (inducedGraph G c) e (inducedRot c ρ)) x ∈
        ((inducedGraph G c).removeEdge e).darts :=
    fun x hx => faceSucc_mem_darts hwc' hvalc' hx
  have hinj' : ∀ x ∈ ((inducedGraph G c).removeEdge e).darts,
      ∀ y ∈ ((inducedGraph G c).removeEdge e).darts,
      faceSucc (deleteRotSys (inducedGraph G c) e (inducedRot c ρ)) x =
        faceSucc (deleteRotSys (inducedGraph G c) e (inducedRot c ρ)) y →
      x = y :=
    fun x hx y hy h => faceSucc_injOn hwc' hvalc' hx hy h
  have hpair := (respectsb_iff hw hρ).mp hresp
  have hcorD := cornersList_mem_darts (c := c) hw hρ
  have hw2 := removeEdge_wfb hw e
  have hρ2 := validRot_deleteRotSys hw he hρ
  rw [respectsb_iff hw2 hρ2]
  intro x hx y hy
  have hxD'0 : x ∈ (inducedGraph (G.removeEdge e) c).darts :=
    cornersList_mem_darts hw2 hρ2 x hx
  have hyD'0 : y ∈ (inducedGraph (G.removeEdge e) c).darts :=
    cornersList_mem_darts hw2 hρ2 y hy
  rw [inducedGraph_removeEdge_mem hec] at hxD'0 hyD'0 ⊢
  have hagree : ∀ t ∈ ((inducedGraph G c).removeEdge e).darts,
      faceSucc (inducedRot c (deleteRotSys G e ρ)) t =
        faceSucc (deleteRotSys (inducedGraph G c) e (inducedRot c ρ)) t := by
    intro t ht
    have ht2 : t.2 ∈ (inducedGraph G c).verts := darts_snd_mem_verts hwc' ht
    have ht2' : t.2 ∈ G.verts.filter (· ∈ c) := ht2
    obtain ⟨htG, htc⟩ := List.mem_filter.mp ht2'
    rw [decide_eq_true_iff] at htc
    unfold faceSucc
    rw [lookup_induced_delete_mem hec htG htc]
  have hclosedA : ∀ t ∈ ((inducedGraph G c).removeEdge e).darts,
      faceSucc (inducedRot c (deleteRotSys G e ρ)) t ∈
        ((inducedGraph G c).removeEdge e).darts := by
    intro t ht
    rw [hagree t ht]
    exact hclosed' t ht
  rw [orbSet_congr hagree hclosedA hxD'0
    ((inducedGraph G c).removeEdge e).darts.length]
  have hsub : ((inducedGraph G c).removeEdge e).darts.length ≤
      (inducedGraph G c).darts.length :=
    (List.subperm_of_subset hndD'
      (fun t ht => darts_removeEdge_subset hwc hein ht)).length_le
  have hDlen : ((inducedGraph G c).removeEdge e).darts.length ≤
      2 * (inducedGraph G c).darts.length := by omega
  rw [orbSet_stable hndD' hclosed' hinj' hxD'0 (le_refl _) hDlen]
  have hclass := cornersList_delete_mem_classify hw he hρ hec
  have hxcl := hclass x hx
  have hycl := hclass y hy
  have hx₀ex : ∃ x₀, x₀ ∈ cornersList G ρ c := by
    rcases hxcl with ⟨h, -, -⟩ | ⟨-, h⟩ | ⟨-, h⟩ <;> exact ⟨_, h⟩
  obtain ⟨x₀, hx₀⟩ := hx₀ex
  have hx₀D : x₀ ∈ (inducedGraph G c).darts := hcorD x₀ hx₀
  have hDleN : (inducedGraph G c).darts.length ≤
      2 * (inducedGraph G c).darts.length := by omega
  have hFmem : ∀ z ∈ cornersList G ρ c,
      z ∈ orbSet (faceSucc (inducedRot c ρ))
        (2 * (inducedGraph G c).darts.length) x₀ := by
    intro z hz
    have h1 := hpair x₀ hx₀ z hz
    rw [orbSet_stable hndD hclosed hinj hx₀D (le_refl _) hDleN] at h1
    exact h1
  have hFeq : ∀ z ∈ cornersList G ρ c,
      orbSet (faceSucc (inducedRot c ρ)) (2 * (inducedGraph G c).darts.length) z =
        orbSet (faceSucc (inducedRot c ρ)) (2 * (inducedGraph G c).darts.length) x₀ :=
    fun z hz => orbSet_eq_of_mem hndD hclosed hinj hx₀D hDleN (hFmem z hz)
  by_cases htouch :
      e ∈ orbSet (faceSucc (inducedRot c ρ))
        (2 * (inducedGraph G c).darts.length) x₀ ∨
      (e.2, e.1) ∈ orbSet (faceSucc (inducedRot c ρ))
        (2 * (inducedGraph G c).darts.length) x₀
  · have hmerge := splice_merge_orbit hndD hclosed hinj hfix hd₁ hd₂ hned
      hmem' hsp (le_refl _) hsep
    have hσd₁D' : faceSucc (inducedRot c ρ) e ∈
        ((inducedGraph G c).removeEdge e).darts := by
      refine (hmem' _).mpr ⟨hclosed e hd₁, hfix e hd₁, ?_⟩
      intro hcon
      apply hsep
      exact mem_orbSet_iff.mpr ⟨1, by omega,
        by simp only [Function.iterate_one]; exact hcon⟩
    have hin : ∀ z,
        ((z ∈ cornersList G ρ c ∧ z ≠ e ∧ z ≠ (e.2, e.1)) ∨
         (z = faceSucc (inducedRot c ρ) (e.2, e.1) ∧ e ∈ cornersList G ρ c) ∨
         (z = faceSucc (inducedRot c ρ) e ∧ (e.2, e.1) ∈ cornersList G ρ c)) →
        z ∈ orbSet (faceSucc (deleteRotSys (inducedGraph G c) e (inducedRot c ρ)))
          (2 * (inducedGraph G c).darts.length) (faceSucc (inducedRot c ρ) e) := by
      intro z hzcl
      rw [hmerge, Finset.mem_sdiff, Finset.mem_union]
      rcases hzcl with ⟨hz, hz1, hz2⟩ | ⟨hzeq, hcor⟩ | ⟨hzeq, hcor⟩
      · refine ⟨?_, ?_⟩
        · rcases htouch with ht | ht
          · left
            rw [orbSet_eq_of_mem hndD hclosed hinj hx₀D hDleN ht]
            exact hFmem z hz
          · right
            rw [orbSet_eq_of_mem hndD hclosed hinj hx₀D hDleN ht]
            exact hFmem z hz
        · rw [Finset.mem_insert, Finset.mem_singleton]
          push_neg
          exact ⟨hz1, hz2⟩
      · refine ⟨Or.inr ?_, ?_⟩
        · rw [hzeq]
          exact mem_orbSet_iff.mpr ⟨1, by omega, by simp⟩
        · rw [Finset.mem_insert, Finset.mem_singleton]
          push_neg
          constructor
          · rw [hzeq]
            intro hcon
            apply hsep
            have h3 : e ∈ orbSet (faceSucc (inducedRot c ρ))
                (2 * (inducedGraph G c).darts.length) (e.2, e.1) :=
              mem_orbSet_iff.mpr ⟨1, by omega,
                by simp only [Function.iterate_one]; exact hcon⟩
            exact orbSet_mem_symm hndD hclosed hinj hd₂ hDleN (by omega) h3
          · rw [hzeq]
            exact hfix (e.2, e.1) hd₂
      · refine ⟨Or.inl ?_, ?_⟩
        · rw [hzeq]
          exact mem_orbSet_iff.mpr ⟨1, by omega, by simp⟩
        · rw [Finset.mem_insert, Finset.mem_singleton]
          push_neg
          constructor
          · rw [hzeq]
            exact hfix e hd₁
          · rw [hzeq]
            intro hcon
            apply hsep
            exact mem_orbSet_iff.mpr ⟨1, by omega,
              by simp only [Function.iterate_one]; exact hcon⟩
    have hxO := hin x hxcl
    have hyO := hin y hycl
    rw [orbSet_eq_of_mem hndD' hclosed' hinj' hσd₁D' hDlen hxO]
    exact hyO
  · push_neg at htouch
    have htype : ∀ {z : Nat × Nat},
        ((z ∈ cornersList G ρ c ∧ z ≠ e ∧ z ≠ (e.2, e.1)) ∨
         (z = faceSucc (inducedRot c ρ) (e.2, e.1) ∧ e ∈ cornersList G ρ c) ∨
         (z = faceSucc (inducedRot c ρ) e ∧ (e.2, e.1) ∈ cornersList G ρ c)) →
        z ∈ cornersList G ρ c := by
      rintro z (⟨h, -, -⟩ | ⟨-, h⟩ | ⟨-, h⟩)
      · exact h
      · exfalso
        apply htouch.1
        rw [← hFeq e h]
        exact mem_orbSet_self (by omega) e
      · exfalso
        apply htouch.2
        rw [← hFeq (e.2, e.1) h]
        exact mem_orbSet_self (by omega) (e.2, e.1)
    have hxC := htype hxcl
    have hyC := htype hycl
    rw [splice_untouched hndD hclosed hinj hmem' hsp hxD'0 hDleN
      (by rw [hFeq x hxC]; exact htouch.1)
      (by rw [hFeq x hxC]; exact htouch.2)]
    rw [hFeq x hxC]
    exact hFmem y hyC

/-! Sufficiency: one good rotation system for all clusters makes the
recursive test succeed. -/

mutual

theorem testTree_ok_of (G : FGraph) (ρ : List (Nat × List Nat))
    (hρmem : ρ ∈ allRotSystems G) (hpc : planarCheck G ρ = true) :
    ∀ t : CTree, (∀ ms ∈ allClusters t, respectsb G ρ ms = true) →
      testTree G t = .ok ()
  | .node ms cs, hresp => by
    have hch : testChildren G cs = .ok () :=
      testChildren_ok_of G ρ hρmem hpc cs (fun m hm => hresp m
        (by rw [allClusters]; exact List.mem_cons_of_mem _ hm))
    have hok : subtreeOK G (.node ms cs) = true := by
      rw [subtreeOK, List.any_eq_true]
      refine ⟨ρ, hρmem, ?_⟩
      rw [Bool.and_eq_true, List.all_eq_true]
      exact ⟨hpc, fun m hm => hresp m hm⟩
    rw [testTree, hch, if_pos hok]

theorem testChildren_ok_of (G : FGraph) (ρ : List (Nat × List Nat))
    (hρmem : ρ ∈ allRotSystems G) (hpc : planarCheck G ρ = true) :
    ∀ ts : List CTree, (∀ ms ∈ allClustersList ts, respectsb G ρ ms = true) →
      testChildren G ts = .ok ()
  | [], _ => by rw [testChildren]
  | t :: ts, hresp => by
    have ht : testTree G t = .ok () :=
      testTree_ok_of G ρ hρmem hpc t (fun m hm => hresp m
        (by rw [allClustersList]; exact List.mem_append_left _ hm))
    have hts : testChildren G ts = .ok () :=
      testChildren_ok_of G ρ hρmem hpc ts (fun m hm => hresp m
        (by rw [allClustersList]; exact List.mem_append_right _ hm))
    rw [testChildren, ht]
    exact hts

end

/-- The original claim C9 fails as stated: deleting the only edge of the
single-edge graph makes the flat graph disconnected, so `call` flips to
false (with `nonConnected`) although the input was accepted. -/
theorem claim_C9_counterexample :
    (callResult ⟨oneEdge, trivialTree oneEdge⟩).1 = true ∧
    (1, 2) ∈ oneEdge.edges ∧
    (callResult (deleteEdge ⟨oneEdge, trivialTree oneEdge⟩ (1, 2))).1 = false := by
  decide

/-- Claim C9 (amended) — subgraph monotonicity under preserved
preconditions: if `call` accepts a well-formed clustered graph, and
deleting one edge of the underlying graph keeps the flat graph connected
and keeps every cluster's induced subgraph connected, then `call` also
accepts the clustered graph with that edge deleted. (As stated the
claim is false; see `claim_C9_counterexample`.) -/
theorem claim_C9 (C : CluGraph) (e : Nat × Nat)
    (hw : C.graph.wfb = true)
    (h : (callResult C).1 = true)
    (he : e ∈ C.graph.edges)
    (hconn : connectedb (C.graph.removeEdge e) = true)
    (hcc : allClustersConnectedb (deleteEdge C e) = true) :
    (callResult (deleteEdge C e)).1 = true := by
  obtain ⟨-, -, h3⟩ := callResult_fst_true_iff.mp h
  refine callResult_fst_true_iff.mpr ⟨hconn, hcc, ?_⟩
  show testTree (C.graph.removeEdge e) C.root = .ok ()
  cases hroot : C.root with
  | node ms cs =>
    rw [hroot] at h3
    have hsub := testTree_ok_subtreeOK h3
    obtain ⟨ρ, hρmem, hpc, hresp⟩ := subtreeOK_exists hsub
    have hρval := validRot_of_mem hρmem
    have hρ'mem : deleteRotSys C.graph e ρ ∈ allRotSystems (C.graph.removeEdge e) :=
      deleteRotSys_mem hw he hρmem
    have hpc' := planarCheck_removeEdge hw he hρval hpc
    have hccAll : ∀ c ∈ allClusters (CTree.node ms cs),
        connectedb (inducedGraph (C.graph.removeEdge e) c) = true := by
      intro c hcm
      rw [allClustersConnectedb, List.all_eq_true] at hcc
      have h5 := hcc c (by show c ∈ allClusters C.root; rw [hroot]; exact hcm)
      simpa using h5
    refine testTree_ok_of _ _ hρ'mem hpc' _ ?_
    intro c hcm
    by_cases hec : e.1 ∈ c ∧ e.2 ∈ c
    · exact respectsb_delete_mem hw he hρval hpc hec (hccAll c hcm) (hresp c hcm)
    · exact respectsb_delete_notmem hw he hρval hec (hresp c hcm)

/-- Witness for the amended claim C9: the triangle in a trivial root
cluster stays accepted after deleting edge (1,2). -/
theorem claim_C9_witness :
    (callResult (deleteEdge
      ⟨⟨[1, 2, 3], [(1,2),(1,3),(2,3)]⟩, CTree.node [1, 2, 3] []⟩
      (1, 2))).1 = true :=
  claim_C9 ⟨⟨[1, 2, 3], [(1,2),(1,3),(2,3)]⟩, CTree.node [1, 2, 3] []⟩ (1, 2)
    (by decide) (by decide) (by decide) (by decide) (by decide)
